import Mathlib

/-! # pico-SSD1306-lib: the controller driver and the software rasterizer

A shallow embedding of `src/ssd1306.c`, `src/ssd1306.h` and `src/main.c`.

* C `int` values are `Int`; the drawing code is only used on panel coordinates,
  far away from the limits of a 32-bit `int`, so no wrap-around is modelled for
  them.  Values stored into a `uint8_t` are reduced `% 256` where the stored
  expression is wider than a byte, and the `int16_t` position that `WriteString`
  advances is reduced to the range of `int16_t`.
* A byte buffer (`uint8_t *`) is a `List Nat`.  A read or write outside the
  buffer, and a failed `assert`, make the operation return `none`.
* The I2C transport (`i2c_write_blocking`) is a collaborator outside the
  repository: a transmission is recorded by appending it to a log.
* `ssd1306_config.h` and `ssd1306_font.h` are not part of the sources: the
  configuration constants and the font table are parameters.
-/

namespace SSD1306

/-! ## Configuration (`ssd1306_config.h`, `ssd1306.h`) -/

/-- Modelled from the spec: the constants of `ssd1306_config.h`, which is not among the
sources ("panel width, height, device bus address, ..., upside-down orientation flag"). -/
structure Config where
  WIDTH : Int
  HEIGHT : Int
  UPSIDE_DOWN : Int
  I2C_ADDR : Nat
  deriving DecidableEq, Repr

/-- The macro `SSD1306_PAGE_HEIGHT`. -/
def SSD1306_PAGE_HEIGHT : Int := 8

/-- The macro `SSD1306_NUM_PAGES`, `(SSD1306_HEIGHT / SSD1306_PAGE_HEIGHT)`. -/
def SSD1306_NUM_PAGES (cfg : Config) : Int := Int.tdiv cfg.HEIGHT SSD1306_PAGE_HEIGHT

/-- The macro `SSD1306_BUF_LEN`, `(SSD1306_NUM_PAGES * SSD1306_WIDTH)`. -/
def SSD1306_BUF_LEN (cfg : Config) : Int := SSD1306_NUM_PAGES cfg * cfg.WIDTH

/-! ## The software rasterizer (`main.c`) -/

/-- The function `SetPixel` of `main.c`.  The `assert` on the coordinates and every access
outside the buffer give `none`.  `byte |= 1 << (y % 8)` and `byte &= ~(1 << (y % 8))` are
computed on `int` and stored back into a `uint8_t`. -/
def SetPixel (cfg : Config) (buf : List Nat) (x y : Int) (on_ : Bool) : Option (List Nat) :=
  if x ≥ 0 ∧ x < cfg.WIDTH ∧ y ≥ 0 ∧ y < cfg.HEIGHT then
    let BytesPerRow := cfg.WIDTH
    let byte_idx := (Int.tdiv y 8) * BytesPerRow + x
    if byte_idx < 0 then none
    else
      match buf[byte_idx.toNat]? with
      | none => none
      | some byte =>
        let byte :=
          if on_ then (byte ||| (1 <<< (Int.tmod y 8).toNat)) % 256
          else (byte &&& (0xFFFFFFFF ^^^ (1 <<< (Int.tmod y 8).toNat))) % 256
        some (buf.set byte_idx.toNat byte)
  else none

/-- Reading a pixel, after the layout invariant of the data model: pixel `(x, y)` is bit
`y % 8` of the byte at flat index `(y / 8) * width + x`.  The sources have no reader; this
is the observation the properties of `SetPixel` are stated with. -/
def pixelAt (cfg : Config) (buf : List Nat) (x y : Int) : Option Bool :=
  if (Int.tdiv y 8) * cfg.WIDTH + x < 0 then none
  else
    match buf[((Int.tdiv y 8) * cfg.WIDTH + x).toNat]? with
    | none => none
    | some byte => some (byte.testBit (Int.tmod y 8).toNat)

/-- The body of the `while (true)` loop of `DrawLine`, run for at most `fuel` iterations:
`none` when the fuel runs out before the `break`, or when `SetPixel` fails. -/
def DrawLine.loop (cfg : Config) (x1 y1 dx sx dy sy : Int) (on_ : Bool) :
    Nat → List Nat → Int → Int → Int → Option (List Nat)
  | 0, _, _, _, _ => none
  | fuel + 1, buf, x0, y0, err =>
    match SetPixel cfg buf x0 y0 on_ with
    | none => none
    | some buf =>
      if x0 = x1 ∧ y0 = y1 then some buf
      else
        let e2 := 2 * err
        let err1 := if e2 ≥ dy then err + dy else err
        let x0 := if e2 ≥ dy then x0 + sx else x0
        let err2 := if e2 ≤ dx then err1 + dx else err1
        let y0 := if e2 ≤ dx then y0 + sy else y0
        DrawLine.loop cfg x1 y1 dx sx dy sy on_ fuel buf x0 y0 err2

/-- The function `DrawLine` of `main.c` ("Basic Bresenhams"), its loop bounded by `fuel`. -/
def DrawLine (cfg : Config) (fuel : Nat) (buf : List Nat) (x0 y0 x1 y1 : Int) (on_ : Bool) :
    Option (List Nat) :=
  let dx := |x1 - x0|
  let sx : Int := if x0 < x1 then 1 else -1
  let dy := -|y1 - y0|
  let sy : Int := if y0 < y1 then 1 else -1
  let err := dx + dy
  DrawLine.loop cfg x1 y1 dx sx dy sy on_ fuel buf x0 y0 err

/-- The loop of `DrawLine` with the buffer left out: the points it passes to `SetPixel`,
in order (`none` when the fuel runs out before the `break`). -/
def DrawLine.points (x1 y1 dx sx dy sy : Int) :
    Nat → Int → Int → Int → Option (List (Int × Int))
  | 0, _, _, _ => none
  | fuel + 1, x0, y0, err =>
    if x0 = x1 ∧ y0 = y1 then some [(x0, y0)]
    else
      let e2 := 2 * err
      let err1 := if e2 ≥ dy then err + dy else err
      let x0' := if e2 ≥ dy then x0 + sx else x0
      let err2 := if e2 ≤ dx then err1 + dx else err1
      let y0' := if e2 ≤ dx then y0 + sy else y0
      (DrawLine.points x1 y1 dx sx dy sy fuel x0' y0' err2).map (fun ps => (x0, y0) :: ps)

/-- The points `DrawLine` passes to `SetPixel` for the given endpoints. -/
def DrawLine.trace (fuel : Nat) (x0 y0 x1 y1 : Int) : Option (List (Int × Int)) :=
  DrawLine.points x1 y1 |x1 - x0| (if x0 < x1 then 1 else -1) (-|y1 - y0|)
    (if y0 < y1 then 1 else -1) fuel x0 y0 (|x1 - x0| + -|y1 - y0|)

/-- The function `SetPixel` applied to a list of points, in order. -/
def SetPixels (cfg : Config) (on_ : Bool) : List (Int × Int) → List Nat → Option (List Nat)
  | [], buf => some buf
  | p :: ps, buf =>
    match SetPixel cfg buf p.1 p.2 on_ with
    | none => none
    | some buf => SetPixels cfg on_ ps buf

/-- The C library function `toupper` in the "C" locale, on the values of an `unsigned char`. -/
def toupper (c : Nat) : Nat := if 97 ≤ c ∧ c ≤ 122 then c - 32 else c

/-- The function `GetFontIndex` of `main.c`. -/
def GetFontIndex (ch : Nat) : Int :=
  if ch ≥ 65 ∧ ch ≤ 90 then (ch : Int) - 65 + 1
  else if ch ≥ 48 ∧ ch ≤ 57 then (ch : Int) - 48 + 27
  else 0

/-- The glyph index of a character as `WriteChar` computes it: `ch = toupper(ch)` stored
into the `uint8_t`, then `GetFontIndex(ch)`. -/
def glyph_index (ch : Nat) : Int := GetFontIndex (toupper ch % 256)

/-- The function `reverse` of `main.c`; each assignment stores into the `uint8_t b`. -/
def reverse (b : Nat) : Nat :=
  let b := (((b &&& 0xF0) >>> 4) ||| ((b &&& 0x0F) <<< 4)) % 256
  let b := (((b &&& 0xCC) >>> 2) ||| ((b &&& 0x33) <<< 2)) % 256
  let b := (((b &&& 0xAA) >>> 1) ||| ((b &&& 0x55) <<< 1)) % 256
  b

/-- The function `FillReversedCache` of `main.c`: the loop `for i in 0 .. sizeof(font)` over
the cache `reversed`, an array of `sizeof(font)` bytes.  The font table of `ssd1306_font.h`
is the parameter `font`. -/
def FillReversedCache (font reversed : List Nat) : List Nat :=
  (List.range font.length).foldl (fun r i => r.set i (reverse (font.getD i 0))) reversed

/-- The copy loop of `WriteChar`, `for (i = 0; i < 8; i++) buf[fb_idx++] = reversed[idx * 8 + i]`,
from iteration `i` on. -/
def WriteChar.copy (reversed : List Nat) (idx : Int) :
    Nat → Nat → List Nat → Int → Option (List Nat)
  | 0, _, buf, _ => some buf
  | n + 1, i, buf, fb_idx =>
    if idx * 8 + i < 0 then none
    else
      match reversed[(idx * 8 + i).toNat]? with
      | none => none
      | some g =>
        if fb_idx < 0 ∨ fb_idx ≥ buf.length then none
        else WriteChar.copy reversed idx n (i + 1) (buf.set fb_idx.toNat g) (fb_idx + 1)

/-- The function `WriteChar` of `main.c`.  The state is the glyph cache `reversed` and the
buffer; the result is `none` on an access outside the cache or the buffer. -/
def WriteChar (cfg : Config) (font : List Nat) (reversed buf : List Nat) (x y : Int) (ch : Nat) :
    Option (List Nat × List Nat) :=
  match reversed[0]? with
  | none => none
  | some r0 =>
    let reversed := if r0 = 0 then FillReversedCache font reversed else reversed
    if x > cfg.WIDTH - 8 ∨ y > cfg.HEIGHT - 8 then some (reversed, buf)
    else
      let y := Int.tdiv y 8
      let ch := toupper ch % 256
      let idx := GetFontIndex ch
      let fb_idx := y * 128 + x
      (WriteChar.copy reversed idx 8 0 buf fb_idx).map (fun buf => (reversed, buf))

/-- The states of the glyph cache reachable from its initial state `{0}`: the cache starts
all zero, and only `WriteChar` changes it. -/
inductive CacheReachable (cfg : Config) (font : List Nat) : List Nat → Prop
  | init : CacheReachable cfg font (List.replicate font.length 0)
  | step (reversed buf : List Nat) (x y : Int) (ch : Nat) (reversed1 buf1 : List Nat) :
      CacheReachable cfg font reversed →
      WriteChar cfg font reversed buf x y ch = some (reversed1, buf1) →
      CacheReachable cfg font reversed1

/-- The struct `render_area` of `ssd1306.h`: four `uint8_t` bounds and the `int buflen`. -/
structure render_area where
  start_col : Nat
  end_col : Nat
  start_page : Nat
  end_page : Nat
  buflen : Int
  deriving DecidableEq, Repr

/-- The fields of a `render_area` that are `uint8_t` hold bytes. -/
def render_area.wf (a : render_area) : Prop :=
  a.start_col < 256 ∧ a.end_col < 256 ∧ a.start_page < 256 ∧ a.end_page < 256

/-- The function `calc_render_area_buflen` of `main.c`; the `uint8_t` fields are promoted to
`int` before the arithmetic. -/
def calc_render_area_buflen (area : render_area) : render_area :=
  { area with
    buflen := ((area.end_col : Int) - area.start_col + 1) *
      ((area.end_page : Int) - area.start_page + 1) }

/-! ## The controller driver (`ssd1306.c`) -/

def SSD1306_SET_MEM_MODE : Nat := 0x20
def SSD1306_SET_COL_ADDR : Nat := 0x21
def SSD1306_SET_PAGE_ADDR : Nat := 0x22
def SSD1306_SET_HORIZ_SCROLL : Nat := 0x26
def SSD1306_SET_SCROLL : Nat := 0x2E
def SSD1306_SET_DISP_START_LINE : Nat := 0x40
def SSD1306_SET_CONTRAST : Nat := 0x81
def SSD1306_SET_CHARGE_PUMP : Nat := 0x8D
def SSD1306_SET_SEG_REMAP : Nat := 0xA0
def SSD1306_SET_ENTIRE_ON : Nat := 0xA4
def SSD1306_SET_ALL_ON : Nat := 0xA5
def SSD1306_SET_NORM_DISP : Nat := 0xA6
def SSD1306_SET_INV_DISP : Nat := 0xA7
def SSD1306_SET_MUX_RATIO : Nat := 0xA8
def SSD1306_SET_DISP : Nat := 0xAE
def SSD1306_SET_COM_OUT_DIR : Nat := 0xC0
def SSD1306_SET_COM_OUT_DIR_FLIP : Nat := 0xC0
def SSD1306_SET_DISP_OFFSET : Nat := 0xD3
def SSD1306_SET_DISP_CLK_DIV : Nat := 0xD5
def SSD1306_SET_PRECHARGE : Nat := 0xD9
def SSD1306_SET_COM_PIN_CFG : Nat := 0xDA
def SSD1306_SET_VCOM_DESEL : Nat := 0xDB

/-- One call of the transport: the device address and the bytes transmitted. -/
structure Transmission where
  addr : Nat
  bytes : List Nat
  deriving DecidableEq, Repr

/-- The bus: the transmissions made so far, oldest first. -/
abbrev Bus := List Transmission

/-- The transport `i2c_write_blocking(i2c, addr, src, len, nostop)` of the SDK: transmits the
first `len` bytes of `src` to `addr` in one transaction. -/
def i2c_write_blocking (bus : Bus) (addr : Nat) (src : List Nat) (len : Nat) : Bus :=
  bus ++ [{ addr := addr, bytes := src.take len }]

/-- The function `SSD1306_send_cmd`; the argument is converted to `uint8_t`. -/
def SSD1306_send_cmd (cfg : Config) (bus : Bus) (cmd : Nat) : Bus :=
  let buf := [0x80, cmd % 256]
  i2c_write_blocking bus cfg.I2C_ADDR buf 2

/-- The loop of `SSD1306_send_cmd_list`, `for (i = 0; i < len; i++)`, from index `i` on, with
`n` iterations left. -/
def SSD1306_send_cmd_list.loop (cfg : Config) (list : List Nat) : Nat → Nat → Bus → Option Bus
  | 0, _, bus => some bus
  | n + 1, i, bus =>
    match list[i]? with
    | none => none
    | some c => SSD1306_send_cmd_list.loop cfg list n (i + 1) (SSD1306_send_cmd cfg bus c)

/-- The function `SSD1306_send_cmd_list`; a read past the end of `list` gives `none`. -/
def SSD1306_send_cmd_list (cfg : Config) (bus : Bus) (list : List Nat) (len : Int) : Option Bus :=
  SSD1306_send_cmd_list.loop cfg list len.toNat 0 bus

/-- The function `SSD1306_send_buf`: the scratch buffer `temp_buf` of `len + 1` bytes gets the
control byte and a copy of the first `len` bytes of `buf`, and is transmitted in one call.
The result is the caller's buffer after the call and the bus; a negative `len` and a read
past the end of `buf` give `none`. -/
def SSD1306_send_buf (cfg : Config) (bus : Bus) (buf : List Nat) (len : Int) :
    Option (List Nat × Bus) :=
  if len < 0 ∨ len > buf.length then none
  else
    let temp_buf := 0x40 :: buf.take len.toNat
    some (buf, i2c_write_blocking bus cfg.I2C_ADDR temp_buf (len + 1).toNat)

/-- The function `SSD1306_render`. -/
def SSD1306_render (cfg : Config) (bus : Bus) (buf : List Nat) (area : render_area) :
    Option (List Nat × Bus) :=
  let cmds := [SSD1306_SET_COL_ADDR, area.start_col, area.end_col,
    SSD1306_SET_PAGE_ADDR, area.start_page, area.end_page]
  match SSD1306_send_cmd_list cfg bus cmds cmds.length with
  | none => none
  | some bus => SSD1306_send_buf cfg bus buf area.buflen

/-- The array `cmds` of `SSD1306_init`, with the choices of the preprocessor made from the
configuration; every element is stored as a `uint8_t`. -/
def SSD1306_init.cmds (cfg : Config) : List Nat :=
  [SSD1306_SET_DISP,
   SSD1306_SET_MEM_MODE,
   0x00,
   SSD1306_SET_DISP_START_LINE] ++
  (if cfg.UPSIDE_DOWN = 0 then
    [SSD1306_SET_SEG_REMAP ||| 0x00, SSD1306_SET_COM_OUT_DIR ||| 0x00]
   else
    [SSD1306_SET_SEG_REMAP ||| 0x01, SSD1306_SET_COM_OUT_DIR ||| 0x08]) ++
  [ SSD1306_SET_MUX_RATIO,
   ((cfg.HEIGHT - 1) % 256).toNat,
   SSD1306_SET_DISP_OFFSET,
   0x00,
   SSD1306_SET_COM_PIN_CFG] ++
  (if cfg.WIDTH = 128 ∧ cfg.HEIGHT = 32 then [0x02]
   else if cfg.WIDTH = 128 ∧ cfg.HEIGHT = 64 then [0x12]
   else [0x02]) ++
  [SSD1306_SET_DISP_CLK_DIV,
   0x80,
   SSD1306_SET_PRECHARGE,
   0xF1,
   SSD1306_SET_VCOM_DESEL,
   0x30,
   SSD1306_SET_CONTRAST,
   0xFF,
   SSD1306_SET_ENTIRE_ON,
   SSD1306_SET_NORM_DISP,
   SSD1306_SET_CHARGE_PUMP,
   0x14,
   SSD1306_SET_SCROLL ||| 0x00,
   SSD1306_SET_DISP ||| 0x01]

/-- The function `SSD1306_init`.  The set-up of the I2C peripheral and of its pins makes no
transmission; the commands go out through `SSD1306_send_cmd_list`. -/
def SSD1306_init (cfg : Config) (bus : Bus) : Option Bus :=
  let cmds := SSD1306_init.cmds cfg
  SSD1306_send_cmd_list cfg bus cmds cmds.length

/-- The transmission `SSD1306_send_cmd` makes for the command byte `c`. -/
def cmdFrame (cfg : Config) (c : Nat) : Transmission := { addr := cfg.I2C_ADDR, bytes := [0x80, c] }

/-- A 128x32 panel at the usual address, not upside down. -/
def panel128x32 : Config := { WIDTH := 128, HEIGHT := 32, UPSIDE_DOWN := 0, I2C_ADDR := 0x3C }

/-- A 128x64 panel at the usual address, not upside down. -/
def panel128x64 : Config := { WIDTH := 128, HEIGHT := 64, UPSIDE_DOWN := 0, I2C_ADDR := 0x3C }

/-- A 64x32 panel at the usual address, not upside down. -/
def panel64x32 : Config := { WIDTH := 64, HEIGHT := 32, UPSIDE_DOWN := 0, I2C_ADDR := 0x3C }

/-- The enum `SSD1306_scroll_interval` of `ssd1306.h`, its members in the order of their
declaration. -/
inductive SSD1306_scroll_interval
  | SSD1306_SCROLL_INTERVAL_5
  | SSD1306_SCROLL_INTERVAL_64
  | SSD1306_SCROLL_INTERVAL_128
  | SSD1306_SCROLL_INTERVAL_256
  | SSD1306_SCROLL_INTERVAL_3
  | SSD1306_SCROLL_INTERVAL_4
  | SSD1306_SCROLL_INTERVAL_25
  | SSD1306_SCROLL_INTERVAL_2
  deriving DecidableEq, Repr

/-- The value of a member of `SSD1306_scroll_interval`: an enum without initialisers counts
from 0 in the order of declaration. -/
def SSD1306_scroll_interval.code : SSD1306_scroll_interval → Nat
  | .SSD1306_SCROLL_INTERVAL_5 => 0
  | .SSD1306_SCROLL_INTERVAL_64 => 1
  | .SSD1306_SCROLL_INTERVAL_128 => 2
  | .SSD1306_SCROLL_INTERVAL_256 => 3
  | .SSD1306_SCROLL_INTERVAL_3 => 4
  | .SSD1306_SCROLL_INTERVAL_4 => 5
  | .SSD1306_SCROLL_INTERVAL_25 => 6
  | .SSD1306_SCROLL_INTERVAL_2 => 7

/-- The array `cmds` of `SSD1306_scroll`; every element is stored as a `uint8_t`. -/
def SSD1306_scroll.cmds (cfg : Config) (enabled : Bool) (interval : SSD1306_scroll_interval) :
    List Nat :=
  [SSD1306_SET_HORIZ_SCROLL ||| 0x00,
   0x00,
   0x00,
   interval.code % 256,
   ((SSD1306_NUM_PAGES cfg - 1) % 256).toNat,
   0x00,
   0xFF,
   SSD1306_SET_SCROLL ||| (if enabled then 0x01 else 0)]

/-- The function `SSD1306_scroll`. -/
def SSD1306_scroll (cfg : Config) (bus : Bus) (enabled : Bool)
    (interval : SSD1306_scroll_interval) : Option Bus :=
  let cmds := SSD1306_scroll.cmds cfg enabled interval
  SSD1306_send_cmd_list cfg bus cmds cmds.length

/-- The function `SSD1306_invert`. -/
def SSD1306_invert (cfg : Config) (bus : Bus) (enabled : Bool) : Bus :=
  SSD1306_send_cmd cfg bus (if enabled then SSD1306_SET_INV_DISP else SSD1306_SET_NORM_DISP)

/-- The function `SSD1306_all_pixels_on`. -/
def SSD1306_all_pixels_on (cfg : Config) (bus : Bus) (enabled : Bool) : Bus :=
  SSD1306_send_cmd cfg bus (if enabled then SSD1306_SET_ALL_ON else SSD1306_SET_ENTIRE_ON)

/-- The function `SSD1306_set_contrast`. -/
def SSD1306_set_contrast (cfg : Config) (bus : Bus) (contrast : Nat) : Bus :=
  let bus := SSD1306_send_cmd cfg bus SSD1306_SET_CONTRAST
  SSD1306_send_cmd cfg bus contrast

/-- One call of a function of the driver's public surface (`ssd1306.h`), with its arguments. -/
inductive DriverCall
  | init
  | send_cmd (cmd : Nat)
  | send_cmd_list (list : List Nat) (len : Int)
  | send_buf (buf : List Nat) (len : Int)
  | render (buf : List Nat) (area : render_area)
  | scroll (enabled : Bool) (interval : SSD1306_scroll_interval)
  | invert (enabled : Bool)
  | all_pixels_on (enabled : Bool)
  | set_contrast (contrast : Nat)

/-- The effect of one driver call on the bus. -/
def DriverCall.run (cfg : Config) (bus : Bus) : DriverCall → Option Bus
  | .init => SSD1306_init cfg bus
  | .send_cmd cmd => some (SSD1306_send_cmd cfg bus cmd)
  | .send_cmd_list list len => SSD1306_send_cmd_list cfg bus list len
  | .send_buf buf len => (SSD1306_send_buf cfg bus buf len).map Prod.snd
  | .render buf area => (SSD1306_render cfg bus buf area).map Prod.snd
  | .scroll enabled interval => SSD1306_scroll cfg bus enabled interval
  | .invert enabled => some (SSD1306_invert cfg bus enabled)
  | .all_pixels_on enabled => some (SSD1306_all_pixels_on cfg bus enabled)
  | .set_contrast contrast => some (SSD1306_set_contrast cfg bus contrast)

/-- The effect of a sequence of driver calls, made one after the other, on the bus. -/
def runCalls (cfg : Config) : List DriverCall → Bus → Option Bus
  | [], bus => some bus
  | c :: cs, bus =>
    match c.run cfg bus with
    | none => none
    | some bus => runCalls cfg cs bus

/-- The conversion of an `int` to `int16_t`: reduction modulo `2 ^ 16` into
`-32768 .. 32767`. -/
def int16 (v : Int) : Int := (v + 32768) % 65536 - 32768

/-- The loop `while (*str) { WriteChar(buf, x, y, *str++); x += 8; }` of `WriteString`.  The
string is the list of its bytes; the loop ends at the first zero byte, or at the end of the
list, where the terminating zero stands.  `x` is an `int16_t`. -/
def WriteString.loop (cfg : Config) (font : List Nat) (y : Int) :
    List Nat → List Nat → List Nat → Int → Option (List Nat × List Nat)
  | [], reversed, buf, _ => some (reversed, buf)
  | c :: str, reversed, buf, x =>
    if c = 0 then some (reversed, buf)
    else
      match WriteChar cfg font reversed buf x y c with
      | none => none
      | some (reversed, buf) => WriteString.loop cfg font y str reversed buf (int16 (x + 8))

/-- The function `WriteString` of `main.c`.  As for `WriteChar`, the state is the glyph cache
and the buffer. -/
def WriteString (cfg : Config) (font : List Nat) (reversed buf : List Nat) (x y : Int)
    (str : List Nat) : Option (List Nat × List Nat) :=
  if x > cfg.WIDTH - 8 ∨ y > cfg.HEIGHT - 8 then some (reversed, buf)
  else WriteString.loop cfg font y str reversed buf x

/-- The drawing of a text as the specification words it: each character is drawn with
`WriteChar`, in order, at the horizontal position listed with it and the same `y`. -/
def drawEach (cfg : Config) (font : List Nat) (y : Int) :
    List (Int × Nat) → List Nat × List Nat → Option (List Nat × List Nat)
  | [], st => some st
  | (px, c) :: rest, st =>
    match WriteChar cfg font st.1 st.2 px y c with
    | none => none
    | some st1 => drawEach cfg font y rest st1

/-- The horizontal positions `x, x + 8, x + 16, ...` of the characters of a text. -/
def charPositions (x : Int) (text : List Nat) : List (Int × Nat) :=
  ((List.range text.length).map (fun k : Nat => x + 8 * (k : Int))).zip text

/-! ## Vocabulary of the proofs about `DrawLine` -/

/-- A staircase of remaining step counts: the list starts at `(a, b)`, ends at `(0, 0)`, and
each element is followed by one with the first, the second, or both counts one smaller. -/
inductive Descent : Int → Int → List (Int × Int) → Prop
  | last : Descent 0 0 [(0, 0)]
  | stepX (a b : Int) (l : List (Int × Int)) :
      0 < a → 0 ≤ b → Descent (a - 1) b l → Descent a b ((a, b) :: l)
  | stepY (a b : Int) (l : List (Int × Int)) :
      0 ≤ a → 0 < b → Descent a (b - 1) l → Descent a b ((a, b) :: l)
  | stepXY (a b : Int) (l : List (Int × Int)) :
      0 < a → 0 < b → Descent (a - 1) (b - 1) l → Descent a b ((a, b) :: l)

/-- The point of a line towards `(x1, y1)` with step signs `sx`, `sy` that has `p.1` steps in
`x` and `p.2` steps in `y` left to go. -/
def fromCounts (x1 y1 sx sy : Int) (p : Int × Int) : Int × Int :=
  (x1 - sx * p.1, y1 - sy * p.2)

/-- The straight staircase `[(n * ex, n * ey), ..., (ex, ey), (0, 0)]`. -/
def straight (ex ey : Int) : Nat → List (Int × Int)
  | 0 => [(0, 0)]
  | n + 1 => (((n + 1 : Nat) : Int) * ex, ((n + 1 : Nat) : Int) * ey) :: straight ex ey n

/-- The ascending run `[(s * ex, s * ey), ((s + 1) * ex, (s + 1) * ey), ...]` of `n + 1`
elements. -/
def ascent (ex ey : Int) : Int → Nat → List (Int × Int)
  | s, 0 => [(s * ex, s * ey)]
  | s, n + 1 => (s * ex, s * ey) :: ascent ex ey (s + 1) n

/-- The byte `SetPixel` stores for the old byte `byte` and the bit number `k`. -/
def pixelByte (on_ : Bool) (k byte : Nat) : Nat :=
  if on_ then (byte ||| (1 <<< k)) % 256
  else (byte &&& (0xFFFFFFFF ^^^ (1 <<< k))) % 256

/-! ## Lemmas on bytes -/

theorem testBit_setBit (b k j : Nat) (hj : j < 8) :
    ((b ||| (1 <<< k)) % 256).testBit j = (b.testBit j || decide (k = j)) := by
  have h256 : (256 : Nat) = 2 ^ 8 := by norm_num
  rw [h256, Nat.testBit_mod_two_pow, Nat.testBit_or, Nat.one_shiftLeft, Nat.testBit_two_pow]
  simp [hj]

theorem testBit_clearBit (b k j : Nat) (hj : j < 8) :
    ((b &&& (0xFFFFFFFF ^^^ (1 <<< k))) % 256).testBit j = (b.testBit j && !decide (k = j)) := by
  have h256 : (256 : Nat) = 2 ^ 8 := by norm_num
  have hff : (0xFFFFFFFF : Nat) = 2 ^ 32 - 1 := by norm_num
  rw [h256, Nat.testBit_mod_two_pow, Nat.testBit_and, Nat.testBit_xor, Nat.one_shiftLeft,
    Nat.testBit_two_pow, hff, Nat.testBit_two_pow_sub_one]
  have hj32 : j < 32 := by omega
  simp [hj, hj32]

/-- A flat index determines its row and column. -/
theorem flat_index_inj (W r x r' x' : Int) (hx : 0 ≤ x) (hxW : x < W) (hx' : 0 ≤ x')
    (hxW' : x' < W) (h : r * W + x = r' * W + x') : r = r' ∧ x = x' := by
  have hr : r = r' := by
    rcases lt_trichotomy r r' with hlt | heq | hgt
    · exfalso
      have h1 : r + 1 ≤ r' := hlt
      have h2 : (r + 1) * W ≤ r' * W := Int.mul_le_mul_of_nonneg_right h1 (by omega)
      have h3 : (r + 1) * W = r * W + W := by ring
      omega
    · exact heq
    · exfalso
      have h1 : r' + 1 ≤ r := hgt
      have h2 : (r' + 1) * W ≤ r * W := Int.mul_le_mul_of_nonneg_right h1 (by omega)
      have h3 : (r' + 1) * W = r' * W + W := by ring
      omega
  subst hr
  exact ⟨rfl, by omega⟩

/-! ## `SetPixel` -/

/-- An in-bounds pixel has its byte inside a buffer of `SSD1306_BUF_LEN` bytes. -/
theorem byte_idx_bounds (cfg : Config) (x y : Int) (hH : cfg.HEIGHT % 8 = 0)
    (hx0 : 0 ≤ x) (hxW : x < cfg.WIDTH) (hy0 : 0 ≤ y) (hyH : y < cfg.HEIGHT) :
    0 ≤ (y / 8) * cfg.WIDTH + x ∧ (y / 8) * cfg.WIDTH + x < SSD1306_BUF_LEN cfg := by
  have hP : SSD1306_NUM_PAGES cfg = cfg.HEIGHT / 8 := by
    unfold SSD1306_NUM_PAGES SSD1306_PAGE_HEIGHT
    exact Int.tdiv_eq_ediv (by omega) (by norm_num)
  have h1 : 0 ≤ y / 8 := by omega
  have h2 : y / 8 + 1 ≤ cfg.HEIGHT / 8 := by omega
  have h3 : 0 ≤ (y / 8) * cfg.WIDTH := Int.mul_nonneg h1 (by omega)
  have h4 : (y / 8 + 1) * cfg.WIDTH ≤ (cfg.HEIGHT / 8) * cfg.WIDTH :=
    Int.mul_le_mul_of_nonneg_right h2 (by omega)
  have h5 : (y / 8 + 1) * cfg.WIDTH = (y / 8) * cfg.WIDTH + cfg.WIDTH := by ring
  unfold SSD1306_BUF_LEN
  rw [hP]
  constructor <;> omega

/-- The shape of `SetPixel` on an in-bounds pixel, with the index as a natural number. -/
theorem SetPixel_eq (cfg : Config) (buf : List Nat) (x y : Int) (on_ : Bool)
    (hx0 : 0 ≤ x) (hxW : x < cfg.WIDTH) (hy0 : 0 ≤ y) (hyH : y < cfg.HEIGHT) :
    SetPixel cfg buf x y on_ =
      (buf[((y / 8) * cfg.WIDTH + x).toNat]?).map (fun byte =>
        buf.set ((y / 8) * cfg.WIDTH + x).toNat
          (if on_ then (byte ||| (1 <<< (y % 8).toNat)) % 256
           else (byte &&& (0xFFFFFFFF ^^^ (1 <<< (y % 8).toNat))) % 256)) := by
  have hd : Int.tdiv y 8 = y / 8 := Int.tdiv_eq_ediv hy0 (by norm_num)
  have hm : Int.tmod y 8 = y % 8 := Int.tmod_eq_emod hy0 (by norm_num)
  have h3 : 0 ≤ (y / 8) * cfg.WIDTH := Int.mul_nonneg (by omega) (by omega)
  unfold SetPixel
  rw [if_pos ⟨hx0, hxW, hy0, hyH⟩]
  simp only [hd, hm]
  rw [if_neg (by omega)]
  cases buf[((y / 8) * cfg.WIDTH + x).toNat]? <;> rfl

/-- The shape of `pixelAt` on an in-bounds pixel. -/
theorem pixelAt_eq (cfg : Config) (buf : List Nat) (x y : Int)
    (hx0 : 0 ≤ x) (hxW : x < cfg.WIDTH) (hy0 : 0 ≤ y) :
    pixelAt cfg buf x y =
      (buf[((y / 8) * cfg.WIDTH + x).toNat]?).map (fun byte => byte.testBit (y % 8).toNat) := by
  have hd : Int.tdiv y 8 = y / 8 := Int.tdiv_eq_ediv hy0 (by norm_num)
  have hm : Int.tmod y 8 = y % 8 := Int.tmod_eq_emod hy0 (by norm_num)
  have h3 : 0 ≤ (y / 8) * cfg.WIDTH := Int.mul_nonneg (by omega) (by omega)
  unfold pixelAt
  simp only [hd, hm]
  rw [if_neg (by omega)]
  cases buf[((y / 8) * cfg.WIDTH + x).toNat]? <;> rfl

/-- On an in-bounds pixel and a full-size buffer `SetPixel` succeeds and keeps the length. -/
theorem SetPixel_some (cfg : Config) (buf : List Nat) (x y : Int) (on_ : Bool)
    (hH : cfg.HEIGHT % 8 = 0) (hlen : (buf.length : Int) = SSD1306_BUF_LEN cfg)
    (hx0 : 0 ≤ x) (hxW : x < cfg.WIDTH) (hy0 : 0 ≤ y) (hyH : y < cfg.HEIGHT) :
    ∃ buf1, SetPixel cfg buf x y on_ = some buf1 ∧ buf1.length = buf.length := by
  obtain ⟨hi0, hi1⟩ := byte_idx_bounds cfg x y hH hx0 hxW hy0 hyH
  have hlt : ((y / 8) * cfg.WIDTH + x).toNat < buf.length := by omega
  rw [SetPixel_eq cfg buf x y on_ hx0 hxW hy0 hyH, List.getElem?_eq_getElem hlt]
  exact ⟨_, rfl, by simp⟩

/-- After `SetPixel` the pixel reads as the value written. -/
theorem pixelAt_SetPixel_self (cfg : Config) (buf buf1 : List Nat) (x y : Int) (on_ : Bool)
    (hx0 : 0 ≤ x) (hxW : x < cfg.WIDTH) (hy0 : 0 ≤ y) (hyH : y < cfg.HEIGHT)
    (h : SetPixel cfg buf x y on_ = some buf1) : pixelAt cfg buf1 x y = some on_ := by
  rw [SetPixel_eq cfg buf x y on_ hx0 hxW hy0 hyH] at h
  rw [pixelAt_eq cfg buf1 x y hx0 hxW hy0]
  cases hb : buf[((y / 8) * cfg.WIDTH + x).toNat]? with
  | none => rw [hb] at h; simp at h
  | some byte =>
    rw [hb] at h
    simp only [Option.map_some', Option.some.injEq] at h
    have hlt : ((y / 8) * cfg.WIDTH + x).toNat < buf.length := by
      rcases List.getElem?_eq_some.mp hb with ⟨hlt, _⟩
      exact hlt
    have hk : (y % 8).toNat < 8 := by omega
    subst h
    rw [List.getElem?_set_self hlt]
    cases on_
    · simp [testBit_clearBit _ _ _ hk]
    · simp [testBit_setBit _ _ _ hk]

/-- After `SetPixel` every other in-bounds pixel reads as before. -/
theorem pixelAt_SetPixel_other (cfg : Config) (buf buf1 : List Nat) (x y x' y' : Int)
    (on_ : Bool) (hx0 : 0 ≤ x) (hxW : x < cfg.WIDTH) (hy0 : 0 ≤ y) (hyH : y < cfg.HEIGHT)
    (hx0' : 0 ≤ x') (hxW' : x' < cfg.WIDTH) (hy0' : 0 ≤ y') (hne : (x', y') ≠ (x, y))
    (h : SetPixel cfg buf x y on_ = some buf1) :
    pixelAt cfg buf1 x' y' = pixelAt cfg buf x' y' := by
  rw [SetPixel_eq cfg buf x y on_ hx0 hxW hy0 hyH] at h
  rw [pixelAt_eq cfg buf1 x' y' hx0' hxW' hy0', pixelAt_eq cfg buf x' y' hx0' hxW' hy0']
  cases hb : buf[((y / 8) * cfg.WIDTH + x).toNat]? with
  | none => rw [hb] at h; simp at h
  | some byte =>
    rw [hb] at h
    simp only [Option.map_some', Option.some.injEq] at h
    have hlt : ((y / 8) * cfg.WIDTH + x).toNat < buf.length := by
      rcases List.getElem?_eq_some.mp hb with ⟨hlt, _⟩
      exact hlt
    have h3 : 0 ≤ (y / 8) * cfg.WIDTH := Int.mul_nonneg (by omega) (by omega)
    have h3' : 0 ≤ (y' / 8) * cfg.WIDTH := Int.mul_nonneg (by omega) (by omega)
    subst h
    by_cases hidx : (y' / 8) * cfg.WIDTH + x' = (y / 8) * cfg.WIDTH + x
    · obtain ⟨hr, hxx⟩ := flat_index_inj cfg.WIDTH _ _ _ _ hx0' hxW' hx0 hxW hidx
      have hk : (y % 8).toNat ≠ (y' % 8).toNat := by
        intro hk
        apply hne
        have : y' = y := by omega
        rw [hxx, this]
      have hk' : (y' % 8).toNat < 8 := by omega
      rw [hidx, List.getElem?_set_self hlt, hb]
      cases on_
      · simp [testBit_clearBit _ _ _ hk', hk]
      · simp [testBit_setBit _ _ _ hk', hk]
    · have hidx' : ((y / 8) * cfg.WIDTH + x).toNat ≠ ((y' / 8) * cfg.WIDTH + x').toNat := by
        omega
      rw [List.getElem?_set_ne hidx']

/-- C1: on a panel whose height is a multiple of the page height and a buffer of
`SSD1306_BUF_LEN` bytes, `SetPixel` at an in-bounds `(x, y)` succeeds, keeps the length of the
buffer, makes pixel `(x, y)` (bit `y % 8` of the byte at `(y / 8) * width + x`) read as `on`,
and leaves every other in-bounds pixel, those of the same byte included, as it was. -/
theorem SetPixel_spec (cfg : Config) (buf : List Nat) (x y : Int) (on_ : Bool)
    (hH : cfg.HEIGHT % 8 = 0) (hlen : (buf.length : Int) = SSD1306_BUF_LEN cfg)
    (hx : 0 ≤ x ∧ x < cfg.WIDTH) (hy : 0 ≤ y ∧ y < cfg.HEIGHT) :
    ∃ buf1, SetPixel cfg buf x y on_ = some buf1 ∧
      buf1.length = buf.length ∧
      pixelAt cfg buf1 x y = some on_ ∧
      (∃ byte, buf1[((y / 8) * cfg.WIDTH + x).toNat]? = some byte ∧
        byte.testBit (y % 8).toNat = on_) ∧
      ∀ x' y' : Int, 0 ≤ x' → x' < cfg.WIDTH → 0 ≤ y' → y' < cfg.HEIGHT →
        (x', y') ≠ (x, y) →
        pixelAt cfg buf1 x' y' = pixelAt cfg buf x' y' := by
  obtain ⟨buf1, h1, h2⟩ := SetPixel_some cfg buf x y on_ hH hlen hx.1 hx.2 hy.1 hy.2
  have hself := pixelAt_SetPixel_self cfg buf buf1 x y on_ hx.1 hx.2 hy.1 hy.2 h1
  refine ⟨buf1, h1, h2, hself, ?_, ?_⟩
  · rw [pixelAt_eq cfg buf1 x y hx.1 hx.2 hy.1] at hself
    cases hb : buf1[((y / 8) * cfg.WIDTH + x).toNat]? with
    | none => rw [hb] at hself; simp at hself
    | some byte =>
      rw [hb] at hself
      simp only [Option.map_some', Option.some.injEq] at hself
      exact ⟨byte, rfl, hself⟩
  · intro x' y' hx0' hxW' hy0' _ hne
    exact pixelAt_SetPixel_other cfg buf buf1 x y x' y' on_ hx.1 hx.2 hy.1 hy.2 hx0' hxW' hy0'
      hne h1

/-! ## `DrawLine`: the points it plots -/

/-- One iteration of the loop of `DrawLine` away from the end point. -/
theorem points_step (x1 y1 dx sx dy sy : Int) (fuel : Nat) (x0 y0 err : Int)
    (h : ¬ (x0 = x1 ∧ y0 = y1)) :
    DrawLine.points x1 y1 dx sx dy sy (fuel + 1) x0 y0 err =
      (DrawLine.points x1 y1 dx sx dy sy fuel
        (if 2 * err ≥ dy then x0 + sx else x0) (if 2 * err ≤ dx then y0 + sy else y0)
        (if 2 * err ≤ dx then (if 2 * err ≥ dy then err + dy else err) + dx
         else (if 2 * err ≥ dy then err + dy else err))).map (fun ps => (x0, y0) :: ps) := by
  rw [DrawLine.points, if_neg h]

/-- The loop of `DrawLine` stops at the end point. -/
theorem points_stop (x1 y1 dx sx dy sy : Int) (fuel : Nat) (err : Int) :
    DrawLine.points x1 y1 dx sx dy sy (fuel + 1) x1 y1 err = some [(x1, y1)] := by
  rw [DrawLine.points, if_pos ⟨rfl, rfl⟩]

/-- The points of the loop are the images of the remaining step counts: the loop towards
`(x1, y1)` with signs `sx`, `sy` runs as the loop that counts both down to `(0, 0)`. -/
theorem points_fromCounts (x1 y1 dx sx dy sy : Int) (hsx : sx = 1 ∨ sx = -1)
    (hsy : sy = 1 ∨ sy = -1) :
    ∀ (fuel : Nat) (rx ry err : Int),
      DrawLine.points x1 y1 dx sx dy sy fuel (x1 - sx * rx) (y1 - sy * ry) err =
        (DrawLine.points 0 0 dx (-1) dy (-1) fuel rx ry err).map
          (List.map (fromCounts x1 y1 sx sy)) := by
  intro fuel
  induction fuel with
  | zero => intro rx ry err; simp [DrawLine.points]
  | succ f ih =>
    intro rx ry err
    by_cases h0 : rx = 0 ∧ ry = 0
    · obtain ⟨hx, hy⟩ := h0
      subst hx hy
      simp [DrawLine.points, fromCounts]
    · have h1 : ¬ (x1 - sx * rx = x1 ∧ y1 - sy * ry = y1) := by
        rintro ⟨ha, hb⟩
        apply h0
        rcases hsx with hs | hs <;> rcases hsy with ht | ht <;> subst hs ht <;>
          constructor <;> omega
      rw [points_step _ _ _ _ _ _ _ _ _ _ h1, points_step _ _ _ _ _ _ _ _ _ _ h0]
      have hx : (if 2 * err ≥ dy then x1 - sx * rx + sx else x1 - sx * rx) =
          x1 - sx * (if 2 * err ≥ dy then rx + -1 else rx) := by
        split_ifs <;> ring
      have hy : (if 2 * err ≤ dx then y1 - sy * ry + sy else y1 - sy * ry) =
          y1 - sy * (if 2 * err ≤ dx then ry + -1 else ry) := by
        split_ifs <;> ring
      rw [hx, hy, ih]
      simp [fromCounts, Option.map_map, Function.comp_def]

/-- The counting loop on a line that is at least as wide as it is high: a step in `x` in
every iteration, hence `rx + 1` points. -/
theorem points_xmajor (dx ady : Int) (hady0 : 0 ≤ ady) (hle : ady ≤ dx) :
    ∀ (n fuel : Nat) (rx ry err : Int),
      rx = n → 0 ≤ ry → ry ≤ ady → rx ≤ dx →
      err = rx * ady - ry * dx + dx - ady →
      -dx ≤ 2 * (rx * ady - ry * dx) → 2 * (rx * ady - ry * dx) ≤ dx →
      n + 1 ≤ fuel →
      ∃ l, DrawLine.points 0 0 dx (-1) (-ady) (-1) fuel rx ry err = some l ∧
        l.length = n + 1 ∧ Descent rx ry l := by
  intro n
  induction n with
  | zero =>
    intro fuel rx ry err hrx hry0 hry hrxd herr hlo hhi hfuel
    have hrx0 : rx = 0 := by simpa using hrx
    subst hrx0
    have hry00 : ry = 0 := by
      by_contra hne
      have h1 : 1 ≤ ry := by omega
      have h2 : 1 * dx ≤ ry * dx := Int.mul_le_mul_of_nonneg_right h1 (by omega)
      omega
    subst hry00
    obtain ⟨f, rfl⟩ : ∃ f, fuel = f + 1 := ⟨fuel - 1, by omega⟩
    exact ⟨[(0, 0)], points_stop _ _ _ _ _ _ _ _, rfl, Descent.last⟩
  | succ n ih =>
    intro fuel rx ry err hrx hry0 hry hrxd herr hlo hhi hfuel
    obtain ⟨f, rfl⟩ : ∃ f, fuel = f + 1 := ⟨fuel - 1, by omega⟩
    have hrxpos : 0 < rx := by omega
    have hnt : ¬ (rx = 0 ∧ ry = 0) := by omega
    have hcx : 2 * err ≥ -ady := by omega
    have hu : (rx + -1) * ady = rx * ady - ady := by ring
    rw [points_step _ _ _ _ _ _ _ _ _ _ hnt]
    simp only [if_pos hcx]
    by_cases hcy : 2 * err ≤ dx
    · have hrypos : 0 < ry := by
        by_contra hne
        have hz : ry = 0 := by omega
        subst hz
        have h2 : 1 * ady ≤ rx * ady := Int.mul_le_mul_of_nonneg_right (by omega) hady0
        omega
      have hv : (ry + -1) * dx = ry * dx - dx := by ring
      simp only [if_pos hcy]
      obtain ⟨l, hl, hlen, hdesc⟩ := ih f (rx + -1) (ry + -1) (err + -ady + dx) (by omega)
        (by omega) (by omega) (by omega) (by rw [hu, hv]; omega) (by rw [hu, hv]; omega)
        (by rw [hu, hv]; omega) (by omega)
      refine ⟨(rx, ry) :: l, by rw [hl]; rfl, by simp [hlen], ?_⟩
      exact Descent.stepXY rx ry l hrxpos hrypos hdesc
    · simp only [if_neg hcy]
      obtain ⟨l, hl, hlen, hdesc⟩ := ih f (rx + -1) ry (err + -ady) (by omega)
        (by omega) (by omega) (by omega) (by rw [hu]; omega) (by rw [hu]; omega)
        (by rw [hu]; omega) (by omega)
      refine ⟨(rx, ry) :: l, by rw [hl]; rfl, by simp [hlen], ?_⟩
      exact Descent.stepX rx ry l hrxpos hry0 hdesc

/-- The counting loop on a line that is at least as high as it is wide: a step in `y` in
every iteration, hence `ry + 1` points. -/
theorem points_ymajor (dx ady : Int) (hdx0 : 0 ≤ dx) (hle : dx ≤ ady) :
    ∀ (n fuel : Nat) (rx ry err : Int),
      ry = n → 0 ≤ rx → rx ≤ dx → ry ≤ ady →
      err = rx * ady - ry * dx + dx - ady →
      -ady ≤ 2 * (rx * ady - ry * dx) → 2 * (rx * ady - ry * dx) ≤ ady →
      n + 1 ≤ fuel →
      ∃ l, DrawLine.points 0 0 dx (-1) (-ady) (-1) fuel rx ry err = some l ∧
        l.length = n + 1 ∧ Descent rx ry l := by
  intro n
  induction n with
  | zero =>
    intro fuel rx ry err hry hrx0 hrx hryd herr hlo hhi hfuel
    have hry0 : ry = 0 := by simpa using hry
    subst hry0
    have hrx00 : rx = 0 := by
      by_contra hne
      have h1 : 1 ≤ rx := by omega
      have h2 : 1 * ady ≤ rx * ady := Int.mul_le_mul_of_nonneg_right h1 (by omega)
      omega
    subst hrx00
    obtain ⟨f, rfl⟩ : ∃ f, fuel = f + 1 := ⟨fuel - 1, by omega⟩
    exact ⟨[(0, 0)], points_stop _ _ _ _ _ _ _ _, rfl, Descent.last⟩
  | succ n ih =>
    intro fuel rx ry err hry hrx0 hrx hryd herr hlo hhi hfuel
    obtain ⟨f, rfl⟩ : ∃ f, fuel = f + 1 := ⟨fuel - 1, by omega⟩
    have hrypos : 0 < ry := by omega
    have hnt : ¬ (rx = 0 ∧ ry = 0) := by omega
    have hcy : 2 * err ≤ dx := by omega
    have hv : (ry + -1) * dx = ry * dx - dx := by ring
    rw [points_step _ _ _ _ _ _ _ _ _ _ hnt]
    simp only [if_pos hcy]
    by_cases hcx : 2 * err ≥ -ady
    · have hrxpos : 0 < rx := by
        by_contra hne
        have hz : rx = 0 := by omega
        subst hz
        have h2 : 1 * dx ≤ ry * dx := Int.mul_le_mul_of_nonneg_right (by omega) hdx0
        omega
      have hu : (rx + -1) * ady = rx * ady - ady := by ring
      simp only [if_pos hcx]
      obtain ⟨l, hl, hlen, hdesc⟩ := ih f (rx + -1) (ry + -1) (err + -ady + dx) (by omega)
        (by omega) (by omega) (by omega) (by rw [hu, hv]; omega) (by rw [hu, hv]; omega)
        (by rw [hu, hv]; omega) (by omega)
      refine ⟨(rx, ry) :: l, by rw [hl]; rfl, by simp [hlen], ?_⟩
      exact Descent.stepXY rx ry l hrxpos hrypos hdesc
    · simp only [if_neg hcx]
      obtain ⟨l, hl, hlen, hdesc⟩ := ih f rx (ry + -1) (err + dx) (by omega)
        (by omega) (by omega) (by omega) (by rw [hv]; omega) (by rw [hv]; omega)
        (by rw [hv]; omega) (by omega)
      refine ⟨(rx, ry) :: l, by rw [hl]; rfl, by simp [hlen], ?_⟩
      exact Descent.stepY rx ry l hrx0 hrypos hdesc

/-- Every element of a staircase lies between its start and `(0, 0)`. -/
theorem Descent.mem_bounds {a b : Int} {l : List (Int × Int)} (h : Descent a b l) :
    ∀ p ∈ l, 0 ≤ p.1 ∧ p.1 ≤ a ∧ 0 ≤ p.2 ∧ p.2 ≤ b := by
  induction h with
  | last => intro p hp; simp at hp; subst hp; simp
  | stepX a b l ha hb _ ih =>
    intro p hp
    rcases List.mem_cons.mp hp with rfl | hp
    · simp; omega
    · have := ih p hp; omega
  | stepY a b l ha hb _ ih =>
    intro p hp
    rcases List.mem_cons.mp hp with rfl | hp
    · simp; omega
    · have := ih p hp; omega
  | stepXY a b l ha hb _ ih =>
    intro p hp
    rcases List.mem_cons.mp hp with rfl | hp
    · simp; omega
    · have := ih p hp; omega

/-- A staircase starts at its start. -/
theorem Descent.head_eq {a b : Int} {l : List (Int × Int)} (h : Descent a b l) :
    ∃ t, l = (a, b) :: t := by
  cases h with
  | last => exact ⟨[], rfl⟩
  | stepX _ _ t => exact ⟨t, rfl⟩
  | stepY _ _ t => exact ⟨t, rfl⟩
  | stepXY _ _ t => exact ⟨t, rfl⟩

/-- A staircase ends at `(0, 0)`. -/
theorem Descent.getLast_eq {a b : Int} {l : List (Int × Int)} (h : Descent a b l) :
    l.getLast? = some (0, 0) := by
  induction h with
  | last => rfl
  | stepX a b l _ _ hd ih =>
    obtain ⟨t, rfl⟩ := hd.head_eq
    rw [List.getLast?_cons_cons]; exact ih
  | stepY a b l _ _ hd ih =>
    obtain ⟨t, rfl⟩ := hd.head_eq
    rw [List.getLast?_cons_cons]; exact ih
  | stepXY a b l _ _ hd ih =>
    obtain ⟨t, rfl⟩ := hd.head_eq
    rw [List.getLast?_cons_cons]; exact ih

/-- The step sign and the distance of `DrawLine` along one axis. -/
theorem sign_dist (x0 x1 : Int) :
    ((if x0 < x1 then (1 : Int) else -1) = 1 ∨ (if x0 < x1 then (1 : Int) else -1) = -1) ∧
      0 ≤ |x1 - x0| ∧ x0 = x1 - (if x0 < x1 then (1 : Int) else -1) * |x1 - x0| := by
  by_cases h : x0 < x1
  · rw [if_pos h, abs_of_nonneg (by omega)]
    refine ⟨Or.inl rfl, by omega, by ring⟩
  · rw [if_neg h, abs_of_nonpos (by omega)]
    refine ⟨Or.inr rfl, by omega, by ring⟩

/-- A point with `a` of the `|x1 - x0|` steps left lies between `x0` and `x1`. -/
theorem sign_dist_between (x0 x1 a : Int) (h0 : 0 ≤ a) (h1 : a ≤ |x1 - x0|) :
    min x0 x1 ≤ x1 - (if x0 < x1 then (1 : Int) else -1) * a ∧
      x1 - (if x0 < x1 then (1 : Int) else -1) * a ≤ max x0 x1 := by
  by_cases h : x0 < x1
  · rw [if_pos h]
    rw [abs_of_nonneg (by omega)] at h1
    rw [min_eq_left (by omega), max_eq_right (by omega)]
    constructor <;> omega
  · rw [if_neg h]
    rw [abs_of_nonpos (by omega)] at h1
    rw [min_eq_right (by omega), max_eq_left (by omega)]
    constructor <;> omega

/-- The points `DrawLine` plots: with enough fuel the loop reaches its `break`, and the points
are the images of a staircase of `max |x1 - x0| |y1 - y0| + 1` remaining step counts from
`(|x1 - x0|, |y1 - y0|)` down to `(0, 0)`. -/
theorem trace_eq (fuel : Nat) (x0 y0 x1 y1 : Int)
    (hfuel : max |x1 - x0| |y1 - y0| + 1 ≤ (fuel : Int)) :
    ∃ l, DrawLine.trace fuel x0 y0 x1 y1 =
        some (l.map (fromCounts x1 y1 (if x0 < x1 then 1 else -1) (if y0 < y1 then 1 else -1))) ∧
      (l.length : Int) = max |x1 - x0| |y1 - y0| + 1 ∧ Descent |x1 - x0| |y1 - y0| l ∧
      DrawLine.points 0 0 |x1 - x0| (-1) (-|y1 - y0|) (-1) fuel |x1 - x0| |y1 - y0|
        (|x1 - x0| + -|y1 - y0|) = some l := by
  obtain ⟨hsx, hdx, hx0⟩ := sign_dist x0 x1
  obtain ⟨hsy, hdy, hy0⟩ := sign_dist y0 y1
  have hcomm : |x1 - x0| * |y1 - y0| - |y1 - y0| * |x1 - x0| = 0 := by ring
  have key : ∃ l, DrawLine.points 0 0 |x1 - x0| (-1) (-|y1 - y0|) (-1) fuel |x1 - x0| |y1 - y0|
      (|x1 - x0| + -|y1 - y0|) = some l ∧
      (l.length : Int) = max |x1 - x0| |y1 - y0| + 1 ∧ Descent |x1 - x0| |y1 - y0| l := by
    by_cases hle : |y1 - y0| ≤ |x1 - x0|
    · rw [max_eq_left hle] at hfuel ⊢
      obtain ⟨l, hl, hlen, hd⟩ := points_xmajor |x1 - x0| |y1 - y0| hdy hle
        (|x1 - x0|).toNat fuel |x1 - x0| |y1 - y0| (|x1 - x0| + -|y1 - y0|) (by omega)
        hdy le_rfl le_rfl (by omega) (by omega) (by omega) (by omega)
      exact ⟨l, hl, by omega, hd⟩
    · rw [max_eq_right (by omega)] at hfuel ⊢
      obtain ⟨l, hl, hlen, hd⟩ := points_ymajor |x1 - x0| |y1 - y0| hdx (by omega)
        (|y1 - y0|).toNat fuel |x1 - x0| |y1 - y0| (|x1 - x0| + -|y1 - y0|) (by omega)
        hdx le_rfl le_rfl (by omega) (by omega) (by omega) (by omega)
      exact ⟨l, hl, by omega, hd⟩
  obtain ⟨l, hl, hlen, hd⟩ := key
  refine ⟨l, ?_, hlen, hd, hl⟩
  unfold DrawLine.trace
  have h := points_fromCounts x1 y1 |x1 - x0| (if x0 < x1 then 1 else -1) (-|y1 - y0|)
    (if y0 < y1 then 1 else -1) hsx hsy fuel |x1 - x0| |y1 - y0| (|x1 - x0| + -|y1 - y0|)
  rw [← hx0, ← hy0] at h
  rw [h, hl]
  rfl

/-! ## `DrawLine`: the buffer -/

/-- The loop of `DrawLine` is `SetPixel` applied to the points of the loop, in order. -/
theorem loop_eq_SetPixels (cfg : Config) (x1 y1 dx sx dy sy : Int) (on_ : Bool) :
    ∀ (fuel : Nat) (buf : List Nat) (x0 y0 err : Int),
      DrawLine.loop cfg x1 y1 dx sx dy sy on_ fuel buf x0 y0 err =
        (DrawLine.points x1 y1 dx sx dy sy fuel x0 y0 err).bind
          (fun ps => SetPixels cfg on_ ps buf) := by
  intro fuel
  induction fuel with
  | zero => intro buf x0 y0 err; simp [DrawLine.loop, DrawLine.points]
  | succ f ih =>
    intro buf x0 y0 err
    rw [DrawLine.loop, DrawLine.points]
    by_cases h : x0 = x1 ∧ y0 = y1
    · simp only [if_pos h, Option.some_bind, SetPixels]
    · simp only [if_neg h]
      cases hs : SetPixel cfg buf x0 y0 on_ with
      | none =>
        cases DrawLine.points x1 y1 dx sx dy sy f
          (if 2 * err ≥ dy then x0 + sx else x0) (if 2 * err ≤ dx then y0 + sy else y0)
          (if 2 * err ≤ dx then (if 2 * err ≥ dy then err + dy else err) + dx
            else (if 2 * err ≥ dy then err + dy else err)) <;> simp [SetPixels, hs]
      | some b =>
        simp only [ih]
        cases DrawLine.points x1 y1 dx sx dy sy f
          (if 2 * err ≥ dy then x0 + sx else x0) (if 2 * err ≤ dx then y0 + sy else y0)
          (if 2 * err ≤ dx then (if 2 * err ≥ dy then err + dy else err) + dx
            else (if 2 * err ≥ dy then err + dy else err)) <;> simp [SetPixels, hs]

/-- The function `DrawLine` is `SetPixel` applied to the points of its trace, in order. -/
theorem DrawLine_eq_SetPixels (cfg : Config) (fuel : Nat) (buf : List Nat) (x0 y0 x1 y1 : Int)
    (on_ : Bool) :
    DrawLine cfg fuel buf x0 y0 x1 y1 on_ =
      (DrawLine.trace fuel x0 y0 x1 y1).bind (fun ps => SetPixels cfg on_ ps buf) := by
  unfold DrawLine DrawLine.trace
  exact loop_eq_SetPixels cfg _ _ _ _ _ _ on_ fuel buf x0 y0 _

/-- The function `SetPixel` over a list of in-bounds points succeeds, keeps the length of the
buffer, makes every listed pixel read as the value written and leaves the other in-bounds
pixels alone. -/
theorem SetPixels_some (cfg : Config) (on_ : Bool) (hH : cfg.HEIGHT % 8 = 0) :
    ∀ (ps : List (Int × Int)) (buf : List Nat),
      (buf.length : Int) = SSD1306_BUF_LEN cfg →
      (∀ p ∈ ps, 0 ≤ p.1 ∧ p.1 < cfg.WIDTH ∧ 0 ≤ p.2 ∧ p.2 < cfg.HEIGHT) →
      ∃ buf1, SetPixels cfg on_ ps buf = some buf1 ∧ buf1.length = buf.length ∧
        (∀ p ∈ ps, pixelAt cfg buf1 p.1 p.2 = some on_) ∧
        (∀ q : Int × Int, 0 ≤ q.1 → q.1 < cfg.WIDTH → 0 ≤ q.2 → q.2 < cfg.HEIGHT →
          q ∉ ps →
          pixelAt cfg buf1 q.1 q.2 = pixelAt cfg buf q.1 q.2) := by
  intro ps
  induction ps with
  | nil => intro buf _ _; exact ⟨buf, rfl, rfl, by simp, by simp⟩
  | cons p ps ih =>
    intro buf hlen hin
    obtain ⟨hp0, hpW, hp20, hpH⟩ := hin p (List.mem_cons_self _ _)
    obtain ⟨b1, hb1, hb1len⟩ := SetPixel_some cfg buf p.1 p.2 on_ hH hlen hp0 hpW hp20 hpH
    obtain ⟨b2, hb2, hb2len, hon, hoff⟩ := ih b1 (by rw [hb1len]; exact hlen)
      (fun q hq => hin q (List.mem_cons_of_mem _ hq))
    refine ⟨b2, by simp [SetPixels, hb1, hb2], by rw [hb2len, hb1len], ?_, ?_⟩
    · intro q hq
      by_cases hmem : q ∈ ps
      · exact hon q hmem
      · have hqp : q = p := by
          rcases List.mem_cons.mp hq with h | h
          · exact h
          · exact absurd h hmem
        subst hqp
        rw [hoff q hp0 hpW hp20 hpH hmem]
        exact pixelAt_SetPixel_self cfg buf b1 q.1 q.2 on_ hp0 hpW hp20 hpH hb1
    · intro q hq0 hqW hq20 hqH hq
      have hqp : q ≠ p := fun h => hq (by rw [h]; exact List.mem_cons_self _ _)
      have hqps : q ∉ ps := fun h => hq (List.mem_cons_of_mem _ h)
      rw [hoff q hq0 hqW hq20 hqH hqps]
      exact pixelAt_SetPixel_other cfg buf b1 p.1 p.2 q.1 q.2 on_ hp0 hpW hp20 hpH hq0 hqW hq20
        hqp hb1

/-- The function `DrawLine` between in-bounds end points: the loop returns, every point it
plots is inside the panel, the buffer keeps its length, every plotted pixel reads as the value
written and every other in-bounds pixel as before. -/
theorem DrawLine_plots (cfg : Config) (fuel : Nat) (buf : List Nat) (x0 y0 x1 y1 : Int)
    (on_ : Bool) (hH : cfg.HEIGHT % 8 = 0) (hlen : (buf.length : Int) = SSD1306_BUF_LEN cfg)
    (hx0 : 0 ≤ x0 ∧ x0 < cfg.WIDTH) (hy0 : 0 ≤ y0 ∧ y0 < cfg.HEIGHT)
    (hx1 : 0 ≤ x1 ∧ x1 < cfg.WIDTH) (hy1 : 0 ≤ y1 ∧ y1 < cfg.HEIGHT)
    (hfuel : max |x1 - x0| |y1 - y0| + 1 ≤ (fuel : Int)) :
    ∃ l ps buf1, Descent |x1 - x0| |y1 - y0| l ∧
      ps = l.map (fromCounts x1 y1 (if x0 < x1 then 1 else -1) (if y0 < y1 then 1 else -1)) ∧
      DrawLine.trace fuel x0 y0 x1 y1 = some ps ∧
      (∀ p ∈ ps, 0 ≤ p.1 ∧ p.1 < cfg.WIDTH ∧ 0 ≤ p.2 ∧ p.2 < cfg.HEIGHT) ∧
      DrawLine cfg fuel buf x0 y0 x1 y1 on_ = some buf1 ∧
      buf1.length = buf.length ∧
      (∀ p ∈ ps, pixelAt cfg buf1 p.1 p.2 = some on_) ∧
      (∀ q : Int × Int, 0 ≤ q.1 → q.1 < cfg.WIDTH → 0 ≤ q.2 → q.2 < cfg.HEIGHT →
        q ∉ ps →
        pixelAt cfg buf1 q.1 q.2 = pixelAt cfg buf q.1 q.2) := by
  obtain ⟨l, hl, _, hd, _⟩ := trace_eq fuel x0 y0 x1 y1 hfuel
  have hin : ∀ p ∈ l.map (fromCounts x1 y1 (if x0 < x1 then 1 else -1)
      (if y0 < y1 then 1 else -1)),
      0 ≤ p.1 ∧ p.1 < cfg.WIDTH ∧ 0 ≤ p.2 ∧ p.2 < cfg.HEIGHT := by
    intro p hp
    obtain ⟨c, hc, rfl⟩ := List.mem_map.mp hp
    obtain ⟨ha0, ha1, hb0, hb1⟩ := hd.mem_bounds c hc
    obtain ⟨hxlo, hxhi⟩ := sign_dist_between x0 x1 c.1 ha0 ha1
    obtain ⟨hylo, hyhi⟩ := sign_dist_between y0 y1 c.2 hb0 hb1
    have h1 : 0 ≤ min x0 x1 := le_min hx0.1 hx1.1
    have h2 : max x0 x1 < cfg.WIDTH := max_lt hx0.2 hx1.2
    have h3 : 0 ≤ min y0 y1 := le_min hy0.1 hy1.1
    have h4 : max y0 y1 < cfg.HEIGHT := max_lt hy0.2 hy1.2
    simp only [fromCounts]
    refine ⟨?_, ?_, ?_, ?_⟩ <;> omega
  obtain ⟨buf1, hb, hblen, hon, hoff⟩ := SetPixels_some cfg on_ hH _ buf hlen hin
  have hD : DrawLine cfg fuel buf x0 y0 x1 y1 on_ = some buf1 := by
    rw [DrawLine_eq_SetPixels, hl]
    exact hb
  exact ⟨l, _, buf1, hd, rfl, hl, hin, hD, hblen, hon, hoff⟩

/-! ## `SetPixel` calls commute -/

/-- Every bit of the byte `SetPixel` stores. -/
theorem testBit_pixelByte (on_ : Bool) (k byte j : Nat) :
    (pixelByte on_ k byte).testBit j =
      (decide (j < 8) && if on_ then (byte.testBit j || decide (k = j))
        else (byte.testBit j && (decide (j < 32) ^^ decide (k = j)))) := by
  have h256 : (256 : Nat) = 2 ^ 8 := by norm_num
  have hff : (0xFFFFFFFF : Nat) = 2 ^ 32 - 1 := by norm_num
  unfold pixelByte
  cases on_
  · simp only [Bool.false_eq_true, if_false]
    rw [h256, Nat.testBit_mod_two_pow, Nat.testBit_and, Nat.testBit_xor, Nat.one_shiftLeft,
      Nat.testBit_two_pow, hff, Nat.testBit_two_pow_sub_one]
  · simp only [if_true]
    rw [h256, Nat.testBit_mod_two_pow, Nat.testBit_or, Nat.one_shiftLeft, Nat.testBit_two_pow]

/-- Two writes of the same value to bits of one byte commute. -/
theorem pixelByte_comm (on_ : Bool) (k k' byte : Nat) :
    pixelByte on_ k (pixelByte on_ k' byte) = pixelByte on_ k' (pixelByte on_ k byte) := by
  apply Nat.eq_of_testBit_eq
  intro j
  simp only [testBit_pixelByte]
  cases on_ <;> cases byte.testBit j <;> cases decide (j < 8) <;> cases decide (j < 32) <;>
    cases decide (k = j) <;> cases decide (k' = j) <;> rfl

/-- The shape of `SetPixel` in terms of `pixelByte`. -/
theorem SetPixel_eq_pixelByte (cfg : Config) (buf : List Nat) (x y : Int) (on_ : Bool) :
    SetPixel cfg buf x y on_ =
      if x ≥ 0 ∧ x < cfg.WIDTH ∧ y ≥ 0 ∧ y < cfg.HEIGHT then
        (buf[((y / 8) * cfg.WIDTH + x).toNat]?).map (fun byte =>
          buf.set ((y / 8) * cfg.WIDTH + x).toNat (pixelByte on_ (y % 8).toNat byte))
      else none := by
  by_cases h : x ≥ 0 ∧ x < cfg.WIDTH ∧ y ≥ 0 ∧ y < cfg.HEIGHT
  · rw [if_pos h, SetPixel_eq cfg buf x y on_ h.1 h.2.1 h.2.2.1 h.2.2.2]
    rfl
  · rw [if_neg h]
    unfold SetPixel
    rw [if_neg h]

/-- A write of a byte at one index followed by a write at another, each computed from the
byte found there, in either order. -/
theorem set_map_comm (buf : List Nat) (i j : Nat) (f g : Nat → Nat)
    (hfg : ∀ b, g (f b) = f (g b)) :
    ((buf[i]?).map (fun b => buf.set i (f b))).bind
        (fun buf1 => (buf1[j]?).map (fun b => buf1.set j (g b))) =
      ((buf[j]?).map (fun b => buf.set j (g b))).bind
        (fun buf1 => (buf1[i]?).map (fun b => buf1.set i (f b))) := by
  by_cases hi : i < buf.length
  · by_cases hj : j < buf.length
    · by_cases hij : i = j
      · subst hij
        simp only [List.getElem?_eq_getElem hi, Option.map_some', Option.some_bind,
          List.getElem?_set_self hi, List.set_set, hfg]
      · have hji : j ≠ i := fun h => hij h.symm
        simp only [List.getElem?_eq_getElem hi, List.getElem?_eq_getElem hj, Option.map_some',
          Option.some_bind, List.getElem?_set_ne hij, List.getElem?_set_ne hji]
        rw [List.set_comm _ _ _ hij]
    · have hj' : buf[j]? = none := List.getElem?_eq_none (by omega)
      have hj2 : ∀ a, (buf.set i a)[j]? = none := fun a =>
        List.getElem?_eq_none (by rw [List.length_set]; omega)
      simp only [List.getElem?_eq_getElem hi, hj', Option.map_some', Option.some_bind, hj2,
        Option.map_none', Option.none_bind]
  · have hi' : buf[i]? = none := List.getElem?_eq_none (by omega)
    have hi2 : ∀ a, (buf.set j a)[i]? = none := fun a =>
      List.getElem?_eq_none (by rw [List.length_set]; omega)
    cases hb : buf[j]? with
    | none => simp only [hi', Option.map_none', Option.none_bind]
    | some b =>
      simp only [hi', Option.map_none', Option.none_bind, Option.map_some', Option.some_bind, hi2]

/-- Two calls of `SetPixel` with the same value commute. -/
theorem SetPixel_comm (cfg : Config) (on_ : Bool) (buf : List Nat) (p q : Int × Int) :
    (SetPixel cfg buf p.1 p.2 on_).bind (fun b => SetPixel cfg b q.1 q.2 on_) =
      (SetPixel cfg buf q.1 q.2 on_).bind (fun b => SetPixel cfg b p.1 p.2 on_) := by
  simp only [SetPixel_eq_pixelByte]
  by_cases hp : p.1 ≥ 0 ∧ p.1 < cfg.WIDTH ∧ p.2 ≥ 0 ∧ p.2 < cfg.HEIGHT
  · by_cases hq : q.1 ≥ 0 ∧ q.1 < cfg.WIDTH ∧ q.2 ≥ 0 ∧ q.2 < cfg.HEIGHT
    · simp only [if_pos hp, if_pos hq]
      exact set_map_comm buf _ _ _ _ (fun b => pixelByte_comm on_ _ _ b)
    · simp only [if_pos hp, if_neg hq]
      cases buf[((p.2 / 8) * cfg.WIDTH + p.1).toNat]? <;> rfl
  · simp only [if_neg hp]
    by_cases hq : q.1 ≥ 0 ∧ q.1 < cfg.WIDTH ∧ q.2 ≥ 0 ∧ q.2 < cfg.HEIGHT
    · simp only [if_pos hq]
      cases buf[((q.2 / 8) * cfg.WIDTH + q.1).toNat]? <;> rfl
    · simp only [if_neg hq]

/-- The first call of `SetPixels`. -/
theorem SetPixels_cons (cfg : Config) (on_ : Bool) (p : Int × Int) (ps : List (Int × Int))
    (buf : List Nat) :
    SetPixels cfg on_ (p :: ps) buf =
      (SetPixel cfg buf p.1 p.2 on_).bind (SetPixels cfg on_ ps) := by
  rw [SetPixels]
  cases SetPixel cfg buf p.1 p.2 on_ <;> rfl

/-- Moving the first point of a list to its end does not change the buffer. -/
theorem SetPixels_rotate (cfg : Config) (on_ : Bool) (p : Int × Int) :
    ∀ (ps : List (Int × Int)) (buf : List Nat),
      SetPixels cfg on_ (ps ++ [p]) buf = SetPixels cfg on_ (p :: ps) buf := by
  intro ps
  induction ps with
  | nil => intro buf; rfl
  | cons q ps ih =>
    intro buf
    rw [List.cons_append, SetPixels_cons, SetPixels_cons]
    have h1 : (SetPixel cfg buf q.1 q.2 on_).bind (SetPixels cfg on_ (ps ++ [p])) =
        ((SetPixel cfg buf q.1 q.2 on_).bind (fun b => SetPixel cfg b p.1 p.2 on_)).bind
          (SetPixels cfg on_ ps) := by
      cases SetPixel cfg buf q.1 q.2 on_ with
      | none => rfl
      | some b => simp only [Option.some_bind, ih b, SetPixels_cons]
    have h2 : (SetPixel cfg buf p.1 p.2 on_).bind (SetPixels cfg on_ (q :: ps)) =
        ((SetPixel cfg buf p.1 p.2 on_).bind (fun b => SetPixel cfg b q.1 q.2 on_)).bind
          (SetPixels cfg on_ ps) := by
      cases SetPixel cfg buf p.1 p.2 on_ with
      | none => rfl
      | some b => simp only [Option.some_bind, SetPixels_cons]
    rw [h1, h2, SetPixel_comm cfg on_ buf q p]

/-- Plotting a list of points in reverse order gives the same buffer. -/
theorem SetPixels_reverse (cfg : Config) (on_ : Bool) :
    ∀ (ps : List (Int × Int)) (buf : List Nat),
      SetPixels cfg on_ ps.reverse buf = SetPixels cfg on_ ps buf := by
  intro ps
  induction ps with
  | nil => intro buf; rfl
  | cons p ps ih =>
    intro buf
    rw [List.reverse_cons, SetPixels_rotate, SetPixels_cons, SetPixels_cons]
    cases SetPixel cfg buf p.1 p.2 on_ with
    | none => rfl
    | some b => simp only [Option.some_bind, ih b]

/-! ## `DrawLine` with the end points swapped -/

/-- A staircase has at least as many elements as its longer side needs. -/
theorem Descent.length_ge {a b : Int} {l : List (Int × Int)} (h : Descent a b l) :
    a + 1 ≤ (l.length : Int) ∧ b + 1 ≤ (l.length : Int) := by
  induction h with
  | last => simp
  | stepX a b l _ _ _ ih => simp only [List.length_cons]; push_cast; omega
  | stepY a b l _ _ _ ih => simp only [List.length_cons]; push_cast; omega
  | stepXY a b l _ _ _ ih => simp only [List.length_cons]; push_cast; omega

/-- The next element of a straight staircase. -/
theorem straight_toNat (ex ey a : Int) (ha : 0 < a) :
    straight ex ey a.toNat = (a * ex, a * ey) :: straight ex ey (a - 1).toNat := by
  have h1 : a.toNat = (a - 1).toNat + 1 := by omega
  have h2 : (((a - 1).toNat + 1 : Nat) : Int) = a := by omega
  rw [h1, straight, h2]

/-- A staircase without steps in `y` is straight. -/
theorem Descent.eq_straight_x {a b : Int} {l : List (Int × Int)} (h : Descent a b l) :
    b = 0 → l = straight 1 0 a.toNat := by
  induction h with
  | last => intro _; rfl
  | stepX a b l ha _ _ ih =>
    intro hb
    rw [straight_toNat 1 0 a ha, ← ih hb, hb]
    simp
  | stepY a b l _ hb _ _ => intro h; omega
  | stepXY a b l _ hb _ _ => intro h; omega

/-- A staircase without steps in `x` is straight. -/
theorem Descent.eq_straight_y {a b : Int} {l : List (Int × Int)} (h : Descent a b l) :
    a = 0 → l = straight 0 1 b.toNat := by
  induction h with
  | last => intro _; rfl
  | stepX a b l ha _ _ _ => intro h; omega
  | stepY a b l _ hb _ ih =>
    intro ha
    rw [straight_toNat 0 1 b hb, ← ih ha, ha]
    simp
  | stepXY a b l ha _ _ _ => intro h; omega

/-- A staircase between equal counts that is as short as possible is the diagonal. -/
theorem Descent.eq_straight_xy {a b : Int} {l : List (Int × Int)} (h : Descent a b l) :
    a = b → (l.length : Int) = a + 1 → l = straight 1 1 a.toNat := by
  induction h with
  | last => intro _ _; rfl
  | stepX a b l ha _ hd _ =>
    intro hab hlen
    have := hd.length_ge
    simp only [List.length_cons] at hlen
    push_cast at hlen
    omega
  | stepY a b l _ hb hd _ =>
    intro hab hlen
    have := hd.length_ge
    simp only [List.length_cons] at hlen
    push_cast at hlen
    omega
  | stepXY a b l ha _ _ ih =>
    intro hab hlen
    simp only [List.length_cons] at hlen
    push_cast at hlen
    rw [straight_toNat 1 1 a ha, ← ih (by omega) (by omega), ← hab]
    simp

/-- Counting a straight staircase from the other end gives an ascending run. -/
theorem map_straight (ex ey k : Int) :
    ∀ n : Nat, (straight ex ey n).map (fun c => (k * ex - c.1, k * ey - c.2)) =
      ascent ex ey (k - n) n := by
  intro n
  induction n with
  | zero => simp [straight, ascent]
  | succ n ih =>
    rw [straight, List.map_cons, ih, ascent]
    have h1 : k - ((n + 1 : Nat) : Int) + 1 = k - n := by push_cast; ring
    rw [h1]
    congr 1
    ext <;> simp <;> ring

/-- An ascending run extended at its end. -/
theorem ascent_append (ex ey : Int) :
    ∀ (n : Nat) (s : Int),
      ascent ex ey s n ++ [((s + n + 1) * ex, (s + n + 1) * ey)] = ascent ex ey s (n + 1) := by
  intro n
  induction n with
  | zero => intro s; simp [ascent]
  | succ n ih =>
    intro s
    rw [ascent, List.cons_append]
    have h := ih (s + 1)
    have h1 : s + 1 + (n : Int) + 1 = s + ((n + 1 : Nat) : Int) + 1 := by push_cast; ring
    rw [h1] at h
    rw [h]
    rfl

/-- A straight staircase reversed is an ascending run. -/
theorem reverse_straight (ex ey : Int) :
    ∀ n : Nat, (straight ex ey n).reverse = ascent ex ey 0 n := by
  intro n
  induction n with
  | zero => simp [straight, ascent]
  | succ n ih =>
    rw [straight, List.reverse_cons, ih, ← ascent_append]
    congr 2
    ext <;> simp

/-- Counting a straight staircase from the other end reverses it. -/
theorem map_straight_eq_reverse (ex ey : Int) (n : Nat) :
    (straight ex ey n).map (fun c => ((n : Int) * ex - c.1, (n : Int) * ey - c.2)) =
      (straight ex ey n).reverse := by
  rw [map_straight, reverse_straight, sub_self]

/-- The reflection of a plotted point in the middle of the segment, from the step sign of the
swapped line. -/
theorem swap_coord (x0 x1 a : Int) (h0 : 0 ≤ a) (h1 : a ≤ |x1 - x0|) :
    x0 - (if x1 < x0 then (1 : Int) else -1) * a =
      x0 + x1 - (x1 - (if x0 < x1 then (1 : Int) else -1) * a) := by
  rcases lt_trichotomy x0 x1 with h | h | h
  · rw [if_pos h, if_neg (show ¬ x1 < x0 by omega)]; ring
  · subst h
    have ha : a = 0 := by simp at h1; omega
    subst ha
    simp
  · rw [if_pos h, if_neg (show ¬ x0 < x1 by omega)]; ring

/-- With the end points swapped `DrawLine` plots, in the same order, the points of the
original line reflected in the middle of the segment. -/
theorem trace_swap (fuel : Nat) (x0 y0 x1 y1 : Int)
    (hfuel : max |x1 - x0| |y1 - y0| + 1 ≤ (fuel : Int)) :
    DrawLine.trace fuel x1 y1 x0 y0 =
      (DrawLine.trace fuel x0 y0 x1 y1).map
        (List.map (fun p => (x0 + x1 - p.1, y0 + y1 - p.2))) := by
  have hfuel' : max |x0 - x1| |y0 - y1| + 1 ≤ (fuel : Int) := by
    rw [abs_sub_comm x0 x1, abs_sub_comm y0 y1]; exact hfuel
  obtain ⟨l, hl, _, hd, hc⟩ := trace_eq fuel x0 y0 x1 y1 hfuel
  obtain ⟨l', hl', _, _, hc'⟩ := trace_eq fuel x1 y1 x0 y0 hfuel'
  rw [abs_sub_comm x0 x1, abs_sub_comm y0 y1, hc] at hc'
  have hll : l = l' := Option.some.inj hc'
  subst hll
  rw [hl, hl', Option.map_some', List.map_map]
  congr 1
  apply List.map_congr_left
  intro c hc
  obtain ⟨ha0, ha1, hb0, hb1⟩ := hd.mem_bounds c hc
  simp only [fromCounts, Function.comp_apply]
  rw [swap_coord x0 x1 c.1 ha0 ha1, swap_coord y0 y1 c.2 hb0 hb1]

/-- On a horizontal, vertical or diagonal line the swapped `DrawLine` plots the points of the
original line in reverse order. -/
theorem trace_swap_reverse (fuel : Nat) (x0 y0 x1 y1 : Int)
    (hfuel : max |x1 - x0| |y1 - y0| + 1 ≤ (fuel : Int))
    (hline : x0 = x1 ∨ y0 = y1 ∨ |x1 - x0| = |y1 - y0|) :
    DrawLine.trace fuel x1 y1 x0 y0 = (DrawLine.trace fuel x0 y0 x1 y1).map List.reverse := by
  rw [trace_swap fuel x0 y0 x1 y1 hfuel]
  obtain ⟨l, hl, hlen, hd, _⟩ := trace_eq fuel x0 y0 x1 y1 hfuel
  have hx := (sign_dist x0 x1).2.2
  have hy := (sign_dist y0 y1).2.2
  have hdx := abs_nonneg (x1 - x0)
  have hdy := abs_nonneg (y1 - y0)
  have hrev : l.map (fun c => (|x1 - x0| - c.1, |y1 - y0| - c.2)) = l.reverse := by
    rcases hline with h | h | h
    · have h0 : |x1 - x0| = 0 := by rw [h]; simp
      have hs := hd.eq_straight_y h0
      have := map_straight_eq_reverse 0 1 (|y1 - y0|).toNat
      rw [← hs] at this
      rw [← this, h0]
      apply List.map_congr_left
      intro c _
      have h3 : (((|y1 - y0|).toNat : Nat) : Int) = |y1 - y0| := by omega
      rw [h3]; simp
    · have h0 : |y1 - y0| = 0 := by rw [h]; simp
      have hs := hd.eq_straight_x h0
      have := map_straight_eq_reverse 1 0 (|x1 - x0|).toNat
      rw [← hs] at this
      rw [← this, h0]
      apply List.map_congr_left
      intro c _
      have h3 : (((|x1 - x0|).toNat : Nat) : Int) = |x1 - x0| := by omega
      rw [h3]; simp
    · have hs := hd.eq_straight_xy h (by rw [hlen, ← h, max_self])
      have := map_straight_eq_reverse 1 1 (|x1 - x0|).toNat
      rw [← hs] at this
      rw [← this, ← h]
      apply List.map_congr_left
      intro c _
      have h3 : (((|x1 - x0|).toNat : Nat) : Int) = |x1 - x0| := by omega
      rw [h3]; simp
  rw [hl, Option.map_some', Option.map_some', List.map_map, ← List.map_reverse, ← hrev,
    List.map_map]
  congr 1
  apply List.map_congr_left
  intro c _
  simp only [fromCounts, Function.comp_apply]
  have e1 : x0 + x1 - (x1 - (if x0 < x1 then (1 : Int) else -1) * c.1) =
      x1 - (if x0 < x1 then (1 : Int) else -1) * (|x1 - x0| - c.1) := by
    rw [mul_sub]; omega
  have e2 : y0 + y1 - (y1 - (if y0 < y1 then (1 : Int) else -1) * c.2) =
      y1 - (if y0 < y1 then (1 : Int) else -1) * (|y1 - y0| - c.2) := by
    rw [mul_sub]; omega
  rw [e1, e2]

/-! ## The claims on the rasterizer's pixels and lines -/

set_option maxRecDepth 100000 in
/-- Witness of C1: pixel `(5, 10)` of an empty 128x32 frame. -/
theorem SetPixel_spec_witness :
    (panel128x32.HEIGHT % 8 = 0 ∧
      ((List.replicate 512 0).length : Int) = SSD1306_BUF_LEN panel128x32 ∧
      ((0 : Int) ≤ 5 ∧ (5 : Int) < panel128x32.WIDTH) ∧
      ((0 : Int) ≤ 10 ∧ (10 : Int) < panel128x32.HEIGHT)) ∧
    ∃ buf1, SetPixel panel128x32 (List.replicate 512 0) 5 10 true = some buf1 ∧
      buf1.length = (List.replicate 512 0).length ∧
      pixelAt panel128x32 buf1 5 10 = some true ∧
      (∃ byte, buf1[(((10 : Int) / 8) * panel128x32.WIDTH + 5).toNat]? = some byte ∧
        byte.testBit ((10 : Int) % 8).toNat = true) ∧
      ∀ x' y' : Int, 0 ≤ x' → x' < panel128x32.WIDTH → 0 ≤ y' →
        y' < panel128x32.HEIGHT →
        (x', y') ≠ (5, 10) →
        pixelAt panel128x32 buf1 x' y' = pixelAt panel128x32 (List.replicate 512 0) x' y' :=
  ⟨⟨by decide, by decide, ⟨by decide, by decide⟩, ⟨by decide, by decide⟩⟩,
    SetPixel_spec panel128x32 (List.replicate 512 0) 5 10 true (by decide) (by decide)
      ⟨by decide, by decide⟩ ⟨by decide, by decide⟩⟩

set_option maxRecDepth 100000 in
/-- C2, as stated, fails: on an empty 128x32 frame the line from `(0, 0)` to `(2, 1)` lights
`(1, 1)` and not `(1, 0)`, the line from `(2, 1)` to `(0, 0)` lights `(1, 0)` and not `(1, 1)`,
and the two resulting buffers differ. -/
theorem DrawLine_swap_counterexample :
    DrawLine panel128x32 3 (List.replicate 512 0) 0 0 2 1 true ≠
        DrawLine panel128x32 3 (List.replicate 512 0) 2 1 0 0 true ∧
      (DrawLine panel128x32 3 (List.replicate 512 0) 0 0 2 1 true).map
          (fun b => (pixelAt panel128x32 b 1 1, pixelAt panel128x32 b 1 0)) =
        some (some true, some false) ∧
      (DrawLine panel128x32 3 (List.replicate 512 0) 2 1 0 0 true).map
          (fun b => (pixelAt panel128x32 b 1 1, pixelAt panel128x32 b 1 0)) =
        some (some false, some true) := by
  decide

/-- C2 (amended): `DrawLine` is `SetPixel` over the points of its trace; with the end points
swapped it plots, in the same order, the points of the original line reflected in the middle
of the segment, `(x, y) ↦ (x0 + x1 - x, y0 + y1 - y)`; and on a horizontal, vertical or
diagonal line between in-bounds end points both directions return the same buffer. -/
theorem DrawLine_swap (cfg : Config) (fuel : Nat) (buf : List Nat) (x0 y0 x1 y1 : Int)
    (on_ : Bool) (hH : cfg.HEIGHT % 8 = 0) (hlen : (buf.length : Int) = SSD1306_BUF_LEN cfg)
    (hx0 : 0 ≤ x0 ∧ x0 < cfg.WIDTH) (hy0 : 0 ≤ y0 ∧ y0 < cfg.HEIGHT)
    (hx1 : 0 ≤ x1 ∧ x1 < cfg.WIDTH) (hy1 : 0 ≤ y1 ∧ y1 < cfg.HEIGHT)
    (hfuel : max |x1 - x0| |y1 - y0| + 1 ≤ (fuel : Int)) :
    (DrawLine cfg fuel buf x0 y0 x1 y1 on_ =
        (DrawLine.trace fuel x0 y0 x1 y1).bind (fun ps => SetPixels cfg on_ ps buf) ∧
      DrawLine cfg fuel buf x1 y1 x0 y0 on_ =
        (DrawLine.trace fuel x1 y1 x0 y0).bind (fun ps => SetPixels cfg on_ ps buf)) ∧
    DrawLine.trace fuel x1 y1 x0 y0 =
      (DrawLine.trace fuel x0 y0 x1 y1).map
        (List.map (fun p => (x0 + x1 - p.1, y0 + y1 - p.2))) ∧
    ((x0 = x1 ∨ y0 = y1 ∨ |x1 - x0| = |y1 - y0|) →
      ∃ buf1, DrawLine cfg fuel buf x0 y0 x1 y1 on_ = some buf1 ∧
        DrawLine cfg fuel buf x1 y1 x0 y0 on_ = some buf1) := by
  refine ⟨⟨DrawLine_eq_SetPixels _ _ _ _ _ _ _ _, DrawLine_eq_SetPixels _ _ _ _ _ _ _ _⟩,
    trace_swap fuel x0 y0 x1 y1 hfuel, ?_⟩
  intro hline
  obtain ⟨_, _, buf1, _, _, _, _, hb, _⟩ :=
    DrawLine_plots cfg fuel buf x0 y0 x1 y1 on_ hH hlen hx0 hy0 hx1 hy1 hfuel
  refine ⟨buf1, hb, ?_⟩
  rw [← hb, DrawLine_eq_SetPixels, DrawLine_eq_SetPixels,
    trace_swap_reverse fuel x0 y0 x1 y1 hfuel hline]
  cases DrawLine.trace fuel x0 y0 x1 y1 with
  | none => rfl
  | some ps => simp only [Option.map_some', Option.some_bind, SetPixels_reverse]

set_option maxRecDepth 100000 in
/-- Witness of C2 (amended): the diagonal from `(0, 0)` to `(3, 3)` on an empty 128x32
frame. -/
theorem DrawLine_swap_witness :
    (panel128x32.HEIGHT % 8 = 0 ∧
      ((List.replicate 512 0).length : Int) = SSD1306_BUF_LEN panel128x32 ∧
      ((0 : Int) ≤ 0 ∧ (0 : Int) < panel128x32.WIDTH) ∧
      ((0 : Int) ≤ 0 ∧ (0 : Int) < panel128x32.HEIGHT) ∧
      ((0 : Int) ≤ 3 ∧ (3 : Int) < panel128x32.WIDTH) ∧
      ((0 : Int) ≤ 3 ∧ (3 : Int) < panel128x32.HEIGHT) ∧
      max |(3 : Int) - 0| |(3 : Int) - 0| + 1 ≤ ((4 : Nat) : Int)) ∧
    DrawLine.trace 4 3 3 0 0 =
      (DrawLine.trace 4 0 0 3 3).map
        (List.map (fun p => ((0 : Int) + 3 - p.1, (0 : Int) + 3 - p.2))) ∧
    (((0 : Int) = 3 ∨ (0 : Int) = 3 ∨ |(3 : Int) - 0| = |(3 : Int) - 0|) →
      ∃ buf1, DrawLine panel128x32 4 (List.replicate 512 0) 0 0 3 3 true = some buf1 ∧
        DrawLine panel128x32 4 (List.replicate 512 0) 3 3 0 0 true = some buf1) :=
  ⟨⟨by decide, by decide, ⟨by decide, by decide⟩, ⟨by decide, by decide⟩,
      ⟨by decide, by decide⟩, ⟨by decide, by decide⟩, by decide⟩,
    (DrawLine_swap panel128x32 4 (List.replicate 512 0) 0 0 3 3 true (by decide) (by decide)
      ⟨by decide, by decide⟩ ⟨by decide, by decide⟩ ⟨by decide, by decide⟩
      ⟨by decide, by decide⟩ (by decide)).2⟩

/-- C3: on a panel whose height is a multiple of the page height and a buffer of
`SSD1306_BUF_LEN` bytes, `DrawLine` between in-bounds end points returns (once the fuel covers
the `max |x1 - x0| |y1 - y0| + 1` iterations), keeps the length of the buffer, and both end
point pixels read as `on` afterwards: lit for `true`, cleared for `false`.  When the end
points coincide `DrawLine` is a single `SetPixel` of that pixel. -/
theorem DrawLine_endpoints (cfg : Config) (fuel : Nat) (buf : List Nat) (x0 y0 x1 y1 : Int)
    (on_ : Bool) (hH : cfg.HEIGHT % 8 = 0) (hlen : (buf.length : Int) = SSD1306_BUF_LEN cfg)
    (hx0 : 0 ≤ x0 ∧ x0 < cfg.WIDTH) (hy0 : 0 ≤ y0 ∧ y0 < cfg.HEIGHT)
    (hx1 : 0 ≤ x1 ∧ x1 < cfg.WIDTH) (hy1 : 0 ≤ y1 ∧ y1 < cfg.HEIGHT)
    (hfuel : max |x1 - x0| |y1 - y0| + 1 ≤ (fuel : Int)) :
    ∃ buf1, DrawLine cfg fuel buf x0 y0 x1 y1 on_ = some buf1 ∧
      buf1.length = buf.length ∧
      pixelAt cfg buf1 x0 y0 = some on_ ∧
      pixelAt cfg buf1 x1 y1 = some on_ ∧
      (x0 = x1 → y0 = y1 →
        DrawLine cfg fuel buf x0 y0 x1 y1 on_ = SetPixel cfg buf x0 y0 on_) := by
  obtain ⟨l, ps, buf1, hd, hps, _, _, hD, hblen, hon, _⟩ :=
    DrawLine_plots cfg fuel buf x0 y0 x1 y1 on_ hH hlen hx0 hy0 hx1 hy1 hfuel
  refine ⟨buf1, hD, hblen, ?_, ?_, ?_⟩
  · obtain ⟨t, ht⟩ := hd.head_eq
    have hmem : (x0, y0) ∈ ps := by
      rw [hps, ht, List.map_cons]
      have hx := (sign_dist x0 x1).2.2
      have hy := (sign_dist y0 y1).2.2
      simp only [fromCounts]
      rw [← hx, ← hy]
      exact List.mem_cons_self _ _
    exact hon (x0, y0) hmem
  · have hmem0 : ((0 : Int), (0 : Int)) ∈ l := List.mem_of_getLast?_eq_some hd.getLast_eq
    have hmem : (x1, y1) ∈ ps := by
      rw [hps]
      refine List.mem_map.mpr ⟨(0, 0), hmem0, ?_⟩
      simp [fromCounts]
    exact hon (x1, y1) hmem
  · intro hx hy
    subst hx hy
    obtain ⟨f, rfl⟩ : ∃ f, fuel = f + 1 := ⟨fuel - 1, by
      have : (0 : Int) ≤ max |x0 - x0| |y0 - y0| := le_max_of_le_left (abs_nonneg _)
      omega⟩
    unfold DrawLine
    rw [DrawLine.loop]
    cases SetPixel cfg buf x0 y0 on_ <;> simp

set_option maxRecDepth 100000 in
/-- Witness of C3: the line from `(0, 0)` to `(2, 1)` on an empty 128x32 frame. -/
theorem DrawLine_endpoints_witness :
    (panel128x32.HEIGHT % 8 = 0 ∧
      ((List.replicate 512 0).length : Int) = SSD1306_BUF_LEN panel128x32 ∧
      ((0 : Int) ≤ 0 ∧ (0 : Int) < panel128x32.WIDTH) ∧
      ((0 : Int) ≤ 0 ∧ (0 : Int) < panel128x32.HEIGHT) ∧
      ((0 : Int) ≤ 2 ∧ (2 : Int) < panel128x32.WIDTH) ∧
      ((0 : Int) ≤ 1 ∧ (1 : Int) < panel128x32.HEIGHT) ∧
      max |(2 : Int) - 0| |(1 : Int) - 0| + 1 ≤ ((3 : Nat) : Int)) ∧
    ∃ buf1, DrawLine panel128x32 3 (List.replicate 512 0) 0 0 2 1 true = some buf1 ∧
      buf1.length = (List.replicate 512 0).length ∧
      pixelAt panel128x32 buf1 0 0 = some true ∧
      pixelAt panel128x32 buf1 2 1 = some true ∧
      ((0 : Int) = 2 → (0 : Int) = 1 →
        DrawLine panel128x32 3 (List.replicate 512 0) 0 0 2 1 true =
          SetPixel panel128x32 (List.replicate 512 0) 0 0 true) :=
  ⟨⟨by decide, by decide, ⟨by decide, by decide⟩, ⟨by decide, by decide⟩,
      ⟨by decide, by decide⟩, ⟨by decide, by decide⟩, by decide⟩,
    DrawLine_endpoints panel128x32 3 (List.replicate 512 0) 0 0 2 1 true (by decide) (by decide)
      ⟨by decide, by decide⟩ ⟨by decide, by decide⟩ ⟨by decide, by decide⟩
      ⟨by decide, by decide⟩ (by decide)⟩

/-! ## The controller driver: framing -/

/-- The loop of `SSD1306_send_cmd_list` sends the next `n` bytes of the list, one
transmission each. -/
theorem send_cmd_list_loop (cfg : Config) (list : List Nat) :
    ∀ (n i : Nat) (bus : Bus), i + n ≤ list.length →
      SSD1306_send_cmd_list.loop cfg list n i bus =
        some (bus ++ ((list.drop i).take n).map (fun c => cmdFrame cfg (c % 256))) := by
  intro n
  induction n with
  | zero => intro i bus _; simp [SSD1306_send_cmd_list.loop]
  | succ n ih =>
    intro i bus h
    have hi : i < list.length := by omega
    rw [SSD1306_send_cmd_list.loop, List.getElem?_eq_getElem hi]
    simp only []
    rw [ih (i + 1) _ (by omega), List.drop_eq_getElem_cons hi, List.take_succ_cons,
      List.map_cons]
    simp [SSD1306_send_cmd, i2c_write_blocking, cmdFrame]

/-- The function `SSD1306_send_cmd_list` sends the first `len` bytes of the list in order, one
`[0x80, c]` transmission each. -/
theorem send_cmd_list_eq (cfg : Config) (bus : Bus) (list : List Nat) (len : Int)
    (h0 : 0 ≤ len) (h1 : len ≤ list.length) :
    SSD1306_send_cmd_list cfg bus list len =
      some (bus ++ (list.take len.toNat).map (fun c => cmdFrame cfg (c % 256))) := by
  unfold SSD1306_send_cmd_list
  rw [send_cmd_list_loop cfg list len.toNat 0 bus (by omega)]
  simp

/-- The function `SSD1306_send_buf` makes one transmission of the control byte `0x40` and the
first `len` bytes of the buffer. -/
theorem send_buf_eq (cfg : Config) (bus : Bus) (buf : List Nat) (len : Int)
    (h0 : 0 ≤ len) (h1 : len ≤ buf.length) :
    SSD1306_send_buf cfg bus buf len =
      some (buf, bus ++ [{ addr := cfg.I2C_ADDR, bytes := 0x40 :: buf.take len.toNat }]) := by
  unfold SSD1306_send_buf
  rw [if_neg (by omega)]
  have h2 : (len + 1).toNat = len.toNat + 1 := by omega
  have h3 : (buf.take len.toNat).length = len.toNat := by
    rw [List.length_take]; omega
  simp only [i2c_write_blocking, h2, List.take_succ_cons]
  rw [List.take_of_length_le (by omega)]

/-! ## The claims on the controller driver -/

/-- C4: for every command byte `c`, `SSD1306_send_cmd` adds exactly one transmission to the
bus, addressed to the device, with the two bytes `[0x80, c]` as its payload; `0x81` goes out
as `[0x80, 0x81]`. -/
theorem send_cmd_frame (cfg : Config) (bus : Bus) (c : Nat) (hc : c < 256) :
    SSD1306_send_cmd cfg bus c = bus ++ [{ addr := cfg.I2C_ADDR, bytes := [0x80, c] }] ∧
      (SSD1306_send_cmd cfg bus c).length = bus.length + 1 ∧
      SSD1306_send_cmd cfg [] 0x81 = [{ addr := cfg.I2C_ADDR, bytes := [0x80, 0x81] }] := by
  have h : c % 256 = c := Nat.mod_eq_of_lt hc
  refine ⟨?_, ?_, ?_⟩
  · simp [SSD1306_send_cmd, i2c_write_blocking, h]
  · simp [SSD1306_send_cmd, i2c_write_blocking]
  · simp [SSD1306_send_cmd, i2c_write_blocking]

/-- Witness of C4: the command `0xAF` after one earlier transmission. -/
theorem send_cmd_frame_witness :
    (0xAF : Nat) < 256 ∧
      (SSD1306_send_cmd panel128x32 [{ addr := 0x3C, bytes := [0x80, 0xAE] }] 0xAF =
          [{ addr := 0x3C, bytes := [0x80, 0xAE] }] ++
            [{ addr := panel128x32.I2C_ADDR, bytes := [0x80, 0xAF] }] ∧
        (SSD1306_send_cmd panel128x32 [{ addr := 0x3C, bytes := [0x80, 0xAE] }] 0xAF).length =
          [({ addr := 0x3C, bytes := [0x80, 0xAE] } : Transmission)].length + 1 ∧
        SSD1306_send_cmd panel128x32 [] 0x81 =
          [{ addr := panel128x32.I2C_ADDR, bytes := [0x80, 0x81] }]) :=
  ⟨by decide, send_cmd_frame panel128x32 [{ addr := 0x3C, bytes := [0x80, 0xAE] }] 0xAF
    (by decide)⟩

/-- C5: for `0 ≤ len ≤ length buf`, `SSD1306_send_buf` adds exactly one transmission to the
bus, of `len + 1` bytes: the control byte `0x40` and then the first `len` bytes of the buffer
in order; the caller's buffer is unchanged.  `[1, 2, 3]` goes out as `[0x40, 1, 2, 3]` and
`len = 0` as `[0x40]`. -/
theorem send_buf_frame (cfg : Config) (bus : Bus) (buf : List Nat) (len : Int)
    (h0 : 0 ≤ len) (h1 : len ≤ buf.length) :
    (∃ t : Transmission, SSD1306_send_buf cfg bus buf len = some (buf, bus ++ [t]) ∧
        t.addr = cfg.I2C_ADDR ∧ t.bytes = 0x40 :: buf.take len.toNat ∧
        (t.bytes.length : Int) = len + 1) ∧
      SSD1306_send_buf cfg [] [1, 2, 3] 3 =
        some ([1, 2, 3], [{ addr := cfg.I2C_ADDR, bytes := [0x40, 1, 2, 3] }]) ∧
      SSD1306_send_buf cfg [] buf 0 = some (buf, [{ addr := cfg.I2C_ADDR, bytes := [0x40] }]) := by
  refine ⟨⟨_, send_buf_eq cfg bus buf len h0 h1, rfl, rfl, ?_⟩, ?_, ?_⟩
  · simp only [List.length_cons, List.length_take]
    omega
  · rw [send_buf_eq cfg [] [1, 2, 3] 3 (by decide) (by decide)]
    rfl
  · rw [send_buf_eq cfg [] buf 0 (le_refl 0) (by omega)]
    rfl

/-- Witness of C5: two bytes of a buffer of three. -/
theorem send_buf_frame_witness :
    ((0 : Int) ≤ 2 ∧ (2 : Int) ≤ ([7, 8, 9] : List Nat).length) ∧
      SSD1306_send_buf panel128x32 [] [7, 8, 9] 2 =
        some ([7, 8, 9], [{ addr := 0x3C, bytes := [0x40, 7, 8] }]) :=
  ⟨⟨by decide, by decide⟩, by
    obtain ⟨t, h, ha, hb, _⟩ := (send_buf_frame panel128x32 [] [7, 8, 9] 2 (by decide)
      (by decide)).1
    rw [h]
    cases t
    simp only [List.nil_append, Option.some.injEq, Prod.mk.injEq, List.cons.injEq,
      Transmission.mk.injEq, and_true, true_and] at ha hb ⊢
    exact ⟨ha, hb⟩⟩

/-- C6: for a `render_area` with byte-sized bounds and a buffer of at least `buflen ≥ 0` bytes,
`SSD1306_render` adds exactly seven transmissions to the bus, in this order: `[0x80, 0x21]`,
`[0x80, start_col]`, `[0x80, end_col]`, `[0x80, 0x22]`, `[0x80, start_page]`,
`[0x80, end_page]`, and one data transmission of `0x40` followed by the first `buflen` bytes
of the buffer; the buffer is unchanged. -/
theorem render_frames (cfg : Config) (bus : Bus) (buf : List Nat) (a : render_area)
    (hwf : a.wf) (h0 : 0 ≤ a.buflen) (h1 : a.buflen ≤ buf.length) :
    SSD1306_render cfg bus buf a =
      some (buf, bus ++
        [{ addr := cfg.I2C_ADDR, bytes := [0x80, 0x21] },
         { addr := cfg.I2C_ADDR, bytes := [0x80, a.start_col] },
         { addr := cfg.I2C_ADDR, bytes := [0x80, a.end_col] },
         { addr := cfg.I2C_ADDR, bytes := [0x80, 0x22] },
         { addr := cfg.I2C_ADDR, bytes := [0x80, a.start_page] },
         { addr := cfg.I2C_ADDR, bytes := [0x80, a.end_page] },
         { addr := cfg.I2C_ADDR, bytes := 0x40 :: buf.take a.buflen.toNat }]) ∧
      ((0x40 :: buf.take a.buflen.toNat).length : Int) = a.buflen + 1 := by
  obtain ⟨h2, h3, h4, h5⟩ := hwf
  constructor
  · unfold SSD1306_render
    simp only []
    rw [send_cmd_list_eq cfg bus _ _ (by simp) (by simp)]
    simp only []
    rw [send_buf_eq cfg _ buf a.buflen h0 h1]
    simp [cmdFrame, SSD1306_SET_COL_ADDR, SSD1306_SET_PAGE_ADDR, Nat.mod_eq_of_lt h2,
      Nat.mod_eq_of_lt h3, Nat.mod_eq_of_lt h4, Nat.mod_eq_of_lt h5]
  · simp only [List.length_cons, List.length_take]
    omega

/-- Witness of C6: the window of columns 0 to 2 of page 0 and three bytes. -/
theorem render_frames_witness :
    (render_area.wf ⟨0, 2, 0, 0, 3⟩ ∧ (0 : Int) ≤ (⟨0, 2, 0, 0, 3⟩ : render_area).buflen ∧
      (⟨0, 2, 0, 0, 3⟩ : render_area).buflen ≤ ([1, 2, 3] : List Nat).length) ∧
    SSD1306_render panel128x32 [] [1, 2, 3] ⟨0, 2, 0, 0, 3⟩ =
      some ([1, 2, 3],
        [{ addr := 0x3C, bytes := [0x80, 0x21] },
         { addr := 0x3C, bytes := [0x80, 0] },
         { addr := 0x3C, bytes := [0x80, 2] },
         { addr := 0x3C, bytes := [0x80, 0x22] },
         { addr := 0x3C, bytes := [0x80, 0] },
         { addr := 0x3C, bytes := [0x80, 0] },
         { addr := 0x3C, bytes := [0x40, 1, 2, 3] }]) :=
  ⟨⟨by unfold render_area.wf; decide, by decide, by decide⟩,
    (render_frames panel128x32 [] [1, 2, 3] ⟨0, 2, 0, 0, 3⟩ (by unfold render_area.wf; decide)
      (by decide) (by decide)).1⟩

/-- C7: for every configuration whose height fits the multiplex byte (`1 ≤ HEIGHT ≤ 256`),
`SSD1306_init` adds exactly these 26 commands to the bus, one `[0x80, c]` transmission each,
in this order; the segment remap and COM direction are `0xA0`, `0xC0` when `UPSIDE_DOWN = 0`
and `0xA1`, `0xC8` otherwise, and the byte after `0xDA` is `0x12` for 128x64 and `0x02` for
128x32 and for every other size. -/
theorem init_commands (cfg : Config) (bus : Bus) (hH0 : 1 ≤ cfg.HEIGHT) (hH1 : cfg.HEIGHT ≤ 256) :
    SSD1306_init cfg bus =
      some (bus ++
        ([0xAE, 0x20, 0x00, 0x40,
          if cfg.UPSIDE_DOWN = 0 then 0xA0 else 0xA1,
          if cfg.UPSIDE_DOWN = 0 then 0xC0 else 0xC8,
          0xA8, (cfg.HEIGHT - 1).toNat, 0xD3, 0x00, 0xDA,
          if cfg.WIDTH = 128 ∧ cfg.HEIGHT = 64 then 0x12 else 0x02,
          0xD5, 0x80, 0xD9, 0xF1, 0xDB, 0x30, 0x81, 0xFF, 0xA4, 0xA6, 0x8D, 0x14, 0x2E,
          0xAF] : List Nat).map
          (fun c => ({ addr := cfg.I2C_ADDR, bytes := [0x80, c] } : Transmission))) := by
  have hm : ((cfg.HEIGHT - 1) % 256).toNat = (cfg.HEIGHT - 1).toNat := by
    rw [Int.emod_eq_of_lt (by omega) (by omega)]
  have hlt : (cfg.HEIGHT - 1).toNat % 256 = (cfg.HEIGHT - 1).toNat := by omega
  have hlen : (SSD1306_init.cmds cfg).length = 26 := by
    unfold SSD1306_init.cmds
    split_ifs <;> rfl
  unfold SSD1306_init
  simp only []
  rw [send_cmd_list_eq cfg bus _ _ (by omega) (le_refl _)]
  simp only [Int.toNat_ofNat, List.take_length]
  unfold SSD1306_init.cmds
  rw [hm]
  by_cases hu : cfg.UPSIDE_DOWN = 0 <;> by_cases hw : cfg.WIDTH = 128 <;>
    by_cases h32 : cfg.HEIGHT = 32 <;> by_cases h64 : cfg.HEIGHT = 64 <;>
    simp [hu, hw, h32, h64, hlt, cmdFrame, SSD1306_SET_DISP, SSD1306_SET_MEM_MODE,
      SSD1306_SET_DISP_START_LINE, SSD1306_SET_SEG_REMAP, SSD1306_SET_COM_OUT_DIR,
      SSD1306_SET_MUX_RATIO, SSD1306_SET_DISP_OFFSET, SSD1306_SET_COM_PIN_CFG,
      SSD1306_SET_DISP_CLK_DIV, SSD1306_SET_PRECHARGE, SSD1306_SET_VCOM_DESEL,
      SSD1306_SET_CONTRAST, SSD1306_SET_ENTIRE_ON, SSD1306_SET_NORM_DISP,
      SSD1306_SET_CHARGE_PUMP, SSD1306_SET_SCROLL] <;>
    omega

/-- Witness of C7: the 128x64 panel. -/
theorem init_commands_witness :
    ((1 : Int) ≤ panel128x64.HEIGHT ∧ panel128x64.HEIGHT ≤ 256) ∧
    SSD1306_init panel128x64 [] =
      some (([0xAE, 0x20, 0x00, 0x40, 0xA0, 0xC0, 0xA8, 63, 0xD3, 0x00, 0xDA, 0x12,
          0xD5, 0x80, 0xD9, 0xF1, 0xDB, 0x30, 0x81, 0xFF, 0xA4, 0xA6, 0x8D, 0x14, 0x2E,
          0xAF] : List Nat).map
          (fun c => ({ addr := 0x3C, bytes := [0x80, c] } : Transmission))) :=
  ⟨⟨by decide, by decide⟩, init_commands panel128x64 [] (by decide) (by decide)⟩

/-! ## The claims on the render window and the glyph index -/

/-- C8: for a `render_area` with byte-sized bounds, `start_col ≤ end_col` and
`start_page ≤ end_page`, `calc_render_area_buflen` sets `buflen` to the exact product
`(end_col - start_col + 1) * (end_page - start_page + 1)`, a value between 1 and 65536 that
is not reduced to the width of the byte fields, and keeps the four bounds; for the window of
the whole frame the result is `SSD1306_BUF_LEN`, 512 on the 128x32 panel. -/
theorem buflen_exact (a : render_area) (hwf : a.wf) (hc : a.start_col ≤ a.end_col)
    (hp : a.start_page ≤ a.end_page) :
    (calc_render_area_buflen a).buflen =
        (((a.end_col - a.start_col + 1) * (a.end_page - a.start_page + 1) : Nat) : Int) ∧
      1 ≤ (calc_render_area_buflen a).buflen ∧ (calc_render_area_buflen a).buflen ≤ 65536 ∧
      (calc_render_area_buflen a).start_col = a.start_col ∧
      (calc_render_area_buflen a).end_col = a.end_col ∧
      (calc_render_area_buflen a).start_page = a.start_page ∧
      (calc_render_area_buflen a).end_page = a.end_page ∧
      (∀ (cfg : Config) (b : Int), 1 ≤ cfg.WIDTH → cfg.WIDTH ≤ 256 → 8 ≤ cfg.HEIGHT →
        cfg.HEIGHT ≤ 2048 →
        (calc_render_area_buflen
          ⟨0, (cfg.WIDTH - 1).toNat, 0, (SSD1306_NUM_PAGES cfg - 1).toNat, b⟩).buflen =
          SSD1306_BUF_LEN cfg) ∧
      (calc_render_area_buflen ⟨0, 127, 0, 3, 0⟩).buflen = 512 ∧
      (calc_render_area_buflen ⟨0, 255, 0, 0, 0⟩).buflen = 256 := by
  obtain ⟨h1, h2, h3, h4⟩ := hwf
  have e1 : ((a.end_col - a.start_col : Nat) : Int) = (a.end_col : Int) - a.start_col := by
    omega
  have e2 : ((a.end_page - a.start_page : Nat) : Int) = (a.end_page : Int) - a.start_page := by
    omega
  have hb : (calc_render_area_buflen a).buflen =
      ((a.end_col : Int) - a.start_col + 1) * ((a.end_page : Int) - a.start_page + 1) := rfl
  have l1 : (1 : Int) ≤ (a.end_col : Int) - a.start_col + 1 := by omega
  have l2 : (1 : Int) ≤ (a.end_page : Int) - a.start_page + 1 := by omega
  have u1 : (a.end_col : Int) - a.start_col + 1 ≤ 256 := by omega
  have u2 : (a.end_page : Int) - a.start_page + 1 ≤ 256 := by omega
  refine ⟨?_, ?_, ?_, rfl, rfl, rfl, rfl, ?_, by decide, by decide⟩
  · rw [hb]; push_cast; rw [e1, e2]
  · rw [hb]; nlinarith
  · rw [hb]; nlinarith
  · intro cfg b hw0 hw1 hh0 hh1
    have hP : SSD1306_NUM_PAGES cfg = cfg.HEIGHT / 8 := by
      unfold SSD1306_NUM_PAGES SSD1306_PAGE_HEIGHT
      exact Int.tdiv_eq_ediv (by omega) (by norm_num)
    unfold SSD1306_BUF_LEN
    rw [hP]
    show (((cfg.WIDTH - 1).toNat : Int) - ((0 : Nat) : Int) + 1) *
      (((cfg.HEIGHT / 8 - 1).toNat : Int) - ((0 : Nat) : Int) + 1) = cfg.HEIGHT / 8 * cfg.WIDTH
    have e3 : ((cfg.WIDTH - 1).toNat : Int) - ((0 : Nat) : Int) + 1 = cfg.WIDTH := by omega
    have e4 : ((cfg.HEIGHT / 8 - 1).toNat : Int) - ((0 : Nat) : Int) + 1 = cfg.HEIGHT / 8 := by
      omega
    rw [e3, e4, mul_comm]

/-- Witness of C8: the window of columns 10 to 35 of pages 0 to 3 (26 x 4). -/
theorem buflen_exact_witness :
    (render_area.wf ⟨10, 35, 0, 3, 0⟩ ∧ (10 : Nat) ≤ 35 ∧ (0 : Nat) ≤ 3) ∧
      (calc_render_area_buflen ⟨10, 35, 0, 3, 0⟩).buflen = 104 :=
  ⟨⟨by unfold render_area.wf; decide, by decide, by decide⟩,
    (buflen_exact ⟨10, 35, 0, 3, 0⟩ (by unfold render_area.wf; decide) (by decide)
      (by decide)).1⟩

/-- C9: for every 8-bit character, `glyph_index` is `GetFontIndex` of the uppercased
character: space gives 0, `'A'..'Z'` give 1..26, `'a'..'z'` the index of their capital,
`'0'..'9'` give 27..36, and every other character gives 0; the result is always within
0..36.  So `'a'` and `'A'` agree, `'5'` gives 32 and `'!'` gives 0. -/
theorem glyph_index_spec (ch : Nat) (hch : ch < 256) :
    glyph_index ch = GetFontIndex (toupper ch) ∧
      (ch = 32 → glyph_index ch = 0) ∧
      (65 ≤ ch ∧ ch ≤ 90 → glyph_index ch = (ch : Int) - 65 + 1) ∧
      (97 ≤ ch ∧ ch ≤ 122 → toupper ch = ch - 32 ∧ glyph_index ch = glyph_index (ch - 32)) ∧
      (48 ≤ ch ∧ ch ≤ 57 → glyph_index ch = (ch : Int) - 48 + 27) ∧
      (¬ (65 ≤ ch ∧ ch ≤ 90) → ¬ (97 ≤ ch ∧ ch ≤ 122) → ¬ (48 ≤ ch ∧ ch ≤ 57) →
        glyph_index ch = 0) ∧
      (0 ≤ glyph_index ch ∧ glyph_index ch ≤ 36) ∧
      glyph_index 97 = glyph_index 65 ∧ glyph_index 65 = 1 ∧ glyph_index 90 = 26 ∧
      glyph_index 48 = 27 ∧ glyph_index 53 = 32 ∧ glyph_index 57 = 36 ∧ glyph_index 33 = 0 ∧
      glyph_index 32 = 0 := by
  have hu : toupper ch % 256 = toupper ch := by
    unfold toupper
    split_ifs <;> omega
  refine ⟨by unfold glyph_index; rw [hu], ?_, ?_, ?_, ?_, ?_, ?_, by decide, by decide,
    by decide, by decide, by decide, by decide, by decide, by decide⟩
  · intro h; subst h; decide
  · intro h
    have htu : toupper ch = ch := by unfold toupper; rw [if_neg (by omega)]
    unfold glyph_index
    rw [htu, Nat.mod_eq_of_lt hch]
    unfold GetFontIndex
    rw [if_pos (by omega)]
  · intro h
    have h1 : toupper ch = ch - 32 := by unfold toupper; rw [if_pos h]
    have h2 : toupper (ch - 32) = ch - 32 := by unfold toupper; rw [if_neg (by omega)]
    refine ⟨h1, ?_⟩
    unfold glyph_index
    rw [h1, h2]
  · intro h
    have htu : toupper ch = ch := by unfold toupper; rw [if_neg (by omega)]
    unfold glyph_index
    rw [htu, Nat.mod_eq_of_lt hch]
    unfold GetFontIndex
    rw [if_neg (by omega), if_pos (by omega)]
  · intro h1 h2 h3
    have htu : toupper ch = ch := by unfold toupper; rw [if_neg h2]
    unfold glyph_index
    rw [htu, Nat.mod_eq_of_lt hch]
    unfold GetFontIndex
    rw [if_neg (by omega), if_neg (by omega)]
  · unfold glyph_index GetFontIndex toupper
    split_ifs <;> omega

/-- Witness of C9: the character `'q'`. -/
theorem glyph_index_spec_witness :
    (113 : Nat) < 256 ∧ glyph_index 113 = GetFontIndex (toupper 113) ∧
      (97 ≤ 113 ∧ 113 ≤ 122 → toupper 113 = 113 - 32 ∧ glyph_index 113 = glyph_index (113 - 32)) :=
  ⟨by decide, (glyph_index_spec 113 (by decide)).1, (glyph_index_spec 113 (by decide)).2.2.2.1⟩

/-! ## The glyph cache and `WriteChar` -/

/-- A loop that stores `f i` at every index `i` below `n`. -/
theorem foldl_set_range (f : Nat → Nat) :
    ∀ (n : Nat) (r : List Nat),
      ((List.range n).foldl (fun r i => r.set i (f i)) r).length = r.length ∧
      ∀ j : Nat, ((List.range n).foldl (fun r i => r.set i (f i)) r)[j]? =
        if j < n ∧ j < r.length then some (f j) else r[j]? := by
  intro n
  induction n with
  | zero => intro r; simp
  | succ n ih =>
    intro r
    obtain ⟨hlen, hget⟩ := ih r
    rw [List.range_succ, List.foldl_append]
    simp only [List.foldl_cons, List.foldl_nil, List.length_set]
    refine ⟨hlen, ?_⟩
    intro j
    rw [List.getElem?_set, hget j, hlen]
    by_cases hjn : n = j
    · subst hjn
      by_cases hl : n < r.length
      · simp [hl]
      · have : r[n]? = none := List.getElem?_eq_none (by omega)
        simp [hl, this]
    · rw [if_neg hjn]
      by_cases hl : j < r.length
      · by_cases hj : j < n
        · rw [if_pos ⟨hj, hl⟩, if_pos ⟨by omega, hl⟩]
        · rw [if_neg (by omega), if_neg (by omega)]
      · rw [if_neg (by omega), if_neg (by omega)]

/-- The function `FillReversedCache` makes the cache the bit-reversed font. -/
theorem FillReversedCache_eq (font reversed : List Nat) (h : reversed.length = font.length) :
    FillReversedCache font reversed = font.map reverse := by
  obtain ⟨_, hget⟩ := foldl_set_range (fun i => reverse (font.getD i 0)) font.length reversed
  apply List.ext_getElem?
  intro j
  unfold FillReversedCache
  rw [hget j, List.getElem?_map]
  by_cases hj : j < font.length
  · rw [if_pos ⟨hj, by omega⟩, List.getElem?_eq_getElem hj]
    simp [List.getElem?_eq_getElem hj]
  · rw [if_neg (by omega), List.getElem?_eq_none (by omega), List.getElem?_eq_none (by omega)]
    rfl

/-- A reachable cache is all zero or the bit-reversed font. -/
theorem CacheReachable.cases_eq {cfg : Config} {font reversed : List Nat}
    (h : CacheReachable cfg font reversed) :
    reversed = List.replicate font.length 0 ∨ reversed = font.map reverse := by
  induction h with
  | init => exact Or.inl rfl
  | step reversed buf x y ch reversed1 buf1 _ hw ih =>
    have hlen : reversed.length = font.length := by
      rcases ih with h | h <;> rw [h] <;> simp
    unfold WriteChar at hw
    cases hr : reversed[0]? with
    | none => rw [hr] at hw; simp at hw
    | some r0 =>
      rw [hr] at hw
      simp only [] at hw
      have hc : (if r0 = 0 then FillReversedCache font reversed else reversed) = reversed1 := by
        generalize (if r0 = 0 then FillReversedCache font reversed else reversed) = c at hw ⊢
        by_cases hb : x > cfg.WIDTH - 8 ∨ y > cfg.HEIGHT - 8
        · rw [if_pos hb] at hw
          simp only [Option.some.injEq, Prod.mk.injEq] at hw
          exact hw.1
        · rw [if_neg hb] at hw
          cases hcp : WriteChar.copy c (GetFontIndex (toupper ch % 256)) 8 0 buf
            (Int.tdiv y 8 * 128 + x) with
          | none => rw [hcp] at hw; simp at hw
          | some b =>
            rw [hcp] at hw
            simp only [Option.map_some', Option.some.injEq, Prod.mk.injEq] at hw
            exact hw.1
      rw [← hc]
      by_cases h0 : r0 = 0
      · rw [if_pos h0, FillReversedCache_eq font reversed hlen]
        exact Or.inr rfl
      · rw [if_neg h0]
        exact ih

/-- The cache `WriteChar` works with after its first statement, for a reachable cache and a
font that is not empty: the bit-reversed font. -/
theorem cache_after_check (cfg : Config) (font reversed : List Nat) (hfont : 0 < font.length)
    (h : CacheReachable cfg font reversed) :
    ∃ r0, reversed[0]? = some r0 ∧
      (if r0 = 0 then FillReversedCache font reversed else reversed) = font.map reverse := by
  have hlen : reversed.length = font.length := by
    rcases h.cases_eq with h | h <;> rw [h] <;> simp
  have hpos : 0 < reversed.length := by omega
  refine ⟨reversed[0], List.getElem?_eq_getElem hpos, ?_⟩
  by_cases h0 : reversed[0] = 0
  · rw [if_pos h0, FillReversedCache_eq font reversed hlen]
  · rw [if_neg h0]
    rcases h.cases_eq with h1 | h1
    · exfalso
      apply h0
      simp [h1]
    · exact h1

/-- The copy loop of `WriteChar` stores the next `n` bytes of the cache into the next `n`
slots of the buffer and leaves the other slots alone. -/
theorem copy_spec (reversed : List Nat) (idx : Int) (hidx : 0 ≤ idx) :
    ∀ (n i : Nat) (buf : List Nat) (fb_idx : Int), 0 ≤ fb_idx →
      (idx * 8).toNat + i + n ≤ reversed.length → fb_idx.toNat + n ≤ buf.length →
      ∃ buf1, WriteChar.copy reversed idx n i buf fb_idx = some buf1 ∧
        buf1.length = buf.length ∧
        ∀ j : Nat, buf1[j]? =
          if fb_idx.toNat ≤ j ∧ j < fb_idx.toNat + n then
            reversed[(idx * 8).toNat + i + (j - fb_idx.toNat)]?
          else buf[j]? := by
  intro n
  induction n with
  | zero =>
    intro i buf fb_idx _ _ _
    refine ⟨buf, rfl, rfl, ?_⟩
    intro j
    rw [if_neg (by omega)]
  | succ n ih =>
    intro i buf fb_idx hfb hrev hbuf
    have hk : (idx * 8 + (i : Int)).toNat = (idx * 8).toNat + i := by omega
    have hklt : (idx * 8).toNat + i < reversed.length := by omega
    obtain ⟨buf1, hb1, hlen1, hget1⟩ := ih (i + 1) (buf.set fb_idx.toNat reversed[(idx * 8).toNat + i])
      (fb_idx + 1) (by omega) (by omega) (by rw [List.length_set]; omega)
    refine ⟨buf1, ?_, by rw [hlen1, List.length_set], ?_⟩
    · rw [WriteChar.copy, if_neg (by omega), hk, List.getElem?_eq_getElem hklt]
      simp only []
      rw [if_neg (by omega)]
      exact hb1
    · intro j
      rw [hget1 j]
      have hfb1 : (fb_idx + 1).toNat = fb_idx.toNat + 1 := by omega
      rw [hfb1]
      by_cases hj : j = fb_idx.toNat
      · subst hj
        rw [if_neg (by omega), if_pos (by omega), List.getElem?_set_self (by omega),
          Nat.sub_self, Nat.add_zero, List.getElem?_eq_getElem hklt]
      · by_cases hin : fb_idx.toNat + 1 ≤ j ∧ j < fb_idx.toNat + 1 + n
        · rw [if_pos hin, if_pos (by omega)]
          congr 1
          omega
        · rw [if_neg hin, if_neg (by omega), List.getElem?_set_ne (fun h => hj h.symm)]

/-- The glyph index is one of the 37 glyphs. -/
theorem glyph_index_range (ch : Nat) : 0 ≤ glyph_index ch ∧ glyph_index ch ≤ 36 := by
  unfold glyph_index GetFontIndex
  split_ifs <;> omega

/-- What `WriteChar` does when the position passes its check: with a font of 37 glyphs, a
reachable cache and room in the buffer for the eight slots from `(y / 8) * 128 + x` on, it
stores the eight bit-reversed bytes of the glyph there and leaves the other slots alone. -/
theorem WriteChar_writes (cfg : Config) (font reversed buf : List Nat) (x y : Int) (ch : Nat)
    (hfont : 296 ≤ font.length) (hreach : CacheReachable cfg font reversed)
    (hx0 : 0 ≤ x) (hx : x ≤ cfg.WIDTH - 8) (hy0 : 0 ≤ y) (hy : y ≤ cfg.HEIGHT - 8)
    (hfit : (y / 8) * 128 + x + 8 ≤ buf.length) :
    ∃ buf1, WriteChar cfg font reversed buf x y ch = some (font.map reverse, buf1) ∧
      buf1.length = buf.length ∧
      (∀ i : Nat, i < 8 → buf1[((y / 8) * 128 + x).toNat + i]? =
        some (reverse (font.getD ((8 * glyph_index ch).toNat + i) 0))) ∧
      (∀ j : Nat, j < ((y / 8) * 128 + x).toNat ∨ ((y / 8) * 128 + x).toNat + 8 ≤ j →
        buf1[j]? = buf[j]?) := by
  obtain ⟨r0, hr0, hcache⟩ := cache_after_check cfg font reversed (by omega) hreach
  obtain ⟨hg0, hg1⟩ := glyph_index_range ch
  have hd : Int.tdiv y 8 = y / 8 := Int.tdiv_eq_ediv hy0 (by norm_num)
  have hfb0 : 0 ≤ (y / 8) * 128 + x := by omega
  obtain ⟨buf1, hb1, hlen1, hget1⟩ := copy_spec (font.map reverse) (glyph_index ch) hg0 8 0 buf
    ((y / 8) * 128 + x) hfb0 (by rw [List.length_map]; omega) (by omega)
  refine ⟨buf1, ?_, hlen1, ?_, ?_⟩
  · unfold WriteChar
    rw [hr0]
    simp only []
    rw [hcache, if_neg (by omega), hd]
    have : GetFontIndex (toupper ch % 256) = glyph_index ch := rfl
    rw [this, hb1]
    rfl
  · intro i hi
    rw [hget1, if_pos (by omega), List.getElem?_map]
    have hlt : (glyph_index ch * 8).toNat + 0 + (((y / 8) * 128 + x).toNat + i -
        ((y / 8) * 128 + x).toNat) < font.length := by omega
    rw [List.getElem?_eq_getElem hlt]
    have e : (glyph_index ch * 8).toNat + 0 + (((y / 8) * 128 + x).toNat + i -
        ((y / 8) * 128 + x).toNat) = (8 * glyph_index ch).toNat + i := by omega
    simp only [Option.map_some', Option.some.injEq]
    congr 1
    rw [List.getD_eq_getElem?_getD, ← e, List.getElem?_eq_getElem hlt]
    rfl
  · intro j hj
    rw [hget1, if_neg (by omega)]

/-- What `WriteChar` does when the position fails its check: the buffer is returned as it
is. -/
theorem WriteChar_culled (cfg : Config) (font reversed buf : List Nat) (x y : Int) (ch : Nat)
    (hfont : 0 < font.length) (hreach : CacheReachable cfg font reversed)
    (h : x > cfg.WIDTH - 8 ∨ y > cfg.HEIGHT - 8) :
    WriteChar cfg font reversed buf x y ch = some (font.map reverse, buf) := by
  obtain ⟨r0, hr0, hcache⟩ := cache_after_check cfg font reversed hfont hreach
  unfold WriteChar
  rw [hr0]
  simp only []
  rw [hcache, if_pos h]

/-- On a panel 128 pixels wide `WriteChar` at a position that passes its check stores the
eight bit-reversed bytes of the glyph into the slots from `(y / 8) * width + x` on, inside
the buffer, and leaves the other slots alone. -/
theorem WriteChar_width128 (cfg : Config) (font reversed buf : List Nat) (x y : Int) (ch : Nat)
    (hW : cfg.WIDTH = 128) (hfont : 296 ≤ font.length)
    (hreach : CacheReachable cfg font reversed)
    (hlen : (buf.length : Int) = SSD1306_BUF_LEN cfg)
    (hx0 : 0 ≤ x) (hx : x ≤ cfg.WIDTH - 8) (hy0 : 0 ≤ y) (hy : y ≤ cfg.HEIGHT - 8) :
    ∃ buf1, WriteChar cfg font reversed buf x y ch = some (font.map reverse, buf1) ∧
      buf1.length = buf.length ∧
      ((y / 8) * cfg.WIDTH + x).toNat + 8 ≤ buf.length ∧
      (∀ i : Nat, i < 8 → buf1[((y / 8) * cfg.WIDTH + x).toNat + i]? =
        some (reverse (font.getD ((8 * glyph_index ch).toNat + i) 0))) ∧
      (∀ j : Nat, j < ((y / 8) * cfg.WIDTH + x).toNat ∨ ((y / 8) * cfg.WIDTH + x).toNat + 8 ≤ j →
        buf1[j]? = buf[j]?) := by
  have hP : SSD1306_NUM_PAGES cfg = cfg.HEIGHT / 8 := by
    unfold SSD1306_NUM_PAGES SSD1306_PAGE_HEIGHT
    exact Int.tdiv_eq_ediv (by omega) (by norm_num)
  unfold SSD1306_BUF_LEN at hlen
  rw [hP, hW] at hlen
  have hfit : (y / 8) * 128 + x + 8 ≤ buf.length := by omega
  obtain ⟨buf1, h1, h2, h3, h4⟩ := WriteChar_writes cfg font reversed buf x y ch hfont hreach
    hx0 hx hy0 hy hfit
  rw [hW]
  exact ⟨buf1, h1, h2, by omega, h3, h4⟩

/-! ## The claim on `WriteChar` -/

/-- C10: on a 64x32 panel, with a font of 37 glyphs, a reachable cache and a buffer of
`SSD1306_BUF_LEN` = 256 bytes, `WriteChar` at `x = 0`, `y = 8` (row 1) stores the eight
bit-reversed glyph bytes into the slots 128..135, that is from `row * 128 + x` on, and leaves
the slots 64..71 from `row * width + x` on, and every slot outside 128..135, as they were. -/
theorem WriteChar_stride (font reversed buf : List Nat) (ch : Nat) (hfont : 296 ≤ font.length)
    (hreach : CacheReachable panel64x32 font reversed)
    (hlen : (buf.length : Int) = SSD1306_BUF_LEN panel64x32) :
    ∃ buf1, WriteChar panel64x32 font reversed buf 0 8 ch = some (font.map reverse, buf1) ∧
      (∀ i : Nat, i < 8 →
        buf1[128 + i]? = some (reverse (font.getD ((8 * glyph_index ch).toNat + i) 0))) ∧
      (∀ i : Nat, i < 8 → buf1[(((8 : Int) / 8) * panel64x32.WIDTH + 0).toNat + i]? =
        buf[(((8 : Int) / 8) * panel64x32.WIDTH + 0).toNat + i]?) ∧
      (∀ j : Nat, j < 128 ∨ 136 ≤ j → buf1[j]? = buf[j]?) := by
  have hl : (buf.length : Int) = 256 := by rw [hlen]; decide
  obtain ⟨buf1, h1, _, h3, h4⟩ := WriteChar_writes panel64x32 font reversed buf 0 8 ch hfont
    hreach (by decide) (by decide) (by decide) (by decide) (by omega)
  have e : (((8 : Int) / 8) * 128 + 0).toNat = 128 := by decide
  have e2 : (((8 : Int) / 8) * panel64x32.WIDTH + 0).toNat = 64 := by decide
  rw [e] at h3 h4
  refine ⟨buf1, h1, h3, ?_, h4⟩
  intro i hi
  rw [e2]
  exact h4 (64 + i) (Or.inl (by omega))

set_option maxRecDepth 100000 in
/-- Witness of C10: the letter `'A'`, a font of all-ones bytes, the cache in its initial
state and an empty frame: slot 128 gets the glyph byte, slot 64 stays zero. -/
theorem WriteChar_stride_witness :
    (296 ≤ (List.replicate 296 255).length ∧
      ((List.replicate 256 0).length : Int) = SSD1306_BUF_LEN panel64x32) ∧
    ∃ buf1, WriteChar panel64x32 (List.replicate 296 255) (List.replicate 296 0)
        (List.replicate 256 0) 0 8 65 = some ((List.replicate 296 255).map reverse, buf1) ∧
      buf1[128]? = some 255 ∧ buf1[64]? = some 0 := by
  refine ⟨⟨by decide, by decide⟩, ?_⟩
  obtain ⟨buf1, h1, h2, h3, _⟩ := WriteChar_stride (List.replicate 296 255)
    (List.replicate 296 0) (List.replicate 256 0) 65 (by decide) CacheReachable.init (by decide)
  refine ⟨buf1, h1, ?_, ?_⟩
  · have := h2 0 (by decide)
    rw [this]
    decide
  · have := h3 0 (by decide)
    have e2 : (((8 : Int) / 8) * panel64x32.WIDTH + 0).toNat + 0 = 64 := by decide
    rw [e2] at this
    rw [this]
    decide

/-! ## The mode commands of the driver -/

/-- The frames of a list of command bytes that are all bytes. -/
theorem map_cmdFrame_mod (cfg : Config) (l : List Nat) (h : ∀ c ∈ l, c < 256) :
    l.map (fun c => cmdFrame cfg (c % 256)) = l.map (cmdFrame cfg) := by
  apply List.map_congr_left
  intro c hc
  rw [Nat.mod_eq_of_lt (h c hc)]

/-- The number of commands of `SSD1306_init`. -/
theorem init_cmds_length (cfg : Config) : (SSD1306_init.cmds cfg).length = 26 := by
  unfold SSD1306_init.cmds
  split_ifs <;> rfl

/-- The bus after `SSD1306_init`: one frame for each element of its array `cmds`. -/
theorem init_log (cfg : Config) (bus : Bus) :
    SSD1306_init cfg bus =
      some (bus ++ (SSD1306_init.cmds cfg).map (fun c => cmdFrame cfg (c % 256))) := by
  unfold SSD1306_init
  simp only []
  rw [send_cmd_list_eq cfg bus _ _ (by omega) (le_refl _)]
  simp only [Int.toNat_ofNat, List.take_length]

/-- The function `SSD1306_send_cmd` appends one frame. -/
theorem send_cmd_eq (cfg : Config) (bus : Bus) (c : Nat) :
    SSD1306_send_cmd cfg bus c = bus ++ [cmdFrame cfg (c % 256)] := by
  simp [SSD1306_send_cmd, i2c_write_blocking, cmdFrame]

/-- C12: for every panel whose last page index is a byte (`8 ≤ HEIGHT`, at most 256 pages),
every `enabled` and every member of the scroll-interval enumeration, whose eight members
have the codes 0..7 in the order of their declaration, `SSD1306_scroll` adds exactly eight
commands to the bus, one `[0x80, c]` transmission each, in this order: `0x26`, `0x00`,
`0x00`, the interval code, `pages - 1`, `0x00`, `0xFF`, and `0x2F` when enabled, `0x2E` when
not. -/
theorem scroll_commands (cfg : Config) (bus : Bus) (enabled : Bool)
    (interval : SSD1306_scroll_interval) (hH0 : 8 ≤ cfg.HEIGHT) (hH1 : cfg.HEIGHT ≤ 2055) :
    SSD1306_scroll cfg bus enabled interval =
      some (bus ++
        ([0x26, 0x00, 0x00, interval.code, (SSD1306_NUM_PAGES cfg - 1).toNat, 0x00, 0xFF,
          if enabled then 0x2F else 0x2E] : List Nat).map
          (fun c => ({ addr := cfg.I2C_ADDR, bytes := [0x80, c] } : Transmission))) ∧
      interval.code ≤ 7 ∧
      ([SSD1306_scroll_interval.SSD1306_SCROLL_INTERVAL_5,
        SSD1306_scroll_interval.SSD1306_SCROLL_INTERVAL_64,
        SSD1306_scroll_interval.SSD1306_SCROLL_INTERVAL_128,
        SSD1306_scroll_interval.SSD1306_SCROLL_INTERVAL_256,
        SSD1306_scroll_interval.SSD1306_SCROLL_INTERVAL_3,
        SSD1306_scroll_interval.SSD1306_SCROLL_INTERVAL_4,
        SSD1306_scroll_interval.SSD1306_SCROLL_INTERVAL_25,
        SSD1306_scroll_interval.SSD1306_SCROLL_INTERVAL_2].map
          SSD1306_scroll_interval.code = [0, 1, 2, 3, 4, 5, 6, 7]) := by
  have hP : SSD1306_NUM_PAGES cfg = cfg.HEIGHT / 8 := by
    unfold SSD1306_NUM_PAGES SSD1306_PAGE_HEIGHT
    exact Int.tdiv_eq_ediv (by omega) (by norm_num)
  have hcode : interval.code ≤ 7 := by cases interval <;> decide
  have hm : ((SSD1306_NUM_PAGES cfg - 1) % 256).toNat = (SSD1306_NUM_PAGES cfg - 1).toNat := by
    rw [hP, Int.emod_eq_of_lt (by omega) (by omega)]
  have hlt : (SSD1306_NUM_PAGES cfg - 1).toNat < 256 := by rw [hP]; omega
  refine ⟨?_, hcode, by decide⟩
  unfold SSD1306_scroll
  simp only []
  rw [send_cmd_list_eq cfg bus _ _ (by omega) (le_refl _)]
  simp only [Int.toNat_ofNat, List.take_length]
  unfold SSD1306_scroll.cmds
  rw [hm, Nat.mod_eq_of_lt (show interval.code < 256 by omega)]
  cases enabled <;>
    simp [cmdFrame, SSD1306_SET_HORIZ_SCROLL, SSD1306_SET_SCROLL, Nat.mod_eq_of_lt hlt,
      Nat.mod_eq_of_lt (show interval.code < 256 by omega)] <;>
    omega

/-- Witness of C12: scrolling switched on at the interval of 2 frames on the 128x32 panel. -/
theorem scroll_commands_witness :
    ((8 : Int) ≤ panel128x32.HEIGHT ∧ panel128x32.HEIGHT ≤ 2055) ∧
    SSD1306_scroll panel128x32 [] true SSD1306_scroll_interval.SSD1306_SCROLL_INTERVAL_2 =
      some (([0x26, 0x00, 0x00, 7, 3, 0x00, 0xFF, 0x2F] : List Nat).map
        (fun c => ({ addr := 0x3C, bytes := [0x80, c] } : Transmission))) :=
  ⟨⟨by decide, by decide⟩,
    (scroll_commands panel128x32 [] true SSD1306_scroll_interval.SSD1306_SCROLL_INTERVAL_2
      (by decide) (by decide)).1⟩

/-- C13: on every bus, whatever has been transmitted before, `SSD1306_invert` adds exactly one
transmission, `[0x80, 0xA7]` for `true` and `[0x80, 0xA6]` for `false`; so it does after every
sequence of driver calls, and two calls of `invert(true)` add the same transmission
`[0x80, 0xA7]` twice. -/
theorem invert_command (cfg : Config) (bus bus0 : Bus) (calls : List DriverCall) (b : Bool) :
    SSD1306_invert cfg bus b =
        bus ++ [{ addr := cfg.I2C_ADDR, bytes := [0x80, if b then 0xA7 else 0xA6] }] ∧
      (runCalls cfg calls bus0).map (fun log => SSD1306_invert cfg log b) =
        (runCalls cfg calls bus0).map
          (fun log => log ++ [{ addr := cfg.I2C_ADDR, bytes := [0x80, if b then 0xA7 else 0xA6] }]) ∧
      SSD1306_invert cfg (SSD1306_invert cfg bus true) true =
        bus ++ [{ addr := cfg.I2C_ADDR, bytes := [0x80, 0xA7] },
          { addr := cfg.I2C_ADDR, bytes := [0x80, 0xA7] }] := by
  have h : ∀ (log : Bus) (e : Bool), SSD1306_invert cfg log e =
      log ++ [{ addr := cfg.I2C_ADDR, bytes := [0x80, if e then 0xA7 else 0xA6] }] := by
    intro log e
    unfold SSD1306_invert
    rw [send_cmd_eq]
    cases e <;> simp [cmdFrame, SSD1306_SET_INV_DISP, SSD1306_SET_NORM_DISP]
  refine ⟨h bus b, ?_, ?_⟩
  · cases runCalls cfg calls bus0 with
    | none => rfl
    | some log => simp only [Option.map_some', h log b]
  · rw [h, h]
    simp

/-- C14: for every level in 0..255, `SSD1306_set_contrast` adds exactly two transmissions to
the bus, `[0x80, 0x81]` and then `[0x80, level]`; the 19th and 20th transmission of
`SSD1306_init` are the two that `set_contrast(0xFF)` makes. -/
theorem set_contrast_commands (cfg : Config) (bus : Bus) (level : Nat) (hl : level < 256) :
    SSD1306_set_contrast cfg bus level =
        bus ++ [{ addr := cfg.I2C_ADDR, bytes := [0x80, 0x81] },
          { addr := cfg.I2C_ADDR, bytes := [0x80, level] }] ∧
      (SSD1306_init cfg bus).map (fun log => (log.drop (bus.length + 18)).take 2) =
        some (SSD1306_set_contrast cfg [] 0xFF) := by
  constructor
  · unfold SSD1306_set_contrast
    simp only []
    rw [send_cmd_eq, send_cmd_eq, Nat.mod_eq_of_lt hl]
    simp [cmdFrame, SSD1306_SET_CONTRAST]
  · rw [init_log]
    simp only [Option.map_some', List.drop_append]
    unfold SSD1306_set_contrast SSD1306_init.cmds
    simp only [send_cmd_eq]
    split_ifs <;> simp [cmdFrame, SSD1306_SET_CONTRAST]

/-- Witness of C14: the level `0x7F`. -/
theorem set_contrast_commands_witness :
    (0x7F : Nat) < 256 ∧
      SSD1306_set_contrast panel128x32 [] 0x7F =
        [{ addr := 0x3C, bytes := [0x80, 0x81] }, { addr := 0x3C, bytes := [0x80, 0x7F] }] :=
  ⟨by decide, (set_contrast_commands panel128x32 [] 0x7F (by decide)).1⟩

/-- C15: on every bus `SSD1306_all_pixels_on` adds exactly one transmission, `[0x80, 0xA5]` for
`true` and `[0x80, 0xA4]` for `false`; the 21st transmission of `SSD1306_init`, the command
that makes the display follow the RAM, is the one `all_pixels_on(false)` makes. -/
theorem all_pixels_on_command (cfg : Config) (bus : Bus) (b : Bool) :
    SSD1306_all_pixels_on cfg bus b =
        bus ++ [{ addr := cfg.I2C_ADDR, bytes := [0x80, if b then 0xA5 else 0xA4] }] ∧
      (SSD1306_all_pixels_on cfg bus b).length = bus.length + 1 ∧
      (SSD1306_init cfg bus).map (fun log => (log.drop (bus.length + 20)).take 1) =
        some (SSD1306_all_pixels_on cfg [] false) ∧
      (SSD1306_init.cmds cfg)[20]? = some SSD1306_SET_ENTIRE_ON := by
  have h : ∀ (log : Bus) (e : Bool), SSD1306_all_pixels_on cfg log e =
      log ++ [{ addr := cfg.I2C_ADDR, bytes := [0x80, if e then 0xA5 else 0xA4] }] := by
    intro log e
    unfold SSD1306_all_pixels_on
    rw [send_cmd_eq]
    cases e <;> simp [cmdFrame, SSD1306_SET_ALL_ON, SSD1306_SET_ENTIRE_ON]
  refine ⟨h bus b, by rw [h]; simp, ?_, ?_⟩
  · rw [init_log, h [] false]
    simp only [Option.map_some', List.drop_append, Bool.false_eq_true, if_false]
    unfold SSD1306_init.cmds
    split_ifs <;> simp [cmdFrame, SSD1306_SET_ENTIRE_ON]
  · unfold SSD1306_init.cmds
    split_ifs <;> rfl

/-- C16: for lists of bytes and `0 ≤ len ≤ length list`, `SSD1306_send_cmd_list` adds exactly
`len` transmissions to the bus, the `i`-th being `[0x80, list[i]]`, in the order of the list
and one byte each; sending the concatenation of two lists is sending the first and then the
second; and `len ≤ 0` transmits nothing. -/
theorem send_cmd_list_frames (cfg : Config) (bus : Bus) (list list2 : List Nat) (len : Int)
    (hb : ∀ c ∈ list, c < 256) (hb2 : ∀ c ∈ list2, c < 256)
    (h0 : 0 ≤ len) (h1 : len ≤ list.length) :
    SSD1306_send_cmd_list cfg bus list len =
        some (bus ++ (list.take len.toNat).map
          (fun c => ({ addr := cfg.I2C_ADDR, bytes := [0x80, c] } : Transmission))) ∧
      (((list.take len.toNat).map
          (fun c => ({ addr := cfg.I2C_ADDR, bytes := [0x80, c] } : Transmission))).length : Int) =
        len ∧
      (∀ i : Nat, (i : Int) < len →
        (SSD1306_send_cmd_list cfg bus list len).bind (fun log => log[bus.length + i]?) =
          (list[i]?).map (fun c => { addr := cfg.I2C_ADDR, bytes := [0x80, c] })) ∧
      SSD1306_send_cmd_list cfg bus (list ++ list2) ((list ++ list2).length) =
        (SSD1306_send_cmd_list cfg bus list list.length).bind
          (fun log => SSD1306_send_cmd_list cfg log list2 list2.length) ∧
      (∀ n : Int, n ≤ 0 → SSD1306_send_cmd_list cfg bus list n = some bus) := by
  have hfr : (fun c => cmdFrame cfg c) =
      (fun c => ({ addr := cfg.I2C_ADDR, bytes := [0x80, c] } : Transmission)) := rfl
  have hmain : ∀ (log : Bus) (l : List Nat) (n : Int), (∀ c ∈ l, c < 256) → 0 ≤ n →
      n ≤ l.length → SSD1306_send_cmd_list cfg log l n =
        some (log ++ (l.take n.toNat).map
          (fun c => ({ addr := cfg.I2C_ADDR, bytes := [0x80, c] } : Transmission))) := by
    intro log l n hl hn0 hn1
    rw [send_cmd_list_eq cfg log l n hn0 hn1,
      map_cmdFrame_mod cfg _ (fun c hc => hl c (List.mem_of_mem_take hc))]
    rfl
  have hlen : (list.take len.toNat).length = len.toNat := by
    rw [List.length_take]; omega
  refine ⟨hmain bus list len hb h0 h1, ?_, ?_, ?_, ?_⟩
  · rw [List.length_map, hlen]; omega
  · intro i hi
    have hi1 : i < len.toNat := by omega
    have hi2 : i < list.length := by omega
    rw [hmain bus list len hb h0 h1, Option.some_bind,
      List.getElem?_append_right (by omega), Nat.add_sub_cancel_left, List.getElem?_map,
      List.getElem?_take_of_lt hi1]
  · have hb12 : ∀ c ∈ list ++ list2, c < 256 := by
      intro c hc
      rcases List.mem_append.mp hc with h | h
      · exact hb c h
      · exact hb2 c h
    rw [hmain bus (list ++ list2) _ hb12 (by omega) (le_refl _),
      hmain bus list _ hb (by omega) (le_refl _), Option.some_bind,
      hmain _ list2 _ hb2 (by omega) (le_refl _)]
    simp
    omega
  · intro n hn
    unfold SSD1306_send_cmd_list
    have : n.toNat = 0 := by omega
    rw [this]
    rfl

/-- Witness of C16: the first two of three commands, then a list of one. -/
theorem send_cmd_list_frames_witness :
    ((∀ c ∈ ([0xAE, 0x20, 0x00] : List Nat), c < 256) ∧ (∀ c ∈ ([0xAF] : List Nat), c < 256) ∧
      (0 : Int) ≤ 2 ∧ (2 : Int) ≤ ([0xAE, 0x20, 0x00] : List Nat).length) ∧
    SSD1306_send_cmd_list panel128x32 [] [0xAE, 0x20, 0x00] 2 =
      some [{ addr := 0x3C, bytes := [0x80, 0xAE] }, { addr := 0x3C, bytes := [0x80, 0x20] }] :=
  ⟨⟨by decide, by decide, by decide, by decide⟩,
    (send_cmd_list_frames panel128x32 [] [0xAE, 0x20, 0x00] [0xAF] 2 (by decide) (by decide)
      (by decide) (by decide)).1⟩

/-! ## The claim on the bit reversal -/

set_option maxRecDepth 100000 in
/-- The function `reverse` on the 256 bytes: bit `i` of the result is bit `7 - i` of the
argument, the result is a byte, and reversing twice gives the byte back. -/
theorem reverse_bits :
    ∀ b : Nat, b < 256 → (∀ i : Nat, i < 8 → (reverse b).testBit i = b.testBit (7 - i)) ∧
      reverse b < 256 ∧ reverse (reverse b) = b := by
  decide

/-- Running `FillReversedCache` again on a filled cache changes nothing. -/
theorem iterate_fill (font : List Nat) :
    ∀ n : Nat, Nat.iterate (FillReversedCache font) n (font.map reverse) = font.map reverse := by
  intro n
  induction n with
  | zero => rfl
  | succ n ih =>
    rw [Function.iterate_succ_apply, FillReversedCache_eq font _ (List.length_map _ _), ih]

/-- C20: for every byte `b`, bit `i` of `reverse b` is bit `7 - i` of `b` for `i` in 0..7, and
`reverse b` is a byte again; so `reverse (reverse b) = b` and `reverse 0 = 0`.  And
`FillReversedCache`, run once or more on a cache as long as the font table, leaves the
bit-reversed font in the cache, `cache[i] = reverse font[i]` at every index of the font
table: running it again changes nothing. -/
theorem reverse_spec (b : Nat) (font reversed : List Nat) (n : Nat) (hb : b < 256)
    (hlen : reversed.length = font.length) :
    (∀ i : Nat, i < 8 → (reverse b).testBit i = b.testBit (7 - i)) ∧
      reverse b < 256 ∧ reverse (reverse b) = b ∧ reverse 0 = 0 ∧
      Nat.iterate (FillReversedCache font) (n + 1) reversed = font.map reverse ∧
      (∀ i : Nat, i < font.length →
        (Nat.iterate (FillReversedCache font) (n + 1) reversed)[i]? =
          (font[i]?).map reverse) ∧
      FillReversedCache font (FillReversedCache font reversed) =
        FillReversedCache font reversed := by
  obtain ⟨h1, h2, h3⟩ := reverse_bits b hb
  have hit : Nat.iterate (FillReversedCache font) (n + 1) reversed = font.map reverse := by
    rw [Function.iterate_succ_apply, FillReversedCache_eq font reversed hlen, iterate_fill]
  refine ⟨h1, h2, h3, by decide, hit, ?_, ?_⟩
  · intro i _
    rw [hit, List.getElem?_map]
  · rw [FillReversedCache_eq font reversed hlen,
      FillReversedCache_eq font _ (List.length_map _ _)]

/-- Witness of C20: the byte `0x01` and a font table of two bytes, the cache filled three
times. -/
theorem reverse_spec_witness :
    ((0x01 : Nat) < 256 ∧ ([0, 0] : List Nat).length = ([0x01, 0xF0] : List Nat).length) ∧
      reverse (reverse 0x01) = 0x01 ∧
      Nat.iterate (FillReversedCache [0x01, 0xF0]) (2 + 1) [0, 0] =
        ([0x01, 0xF0] : List Nat).map reverse :=
  ⟨⟨by decide, by decide⟩,
    (reverse_spec 0x01 [0x01, 0xF0] [0, 0] 2 (by decide) (by decide)).2.2.1,
    (reverse_spec 0x01 [0x01, 0xF0] [0, 0] 2 (by decide) (by decide)).2.2.2.2.1⟩

/-! ## The claim on the points of `DrawLine` -/

/-- Neighbours in a staircase differ by at most one step in each count. -/
theorem Descent.chain {a b : Int} {l : List (Int × Int)} (h : Descent a b l) :
    List.Chain' (fun p q : Int × Int =>
      (q.1 = p.1 ∨ q.1 = p.1 - 1) ∧ (q.2 = p.2 ∨ q.2 = p.2 - 1)) l := by
  induction h with
  | last => exact List.chain'_singleton _
  | stepX a b l _ _ hd ih =>
    obtain ⟨t, rfl⟩ := hd.head_eq
    exact List.chain'_cons.mpr ⟨⟨Or.inr rfl, Or.inl rfl⟩, ih⟩
  | stepY a b l _ _ hd ih =>
    obtain ⟨t, rfl⟩ := hd.head_eq
    exact List.chain'_cons.mpr ⟨⟨Or.inl rfl, Or.inr rfl⟩, ih⟩
  | stepXY a b l _ _ hd ih =>
    obtain ⟨t, rfl⟩ := hd.head_eq
    exact List.chain'_cons.mpr ⟨⟨Or.inr rfl, Or.inr rfl⟩, ih⟩

/-- Neighbours among the points of a line differ by at most one in each coordinate. -/
theorem fromCounts_chain (x1 y1 sx sy : Int) (hsx : sx = 1 ∨ sx = -1) (hsy : sy = 1 ∨ sy = -1)
    {a b : Int} {l : List (Int × Int)} (h : Descent a b l) :
    List.Chain' (fun p q : Int × Int => |q.1 - p.1| ≤ 1 ∧ |q.2 - p.2| ≤ 1)
      (l.map (fromCounts x1 y1 sx sy)) := by
  rw [List.chain'_map]
  refine List.Chain'.imp ?_ h.chain
  intro p q hpq
  obtain ⟨h1, h2⟩ := hpq
  simp only [fromCounts]
  constructor
  · rw [abs_le]
    rcases hsx with hs | hs <;> rcases h1 with h | h <;> rw [hs, h] <;> constructor <;> omega
  · rw [abs_le]
    rcases hsy with hs | hs <;> rcases h2 with h | h <;> rw [hs, h] <;> constructor <;> omega

/-- C18: on a panel whose height is a multiple of the page height and a buffer of
`SSD1306_BUF_LEN` bytes, for in-bounds end points (and fuel for the
`max |x1 - x0| |y1 - y0| + 1` iterations) `DrawLine` is `SetPixel` over the points of its
trace; every such point lies in the bounding box of the end points, neighbours in the trace
differ by at most 1 in each coordinate, every point passes the assertion of `SetPixel`, the
byte of every point lies inside the buffer, and `DrawLine` returns a buffer of the same
length. -/
theorem DrawLine_in_box (cfg : Config) (fuel : Nat) (buf : List Nat) (x0 y0 x1 y1 : Int)
    (on_ : Bool) (hH : cfg.HEIGHT % 8 = 0) (hlen : (buf.length : Int) = SSD1306_BUF_LEN cfg)
    (hx0 : 0 ≤ x0 ∧ x0 < cfg.WIDTH) (hy0 : 0 ≤ y0 ∧ y0 < cfg.HEIGHT)
    (hx1 : 0 ≤ x1 ∧ x1 < cfg.WIDTH) (hy1 : 0 ≤ y1 ∧ y1 < cfg.HEIGHT)
    (hfuel : max |x1 - x0| |y1 - y0| + 1 ≤ (fuel : Int)) :
    ∃ ps buf1, DrawLine.trace fuel x0 y0 x1 y1 = some ps ∧
      DrawLine cfg fuel buf x0 y0 x1 y1 on_ = SetPixels cfg on_ ps buf ∧
      (∀ p ∈ ps, min x0 x1 ≤ p.1 ∧ p.1 ≤ max x0 x1 ∧ min y0 y1 ≤ p.2 ∧ p.2 ≤ max y0 y1) ∧
      List.Chain' (fun p q : Int × Int => |q.1 - p.1| ≤ 1 ∧ |q.2 - p.2| ≤ 1) ps ∧
      (∀ p ∈ ps, p.1 ≥ 0 ∧ p.1 < cfg.WIDTH ∧ p.2 ≥ 0 ∧ p.2 < cfg.HEIGHT) ∧
      (∀ p ∈ ps, 0 ≤ (p.2 / 8) * cfg.WIDTH + p.1 ∧
        (p.2 / 8) * cfg.WIDTH + p.1 < (buf.length : Int)) ∧
      DrawLine cfg fuel buf x0 y0 x1 y1 on_ = some buf1 ∧ buf1.length = buf.length := by
  obtain ⟨l, ps, buf1, hd, hps, htr, hin, hD, hblen, _, _⟩ :=
    DrawLine_plots cfg fuel buf x0 y0 x1 y1 on_ hH hlen hx0 hy0 hx1 hy1 hfuel
  refine ⟨ps, buf1, htr, ?_, ?_, ?_, ?_, ?_, hD, hblen⟩
  · rw [DrawLine_eq_SetPixels, htr, Option.some_bind]
  · intro p hp
    rw [hps] at hp
    obtain ⟨c, hc, rfl⟩ := List.mem_map.mp hp
    obtain ⟨ha0, ha1, hb0, hb1⟩ := hd.mem_bounds c hc
    obtain ⟨hxlo, hxhi⟩ := sign_dist_between x0 x1 c.1 ha0 ha1
    obtain ⟨hylo, hyhi⟩ := sign_dist_between y0 y1 c.2 hb0 hb1
    exact ⟨hxlo, hxhi, hylo, hyhi⟩
  · rw [hps]
    exact fromCounts_chain x1 y1 _ _ (sign_dist x0 x1).1 (sign_dist y0 y1).1 hd
  · intro p hp
    obtain ⟨h1, h2, h3, h4⟩ := hin p hp
    exact ⟨h1, h2, h3, h4⟩
  · intro p hp
    obtain ⟨h1, h2, h3, h4⟩ := hin p hp
    rw [hlen]
    exact byte_idx_bounds cfg p.1 p.2 hH h1 h2 h3 h4

set_option maxRecDepth 100000 in
/-- Witness of C18: the line from `(5, 5)` to `(1, 3)` on an empty 128x32 frame. -/
theorem DrawLine_in_box_witness :
    (panel128x32.HEIGHT % 8 = 0 ∧
      ((List.replicate 512 0).length : Int) = SSD1306_BUF_LEN panel128x32 ∧
      ((0 : Int) ≤ 5 ∧ (5 : Int) < panel128x32.WIDTH) ∧
      ((0 : Int) ≤ 5 ∧ (5 : Int) < panel128x32.HEIGHT) ∧
      ((0 : Int) ≤ 1 ∧ (1 : Int) < panel128x32.WIDTH) ∧
      ((0 : Int) ≤ 3 ∧ (3 : Int) < panel128x32.HEIGHT) ∧
      max |(1 : Int) - 5| |(3 : Int) - 5| + 1 ≤ ((5 : Nat) : Int)) ∧
    ∃ ps buf1, DrawLine.trace 5 5 5 1 3 = some ps ∧
      DrawLine panel128x32 5 (List.replicate 512 0) 5 5 1 3 true =
        SetPixels panel128x32 true ps (List.replicate 512 0) ∧
      (∀ p ∈ ps, min (5 : Int) 1 ≤ p.1 ∧ p.1 ≤ max (5 : Int) 1 ∧
        min (5 : Int) 3 ≤ p.2 ∧ p.2 ≤ max (5 : Int) 3) ∧
      List.Chain' (fun p q : Int × Int => |q.1 - p.1| ≤ 1 ∧ |q.2 - p.2| ≤ 1) ps ∧
      (∀ p ∈ ps, p.1 ≥ 0 ∧ p.1 < panel128x32.WIDTH ∧ p.2 ≥ 0 ∧ p.2 < panel128x32.HEIGHT) ∧
      (∀ p ∈ ps, 0 ≤ (p.2 / 8) * panel128x32.WIDTH + p.1 ∧
        (p.2 / 8) * panel128x32.WIDTH + p.1 < ((List.replicate 512 0).length : Int)) ∧
      DrawLine panel128x32 5 (List.replicate 512 0) 5 5 1 3 true = some buf1 ∧
      buf1.length = (List.replicate 512 0).length :=
  ⟨⟨by decide, by decide, ⟨by decide, by decide⟩, ⟨by decide, by decide⟩,
      ⟨by decide, by decide⟩, ⟨by decide, by decide⟩, by decide⟩,
    DrawLine_in_box panel128x32 5 (List.replicate 512 0) 5 5 1 3 true (by decide) (by decide)
      ⟨by decide, by decide⟩ ⟨by decide, by decide⟩ ⟨by decide, by decide⟩
      ⟨by decide, by decide⟩ (by decide)⟩

/-! ## The claim on the number of iterations of `DrawLine` -/

/-- Every point of the loop costs one iteration. -/
theorem points_length_le (x1 y1 dx sx dy sy : Int) :
    ∀ (fuel : Nat) (x0 y0 err : Int) (l : List (Int × Int)),
      DrawLine.points x1 y1 dx sx dy sy fuel x0 y0 err = some l → l.length ≤ fuel := by
  intro fuel
  induction fuel with
  | zero => intro x0 y0 err l h; simp [DrawLine.points] at h
  | succ f ih =>
    intro x0 y0 err l h
    by_cases ht : x0 = x1 ∧ y0 = y1
    · rw [DrawLine.points, if_pos ht] at h
      cases h
      simp
    · rw [points_step _ _ _ _ _ _ _ _ _ _ ht] at h
      obtain ⟨l1, hl1, rfl⟩ := Option.map_eq_some'.mp h
      have := ih _ _ _ l1 hl1
      simp only [List.length_cons]
      omega

/-- More fuel does not change the points of a loop that reaches its `break`. -/
theorem points_mono (x1 y1 dx sx dy sy : Int) (k : Nat) :
    ∀ (fuel : Nat) (x0 y0 err : Int) (l : List (Int × Int)),
      DrawLine.points x1 y1 dx sx dy sy fuel x0 y0 err = some l →
      DrawLine.points x1 y1 dx sx dy sy (fuel + k) x0 y0 err = some l := by
  intro fuel
  induction fuel with
  | zero => intro x0 y0 err l h; simp [DrawLine.points] at h
  | succ f ih =>
    intro x0 y0 err l h
    have e : f + 1 + k = (f + k) + 1 := by omega
    rw [e]
    by_cases ht : x0 = x1 ∧ y0 = y1
    · rw [DrawLine.points, if_pos ht] at h ⊢
      exact h
    · rw [points_step _ _ _ _ _ _ _ _ _ _ ht] at h ⊢
      obtain ⟨l1, hl1, rfl⟩ := Option.map_eq_some'.mp h
      rw [ih _ _ _ l1 hl1]
      rfl

/-- The number of iterations of the loop of `DrawLine`, for all integer end points: with
fuel for `max |x1 - x0| |y1 - y0| + 1` iterations the trace is one list of that many points,
and with less fuel the `break` is not reached. -/
theorem trace_length (x0 y0 x1 y1 : Int) :
    ∃ ps : List (Int × Int), (ps.length : Int) = max |x1 - x0| |y1 - y0| + 1 ∧
      (∀ fuel : Nat, max |x1 - x0| |y1 - y0| + 1 ≤ (fuel : Int) →
        DrawLine.trace fuel x0 y0 x1 y1 = some ps) ∧
      (∀ fuel : Nat, (fuel : Int) ≤ max |x1 - x0| |y1 - y0| →
        DrawLine.trace fuel x0 y0 x1 y1 = none) := by
  have hm0 : 0 ≤ max |x1 - x0| |y1 - y0| := le_max_of_le_left (abs_nonneg _)
  obtain ⟨l, hl, hlen, _, _⟩ := trace_eq (max |x1 - x0| |y1 - y0| + 1).toNat x0 y0 x1 y1
    (by omega)
  have hlen2 : ((l.map (fromCounts x1 y1 (if x0 < x1 then 1 else -1)
      (if y0 < y1 then 1 else -1))).length : Int) = max |x1 - x0| |y1 - y0| + 1 := by
    rw [List.length_map]; exact hlen
  refine ⟨_, hlen2, ?_, ?_⟩
  · intro fuel hf
    have e : fuel = (max |x1 - x0| |y1 - y0| + 1).toNat +
        (fuel - (max |x1 - x0| |y1 - y0| + 1).toNat) := by omega
    rw [e]
    exact points_mono _ _ _ _ _ _ _ _ _ _ _ _ hl
  · intro fuel hf
    cases ht : DrawLine.trace fuel x0 y0 x1 y1 with
    | none => rfl
    | some ps =>
      exfalso
      have h1 : ps.length ≤ fuel := points_length_le _ _ _ _ _ _ _ _ _ _ _ ht
      have e : (max |x1 - x0| |y1 - y0| + 1).toNat =
          fuel + ((max |x1 - x0| |y1 - y0| + 1).toNat - fuel) := by omega
      have h2 := points_mono _ _ _ _ _ _ ((max |x1 - x0| |y1 - y0| + 1).toNat - fuel)
        _ _ _ _ _ ht
      rw [← e] at h2
      have h3 : DrawLine.trace (max |x1 - x0| |y1 - y0| + 1).toNat x0 y0 x1 y1 = some ps := h2
      rw [hl] at h3
      have h4 := Option.some.inj h3
      rw [← h4, List.length_map] at h1
      omega

/-- The function `SetPixel` over a list with a point outside the panel fails. -/
theorem SetPixels_none (cfg : Config) (on_ : Bool) (q : Int × Int)
    (hq : ¬ (q.1 ≥ 0 ∧ q.1 < cfg.WIDTH ∧ q.2 ≥ 0 ∧ q.2 < cfg.HEIGHT)) :
    ∀ (ps : List (Int × Int)) (buf : List Nat), q ∈ ps → SetPixels cfg on_ ps buf = none := by
  intro ps
  induction ps with
  | nil => intro buf h; simp at h
  | cons p ps ih =>
    intro buf h
    rw [SetPixels_cons]
    rcases List.mem_cons.mp h with rfl | h
    · have : SetPixel cfg buf q.1 q.2 on_ = none := by
        unfold SetPixel
        rw [if_neg hq]
      rw [this]
      rfl
    · cases SetPixel cfg buf p.1 p.2 on_ with
      | none => rfl
      | some b => exact ih b h

set_option maxRecDepth 100000 in
/-- C19, as stated, fails: on the 128x32 panel the loop for the end points `(120, 0)` and
`(130, 0)` would take 11 calls of `SetPixel`, the call for `(128, 0)` fails the assertion, and
so with no amount of fuel `DrawLine` reaches its `break` and returns. -/
theorem DrawLine_steps_counterexample :
    (DrawLine.trace 11 120 0 130 0).map List.length = some 11 ∧
      (DrawLine.trace 11 120 0 130 0).map (fun ps => decide (((128 : Int), (0 : Int)) ∈ ps)) =
        some true ∧
      SetPixel panel128x32 (List.replicate 512 0) 128 0 true = none ∧
      DrawLine panel128x32 11 (List.replicate 512 0) 120 0 130 0 true = none ∧
      ¬ ∃ (fuel : Nat) (buf1 : List Nat),
        DrawLine panel128x32 fuel (List.replicate 512 0) 120 0 130 0 true = some buf1 := by
  have h11 : DrawLine.trace 11 120 0 130 0 =
      some [(120, 0), (121, 0), (122, 0), (123, 0), (124, 0), (125, 0), (126, 0), (127, 0),
        (128, 0), (129, 0), (130, 0)] := by decide
  refine ⟨by decide, by decide, by decide, by decide, ?_⟩
  rintro ⟨fuel, buf1, h⟩
  rw [DrawLine_eq_SetPixels] at h
  have hm : max |(130 : Int) - 120| |(0 : Int) - 0| = 10 := by decide
  obtain ⟨ps, _, hbig, hsmall⟩ := trace_length 120 0 130 0
  rw [hm] at hbig hsmall
  have hps := hbig 11 (by decide)
  rw [h11] at hps
  have hps2 := Option.some.inj hps
  by_cases hf : (fuel : Int) ≤ 10
  · rw [hsmall fuel hf] at h
    simp at h
  · rw [hbig fuel (by omega), Option.some_bind,
      SetPixels_none panel128x32 true (128, 0) (by decide) ps _ (by rw [← hps2]; decide)] at h
    simp at h

/-- C19 (amended): for in-bounds end points, on a panel whose height is a multiple of the
page height and a buffer of `SSD1306_BUF_LEN` bytes, the loop of `DrawLine` reaches its `break`
after exactly `max |x1 - x0| |y1 - y0| + 1` iterations: with that much fuel or more it returns
and has called `SetPixel` on the `max |x1 - x0| |y1 - y0| + 1` points of its trace, and with
less fuel it has not returned.  The loop's own arithmetic, with the calls of `SetPixel` left
out, visits that many points for all integer end points. -/
theorem DrawLine_steps (cfg : Config) (buf : List Nat) (x0 y0 x1 y1 : Int)
    (on_ : Bool) (hH : cfg.HEIGHT % 8 = 0) (hlen : (buf.length : Int) = SSD1306_BUF_LEN cfg)
    (hx0 : 0 ≤ x0 ∧ x0 < cfg.WIDTH) (hy0 : 0 ≤ y0 ∧ y0 < cfg.HEIGHT)
    (hx1 : 0 ≤ x1 ∧ x1 < cfg.WIDTH) (hy1 : 0 ≤ y1 ∧ y1 < cfg.HEIGHT) :
    (∃ ps : List (Int × Int), (ps.length : Int) = max |x1 - x0| |y1 - y0| + 1 ∧
      (∀ fuel : Nat, max |x1 - x0| |y1 - y0| + 1 ≤ (fuel : Int) →
        DrawLine.trace fuel x0 y0 x1 y1 = some ps ∧
        ∃ buf1, DrawLine cfg fuel buf x0 y0 x1 y1 on_ = some buf1 ∧
          SetPixels cfg on_ ps buf = some buf1) ∧
      (∀ fuel : Nat, (fuel : Int) ≤ max |x1 - x0| |y1 - y0| →
        DrawLine.trace fuel x0 y0 x1 y1 = none ∧
        DrawLine cfg fuel buf x0 y0 x1 y1 on_ = none)) ∧
    (∀ a0 b0 a1 b1 : Int,
      ∃ qs : List (Int × Int), (qs.length : Int) = max |a1 - a0| |b1 - b0| + 1 ∧
        (∀ fuel : Nat, max |a1 - a0| |b1 - b0| + 1 ≤ (fuel : Int) →
          DrawLine.trace fuel a0 b0 a1 b1 = some qs) ∧
        (∀ fuel : Nat, (fuel : Int) ≤ max |a1 - a0| |b1 - b0| →
          DrawLine.trace fuel a0 b0 a1 b1 = none)) := by
  refine ⟨?_, fun a0 b0 a1 b1 => trace_length a0 b0 a1 b1⟩
  obtain ⟨ps, hplen, hbig, hsmall⟩ := trace_length x0 y0 x1 y1
  refine ⟨ps, hplen, ?_, ?_⟩
  · intro fuel hf
    obtain ⟨_, _, buf1, _, _, _, _, hD, _⟩ :=
      DrawLine_plots cfg fuel buf x0 y0 x1 y1 on_ hH hlen hx0 hy0 hx1 hy1 hf
    refine ⟨hbig fuel hf, buf1, hD, ?_⟩
    rw [← hD, DrawLine_eq_SetPixels, hbig fuel hf, Option.some_bind]
  · intro fuel hf
    refine ⟨hsmall fuel hf, ?_⟩
    rw [DrawLine_eq_SetPixels, hsmall fuel hf]
    rfl

set_option maxRecDepth 100000 in
/-- Witness of C19 (amended): the line from `(0, 0)` to `(2, 1)` on an empty 128x32 frame
takes `max 2 1 + 1 = 3` iterations. -/
theorem DrawLine_steps_witness :
    (panel128x32.HEIGHT % 8 = 0 ∧
      ((List.replicate 512 0).length : Int) = SSD1306_BUF_LEN panel128x32 ∧
      ((0 : Int) ≤ 0 ∧ (0 : Int) < panel128x32.WIDTH) ∧
      ((0 : Int) ≤ 0 ∧ (0 : Int) < panel128x32.HEIGHT) ∧
      ((0 : Int) ≤ 2 ∧ (2 : Int) < panel128x32.WIDTH) ∧
      ((0 : Int) ≤ 1 ∧ (1 : Int) < panel128x32.HEIGHT)) ∧
    ∃ ps : List (Int × Int), (ps.length : Int) = max |(2 : Int) - 0| |(1 : Int) - 0| + 1 ∧
      (∀ fuel : Nat, max |(2 : Int) - 0| |(1 : Int) - 0| + 1 ≤ (fuel : Int) →
        DrawLine.trace fuel 0 0 2 1 = some ps ∧
        ∃ buf1, DrawLine panel128x32 fuel (List.replicate 512 0) 0 0 2 1 true = some buf1 ∧
          SetPixels panel128x32 true ps (List.replicate 512 0) = some buf1) ∧
      (∀ fuel : Nat, (fuel : Int) ≤ max |(2 : Int) - 0| |(1 : Int) - 0| →
        DrawLine.trace fuel 0 0 2 1 = none ∧
        DrawLine panel128x32 fuel (List.replicate 512 0) 0 0 2 1 true = none) :=
  ⟨⟨by decide, by decide, ⟨by decide, by decide⟩, ⟨by decide, by decide⟩,
      ⟨by decide, by decide⟩, ⟨by decide, by decide⟩⟩,
    (DrawLine_steps panel128x32 (List.replicate 512 0) 0 0 2 1 true (by decide) (by decide)
      ⟨by decide, by decide⟩ ⟨by decide, by decide⟩ ⟨by decide, by decide⟩
      ⟨by decide, by decide⟩).1⟩

/-! ## `WriteString` -/

/-- A value in the range of `int16_t` converts to itself. -/
theorem int16_eq (v : Int) (h0 : -32768 ≤ v) (h1 : v ≤ 32767) : int16 v = v := by
  unfold int16
  omega

/-- The positions of a text that starts with the character `c`. -/
theorem charPositions_cons (x : Int) (c : Nat) (text : List Nat) :
    charPositions x (c :: text) = (x, c) :: charPositions (x + 8) text := by
  unfold charPositions
  rw [List.length_cons, List.range_succ_eq_map, List.map_cons, List.zip_cons_cons,
    List.map_map]
  congr 2
  · simp
  · apply List.map_congr_left
    intro k _
    simp only [Function.comp_apply, Nat.succ_eq_add_one]
    push_cast
    ring

/-- The loop of `WriteString` draws the characters before the first zero byte, each with
`WriteChar`, at the positions `x, x + 8, ...`, as long as these stay in the range of
`int16_t`. -/
theorem loop_eq_drawEach (cfg : Config) (font : List Nat) (y : Int) :
    ∀ (text reversed buf : List Nat) (x : Int), -32768 ≤ x →
      x + 8 * ((text.takeWhile (fun c => decide (c ≠ 0))).length : Int) ≤ 32767 →
      WriteString.loop cfg font y text reversed buf x =
        drawEach cfg font y (charPositions x (text.takeWhile (fun c => decide (c ≠ 0))))
          (reversed, buf) := by
  intro text
  induction text with
  | nil => intro reversed buf x _ _; rfl
  | cons c text ih =>
    intro reversed buf x h0 h1
    by_cases hc : c = 0
    · subst hc
      simp [WriteString.loop, charPositions, drawEach]
    · have htw : (c :: text).takeWhile (fun c => decide (c ≠ 0)) =
          c :: text.takeWhile (fun c => decide (c ≠ 0)) := by
        rw [List.takeWhile_cons]
        simp [hc]
      rw [htw] at h1 ⊢
      simp only [List.length_cons] at h1
      push_cast at h1
      rw [WriteString.loop, if_neg hc, charPositions_cons, drawEach]
      cases hw : WriteChar cfg font reversed buf x y c with
      | none => rfl
      | some st =>
        obtain ⟨r1, b1⟩ := st
        simp only []
        rw [int16_eq (x + 8) (by omega) (by omega)]
        exact ih r1 b1 (x + 8) (by omega) (by omega)

/-- The copy loop of `WriteChar`, when it succeeds, keeps the length of the buffer and leaves
every slot outside the `n` slots from `fb_idx` on as it was. -/
theorem copy_frame (reversed : List Nat) (idx : Int) :
    ∀ (n i : Nat) (buf buf1 : List Nat) (fb_idx : Int),
      WriteChar.copy reversed idx n i buf fb_idx = some buf1 →
      buf1.length = buf.length ∧
        ∀ j : Nat, ((j : Int) < fb_idx ∨ fb_idx + n ≤ (j : Int)) → buf1[j]? = buf[j]? := by
  intro n
  induction n with
  | zero =>
    intro i buf buf1 fb_idx h
    rw [WriteChar.copy] at h
    cases h
    exact ⟨rfl, fun _ _ => rfl⟩
  | succ n ih =>
    intro i buf buf1 fb_idx h
    rw [WriteChar.copy] at h
    by_cases h1 : idx * 8 + (i : Int) < 0
    · rw [if_pos h1] at h; simp at h
    · rw [if_neg h1] at h
      cases hr : reversed[(idx * 8 + (i : Int)).toNat]? with
      | none => rw [hr] at h; simp at h
      | some g =>
        rw [hr] at h
        simp only [] at h
        by_cases h2 : fb_idx < 0 ∨ fb_idx ≥ buf.length
        · rw [if_pos h2] at h; simp at h
        · rw [if_neg h2] at h
          obtain ⟨hl, hf⟩ := ih (i + 1) _ buf1 (fb_idx + 1) h
          refine ⟨by rw [hl, List.length_set], ?_⟩
          intro j hj
          rw [hf j (by push_cast at hj ⊢; omega), List.getElem?_set_ne (by omega)]

/-- The function `WriteChar`, when it succeeds, keeps the length of the buffer and leaves
alone every slot before `(y / 8) * 128 + x` and every slot from `(y / 8) * 128 + WIDTH` on:
it writes only at a position that passes its check. -/
theorem WriteChar_frame (cfg : Config) (font reversed buf : List Nat) (x y : Int) (ch : Nat)
    (r1 buf1 : List Nat) (h : WriteChar cfg font reversed buf x y ch = some (r1, buf1)) :
    buf1.length = buf.length ∧
      ∀ j : Nat, ((j : Int) < Int.tdiv y 8 * 128 + x ∨
        Int.tdiv y 8 * 128 + cfg.WIDTH ≤ (j : Int)) → buf1[j]? = buf[j]? := by
  unfold WriteChar at h
  cases hr : reversed[0]? with
  | none => rw [hr] at h; simp at h
  | some r0 =>
    rw [hr] at h
    simp only [] at h
    by_cases hb : x > cfg.WIDTH - 8 ∨ y > cfg.HEIGHT - 8
    · rw [if_pos hb] at h
      simp only [Option.some.injEq, Prod.mk.injEq] at h
      rw [← h.2]
      exact ⟨rfl, fun _ _ => rfl⟩
    · rw [if_neg hb] at h
      obtain ⟨b, hcp, hb1⟩ := Option.map_eq_some'.mp h
      simp only [Prod.mk.injEq] at hb1
      rw [← hb1.2]
      obtain ⟨hl, hf⟩ := copy_frame _ _ 8 0 buf b _ hcp
      refine ⟨hl, ?_⟩
      intro j hj
      exact hf j (by push_cast; omega)

/-- The loop of `WriteString`, when it succeeds, keeps the length of the buffer and leaves
alone every slot from `(y / 8) * 128 + WIDTH` on. -/
theorem loop_frame (cfg : Config) (font : List Nat) (y : Int) :
    ∀ (text reversed buf : List Nat) (x : Int) (r1 buf1 : List Nat),
      WriteString.loop cfg font y text reversed buf x = some (r1, buf1) →
      buf1.length = buf.length ∧
        ∀ j : Nat, Int.tdiv y 8 * 128 + cfg.WIDTH ≤ (j : Int) → buf1[j]? = buf[j]? := by
  intro text
  induction text with
  | nil =>
    intro reversed buf x r1 buf1 h
    rw [WriteString.loop] at h
    simp only [Option.some.injEq, Prod.mk.injEq] at h
    rw [← h.2]
    exact ⟨rfl, fun _ _ => rfl⟩
  | cons c text ih =>
    intro reversed buf x r1 buf1 h
    rw [WriteString.loop] at h
    by_cases hc : c = 0
    · rw [if_pos hc] at h
      simp only [Option.some.injEq, Prod.mk.injEq] at h
      rw [← h.2]
      exact ⟨rfl, fun _ _ => rfl⟩
    · rw [if_neg hc] at h
      cases hw : WriteChar cfg font reversed buf x y c with
      | none => rw [hw] at h; simp at h
      | some st =>
        obtain ⟨r2, b2⟩ := st
        rw [hw] at h
        simp only [] at h
        obtain ⟨hl1, hf1⟩ := WriteChar_frame cfg font reversed buf x y c r2 b2 hw
        obtain ⟨hl2, hf2⟩ := ih r2 b2 _ r1 buf1 h
        refine ⟨by rw [hl2, hl1], ?_⟩
        intro j hj
        rw [hf2 j hj, hf1 j (Or.inr hj)]

/-- The function `WriteString`, when it succeeds, keeps the length of the buffer and leaves
alone every slot from `(y / 8) * 128 + WIDTH` on. -/
theorem WriteString_frame (cfg : Config) (font reversed buf : List Nat) (x y : Int)
    (text r1 buf1 : List Nat)
    (h : WriteString cfg font reversed buf x y text = some (r1, buf1)) :
    buf1.length = buf.length ∧
      ∀ j : Nat, Int.tdiv y 8 * 128 + cfg.WIDTH ≤ (j : Int) → buf1[j]? = buf[j]? := by
  unfold WriteString at h
  by_cases hb : x > cfg.WIDTH - 8 ∨ y > cfg.HEIGHT - 8
  · rw [if_pos hb] at h
    simp only [Option.some.injEq, Prod.mk.injEq] at h
    rw [← h.2]
    exact ⟨rfl, fun _ _ => rfl⟩
  · rw [if_neg hb] at h
    exact loop_frame cfg font y text reversed buf x r1 buf1 h

/-- On a panel 128 pixels wide the loop of `WriteString` returns: every character is either
skipped by the check of `WriteChar` or written inside the buffer. -/
theorem loop_returns (cfg : Config) (font : List Nat) (y : Int) (hW : cfg.WIDTH = 128)
    (hfont : 296 ≤ font.length) (hy0 : 0 ≤ y) (hy : y ≤ cfg.HEIGHT - 8) :
    ∀ (text reversed buf : List Nat) (x : Int), CacheReachable cfg font reversed →
      (buf.length : Int) = SSD1306_BUF_LEN cfg → 0 ≤ x →
      x + 8 * (text.length : Int) ≤ 32767 →
      ∃ r1 buf1, WriteString.loop cfg font y text reversed buf x = some (r1, buf1) := by
  intro text
  induction text with
  | nil => intro reversed buf x _ _ _ _; exact ⟨reversed, buf, rfl⟩
  | cons c text ih =>
    intro reversed buf x hreach hlen hx0 hfit
    simp only [List.length_cons] at hfit
    push_cast at hfit
    rw [WriteString.loop]
    by_cases hc : c = 0
    · rw [if_pos hc]; exact ⟨reversed, buf, rfl⟩
    · rw [if_neg hc]
      have hstep : ∃ b2, WriteChar cfg font reversed buf x y c = some (font.map reverse, b2) ∧
          b2.length = buf.length := by
        by_cases hb : x > cfg.WIDTH - 8 ∨ y > cfg.HEIGHT - 8
        · exact ⟨buf, WriteChar_culled cfg font reversed buf x y c (by omega) hreach hb, rfl⟩
        · obtain ⟨b2, h1, h2, _⟩ := WriteChar_width128 cfg font reversed buf x y c hW hfont
            hreach hlen hx0 (by omega) hy0 hy
          exact ⟨b2, h1, h2⟩
      obtain ⟨b2, hw, hl2⟩ := hstep
      rw [hw]
      simp only []
      rw [int16_eq (x + 8) (by omega) (by omega)]
      exact ih _ b2 (x + 8) (CacheReachable.step reversed buf x y c _ b2 hreach hw)
        (by rw [hl2]; exact hlen) (by omega) (by omega)

/-! ## The claims on `WriteString` -/

/-- The text "AB" at `x = 5`, `y = 0`: the glyph of `'A'` goes to the slots 5..12, the glyph
of `'B'` to the slots 13..20, and the other slots stay as they were. -/
theorem WriteString_AB (cfg : Config) (font reversed buf : List Nat) (hW : 21 ≤ cfg.WIDTH)
    (hH : 8 ≤ cfg.HEIGHT) (hfont : 296 ≤ font.length)
    (hreach : CacheReachable cfg font reversed) (hlen : 21 ≤ buf.length) :
    ∃ buf1, WriteString cfg font reversed buf 5 0 [65, 66] = some (font.map reverse, buf1) ∧
      (∀ i : Nat, i < 8 →
        buf1[5 + i]? = some (reverse (font.getD ((8 * glyph_index 65).toNat + i) 0))) ∧
      (∀ i : Nat, i < 8 →
        buf1[13 + i]? = some (reverse (font.getD ((8 * glyph_index 66).toNat + i) 0))) ∧
      (∀ j : Nat, j < 5 ∨ 21 ≤ j → buf1[j]? = buf[j]?) := by
  obtain ⟨b1, hw1, hl1, hg1, hf1⟩ := WriteChar_writes cfg font reversed buf 5 0 65 hfont hreach
    (by decide) (by omega) (by decide) (by omega) (by omega)
  have hreach1 := CacheReachable.step reversed buf 5 0 65 _ b1 hreach hw1
  obtain ⟨b2, hw2, _, hg2, hf2⟩ := WriteChar_writes cfg font (font.map reverse) b1 13 0 66 hfont
    hreach1 (by decide) (by omega) (by decide) (by omega) (by omega)
  have e5 : (((0 : Int) / 8) * 128 + 5).toNat = 5 := by decide
  have e13 : (((0 : Int) / 8) * 128 + 13).toNat = 13 := by decide
  rw [e5] at hg1 hf1
  rw [e13] at hg2 hf2
  refine ⟨b2, ?_, ?_, hg2, ?_⟩
  · unfold WriteString
    rw [if_neg (by omega), WriteString.loop, if_neg (by decide), hw1]
    simp only []
    have e : int16 (5 + 8) = 13 := by decide
    rw [e, WriteString.loop, if_neg (by decide), hw2]
    rfl
  · intro i hi
    rw [hf2 (5 + i) (Or.inl (by omega))]
    exact hg1 i hi
  · intro j hj
    rw [hf2 j (by omega), hf1 j (by omega)]

/-- The function `WriteString` while the positions stay in the range of `int16_t`: for a
start position in that range and a text whose positions `x + 8 * k` stay in it, `WriteString`
at a start position that passes the check draws the characters of the text (up to its
terminating zero byte) in order, each with `WriteChar`, at the positions
`x, x + 8, x + 16, ...` and the same `y`; at a start position that fails the check it returns
the buffer as it is.  At `x = 5`, `y = 0` the text "AB" puts the 8 bytes of the glyph of `'A'`
into the slots 5..12 and those of `'B'` into the slots 13..20. -/
theorem WriteString_draws (cfg : Config) (font reversed buf : List Nat) (x y : Int)
    (text : List Nat) (hx16 : -32768 ≤ x)
    (hfit : x + 8 * ((text.takeWhile (fun c => decide (c ≠ 0))).length : Int) ≤ 32767) :
    (x ≤ cfg.WIDTH - 8 ∧ y ≤ cfg.HEIGHT - 8 →
      WriteString cfg font reversed buf x y text =
        drawEach cfg font y (charPositions x (text.takeWhile (fun c => decide (c ≠ 0))))
          (reversed, buf)) ∧
    (x > cfg.WIDTH - 8 ∨ y > cfg.HEIGHT - 8 →
      WriteString cfg font reversed buf x y text = some (reversed, buf)) ∧
    charPositions x [65, 66, 67] = [(x, 65), (x + 8, 66), (x + 16, 67)] ∧
    (21 ≤ cfg.WIDTH → 8 ≤ cfg.HEIGHT → 296 ≤ font.length →
      CacheReachable cfg font reversed → 21 ≤ buf.length →
      ∃ buf1, WriteString cfg font reversed buf 5 0 [65, 66] = some (font.map reverse, buf1) ∧
        (∀ i : Nat, i < 8 →
          buf1[5 + i]? = some (reverse (font.getD ((8 * glyph_index 65).toNat + i) 0))) ∧
        (∀ i : Nat, i < 8 →
          buf1[13 + i]? = some (reverse (font.getD ((8 * glyph_index 66).toNat + i) 0))) ∧
        (∀ j : Nat, j < 5 ∨ 21 ≤ j → buf1[j]? = buf[j]?)) := by
  refine ⟨?_, ?_, ?_, fun hW hH hfont hreach hlen =>
    WriteString_AB cfg font reversed buf hW hH hfont hreach hlen⟩
  · intro h
    unfold WriteString
    rw [if_neg (by omega)]
    exact loop_eq_drawEach cfg font y text reversed buf x hx16 hfit
  · intro h
    unfold WriteString
    rw [if_pos h]
  · rw [charPositions_cons, charPositions_cons, charPositions_cons]
    simp [charPositions]
    ring

set_option maxRecDepth 100000 in
/-- C17, as stated, fails on the 128x32 panel: no start position that passes the check and no
text make `WriteString` change a slot beyond the last column of the row it started in.  A
text of twenty `'A'` at `x = 5`, `y = 0` fills the fifteen glyph cells 5..124 and nothing
after them. -/
theorem WriteString_runoff_counterexample :
    (¬ ∃ (font reversed buf : List Nat) (x y : Int) (text r1 buf1 : List Nat) (j : Nat),
        0 ≤ x ∧ x ≤ panel128x32.WIDTH - 8 ∧ 0 ≤ y ∧ y ≤ panel128x32.HEIGHT - 8 ∧
        WriteString panel128x32 font reversed buf x y text = some (r1, buf1) ∧
        (y / 8) * panel128x32.WIDTH + panel128x32.WIDTH - 1 < (j : Int) ∧
        buf1[j]? ≠ buf[j]?) ∧
      WriteString panel128x32 (List.replicate 296 255) (List.replicate 296 0)
          (List.replicate 512 0) 5 0 (List.replicate 20 65) =
        some (List.replicate 296 255,
          List.replicate 5 0 ++ List.replicate 120 255 ++ List.replicate 387 0) := by
  refine ⟨?_, by decide⟩
  rintro ⟨font, reversed, buf, x, y, text, r1, buf1, j, _, _, hy0, _, hw, hj, hne⟩
  apply hne
  have hd : Int.tdiv y 8 = y / 8 := Int.tdiv_eq_ediv hy0 (by norm_num)
  have hW : panel128x32.WIDTH = 128 := rfl
  rw [hW] at hj
  exact (WriteString_frame panel128x32 font reversed buf x y text r1 buf1 hw).2 j
    (by rw [hd, hW]; omega)

/-- C17 (amended): on a panel 128 pixels wide, with a font of 37 glyphs, a reachable cache and
a buffer of `SSD1306_BUF_LEN` bytes, for every start position that passes the check and every
text whose positions stay in the range of `int16_t`, `WriteString` returns, keeps the length
of the buffer and leaves every slot beyond the last column of the starting row,
`j > row * width + width - 1`, as it was: `WriteChar` repeats the check for every character
and returns the buffer as it is for a character at a position `x > width - 8`. -/
theorem WriteString_stays_in_row (cfg : Config) (font reversed buf : List Nat) (x y : Int)
    (text : List Nat) (hW : cfg.WIDTH = 128) (hfont : 296 ≤ font.length)
    (hreach : CacheReachable cfg font reversed)
    (hlen : (buf.length : Int) = SSD1306_BUF_LEN cfg)
    (hx0 : 0 ≤ x) (hx : x ≤ cfg.WIDTH - 8) (hy0 : 0 ≤ y) (hy : y ≤ cfg.HEIGHT - 8)
    (hfit : x + 8 * (text.length : Int) ≤ 32767) :
    (∃ r1 buf1, WriteString cfg font reversed buf x y text = some (r1, buf1) ∧
      buf1.length = buf.length ∧
      ∀ j : Nat, (y / 8) * cfg.WIDTH + cfg.WIDTH - 1 < (j : Int) → buf1[j]? = buf[j]?) ∧
    (∀ (r b : List Nat) (px : Int) (ch : Nat), CacheReachable cfg font r →
      px > cfg.WIDTH - 8 → WriteChar cfg font r b px y ch = some (font.map reverse, b)) := by
  constructor
  · obtain ⟨r1, buf1, hl⟩ := loop_returns cfg font y hW hfont hy0 hy text reversed buf x hreach
      hlen hx0 hfit
    have hw : WriteString cfg font reversed buf x y text = some (r1, buf1) := by
      unfold WriteString
      rw [if_neg (by omega)]
      exact hl
    have hd : Int.tdiv y 8 = y / 8 := Int.tdiv_eq_ediv hy0 (by norm_num)
    obtain ⟨h1, h2⟩ := WriteString_frame cfg font reversed buf x y text r1 buf1 hw
    refine ⟨r1, buf1, hw, h1, ?_⟩
    intro j hj
    exact h2 j (by rw [hd]; rw [hW] at hj ⊢; omega)
  · intro r b px ch hr hpx
    exact WriteChar_culled cfg font r b px y ch (by omega) hr (Or.inl hpx)

set_option maxRecDepth 100000 in
/-- Witness of C17 (amended): twenty `'A'` at `x = 5`, `y = 8` on the 128x32 panel, with a
font of all-ones bytes, the cache in its initial state and an empty frame. -/
theorem WriteString_stays_in_row_witness :
    (panel128x32.WIDTH = 128 ∧ 296 ≤ (List.replicate 296 255).length ∧
      ((List.replicate 512 0).length : Int) = SSD1306_BUF_LEN panel128x32 ∧
      (0 : Int) ≤ 5 ∧ (5 : Int) ≤ panel128x32.WIDTH - 8 ∧ (0 : Int) ≤ 8 ∧
      (8 : Int) ≤ panel128x32.HEIGHT - 8 ∧
      (5 : Int) + 8 * ((List.replicate 20 65).length : Int) ≤ 32767) ∧
    ∃ r1 buf1, WriteString panel128x32 (List.replicate 296 255) (List.replicate 296 0)
        (List.replicate 512 0) 5 8 (List.replicate 20 65) = some (r1, buf1) ∧
      buf1.length = (List.replicate 512 0).length ∧
      ∀ j : Nat, ((8 : Int) / 8) * panel128x32.WIDTH + panel128x32.WIDTH - 1 < (j : Int) →
        buf1[j]? = (List.replicate 512 0)[j]? :=
  ⟨⟨by decide, by decide, by decide, by decide, by decide, by decide, by decide, by decide⟩,
    (WriteString_stays_in_row panel128x32 (List.replicate 296 255) (List.replicate 296 0)
      (List.replicate 512 0) 5 8 (List.replicate 20 65) rfl (by decide) CacheReachable.init
      (by decide) (by decide) (by decide) (by decide) (by decide) (by decide)).1⟩

/-! ## The claim on `WriteString` and the text it draws -/

/-- The copy loop of `WriteChar` started before the buffer fails at its first store. -/
theorem copy_before_buffer (reversed : List Nat) (idx : Int) (n i : Nat) (buf : List Nat)
    (fb_idx : Int) (hn : 0 < n) (hneg : fb_idx < 0) :
    WriteChar.copy reversed idx n i buf fb_idx = none := by
  obtain ⟨m, rfl⟩ : ∃ m, n = m + 1 := ⟨n - 1, by omega⟩
  rw [WriteChar.copy]
  by_cases h1 : idx * 8 + (i : Int) < 0
  · rw [if_pos h1]
  · rw [if_neg h1]
    cases reversed[(idx * 8 + (i : Int)).toNat]? with
    | none => rfl
    | some g =>
      simp only []
      rw [if_pos (Or.inl hneg)]

/-- The function `WriteChar` at a position that passes its check and lies before the buffer,
`(y / 8) * 128 + x < 0`: the store is outside the buffer. -/
theorem WriteChar_before_buffer (cfg : Config) (font reversed buf : List Nat) (x y : Int)
    (ch : Nat) (hnc : ¬ (x > cfg.WIDTH - 8 ∨ y > cfg.HEIGHT - 8))
    (hneg : Int.tdiv y 8 * 128 + x < 0) :
    WriteChar cfg font reversed buf x y ch = none := by
  unfold WriteChar
  cases reversed[0]? with
  | none => rfl
  | some r0 =>
    simp only []
    rw [if_neg hnc, copy_before_buffer _ _ 8 0 buf _ (by decide) hneg]
    rfl

/-- The loop of `WriteString` over `n` characters at positions beyond `WIDTH - 8`, all within
the range of `int16_t`: each is skipped by the check of `WriteChar`, and the loop goes on with
the rest of the text at `x + 8 * n`, the buffer as it was. -/
theorem loop_culled (cfg : Config) (font : List Nat) (y : Int) (c : Nat) (hc : c ≠ 0)
    (hfont : 0 < font.length) :
    ∀ (n : Nat) (rest reversed buf : List Nat) (x : Int), CacheReachable cfg font reversed →
      x > cfg.WIDTH - 8 → -32768 ≤ x → x + 8 * (n : Int) ≤ 32767 →
      ∃ r1, CacheReachable cfg font r1 ∧
        WriteString.loop cfg font y (List.replicate n c ++ rest) reversed buf x =
          WriteString.loop cfg font y rest r1 buf (x + 8 * (n : Int)) := by
  intro n
  induction n with
  | zero =>
    intro rest reversed buf x hreach _ _ _
    refine ⟨reversed, hreach, ?_⟩
    simp
  | succ n ih =>
    intro rest reversed buf x hreach hx hx16 hfit
    push_cast at hfit
    have hw := WriteChar_culled cfg font reversed buf x y c hfont hreach (Or.inl hx)
    obtain ⟨r1, hr1, hl⟩ := ih rest (font.map reverse) buf (x + 8)
      (CacheReachable.step reversed buf x y c _ buf hreach hw) (by omega) (by omega) (by omega)
    refine ⟨r1, hr1, ?_⟩
    rw [List.replicate_succ, List.cons_append, WriteString.loop, if_neg hc, hw]
    simp only []
    rw [int16_eq (x + 8) (by omega) (by omega), hl]
    congr 1
    push_cast
    ring

/-- The positions of a text start at `x` and go up. -/
theorem charPositions_ge :
    ∀ (text : List Nat) (x : Int) (p : Int × Nat), p ∈ charPositions x text → x ≤ p.1 := by
  intro text
  induction text with
  | nil => intro x p hp; simp [charPositions] at hp
  | cons c text ih =>
    intro x p hp
    rw [charPositions_cons] at hp
    rcases List.mem_cons.mp hp with rfl | h
    · exact le_refl _
    · have := ih (x + 8) p h
      omega

/-- Characters drawn at positions beyond `WIDTH - 8` leave a filled cache and the buffer as
they are. -/
theorem drawEach_culled (cfg : Config) (font : List Nat) (y : Int) (hfont : 0 < font.length)
    (hreach : CacheReachable cfg font (font.map reverse)) :
    ∀ (l : List (Int × Nat)) (buf : List Nat), (∀ p ∈ l, p.1 > cfg.WIDTH - 8) →
      drawEach cfg font y l (font.map reverse, buf) = some (font.map reverse, buf) := by
  intro l
  induction l with
  | nil => intro buf _; rfl
  | cons p l ih =>
    intro buf h
    obtain ⟨px, c⟩ := p
    have hw := WriteChar_culled cfg font (font.map reverse) buf px y c hfont hreach
      (Or.inl (h (px, c) (List.mem_cons_self _ _)))
    rw [drawEach]
    simp only []
    rw [hw]
    exact ih buf (fun q hq => h q (List.mem_cons_of_mem _ hq))

/-- C11: on the 128x32 panel, with a font of 37 glyphs, a reachable cache and a buffer of
`SSD1306_BUF_LEN` bytes, `WriteString` at `x = 120`, `y = 0`, a start position that passes
the check, with a text of 4082 `'A'`: the `int16_t` position reaches `120 + 8 * 4081 = 32768`
and wraps to `-32768`, a position that passes the check of `WriteChar`, and the last
character is stored before the buffer, so `WriteString` fails; drawing each character with
`WriteChar` at `x, x + 8, x + 16, ...` stores the glyph of the first character in the slots
120..127, skips the others and leaves the other slots as they were.  With one character
less the two agree. -/
theorem WriteString_wraps (font reversed buf : List Nat) (hfont : 296 ≤ font.length)
    (hreach : CacheReachable panel128x32 font reversed)
    (hlen : (buf.length : Int) = SSD1306_BUF_LEN panel128x32) :
    ((120 : Int) ≤ panel128x32.WIDTH - 8 ∧ (0 : Int) ≤ panel128x32.HEIGHT - 8) ∧
    int16 (120 + 8 * 4081) = -32768 ∧
    WriteString panel128x32 font reversed buf 120 0 (List.replicate 4082 65) = none ∧
    (∃ buf1, drawEach panel128x32 font 0 (charPositions 120 (List.replicate 4082 65))
        (reversed, buf) = some (font.map reverse, buf1) ∧
      (∀ i : Nat, i < 8 →
        buf1[120 + i]? = some (reverse (font.getD ((8 * glyph_index 65).toNat + i) 0))) ∧
      (∀ j : Nat, j < 120 ∨ 128 ≤ j → buf1[j]? = buf[j]?)) ∧
    WriteString panel128x32 font reversed buf 120 0 (List.replicate 4081 65) =
      drawEach panel128x32 font 0 (charPositions 120 (List.replicate 4081 65))
        (reversed, buf) := by
  have hW : panel128x32.WIDTH = 128 := rfl
  obtain ⟨b1, hw1, _, _, hg1, hf1⟩ := WriteChar_width128 panel128x32 font reversed buf 120 0 65
    hW hfont hreach hlen (by decide) (by decide) (by decide) (by decide)
  have e120 : (((0 : Int) / 8) * panel128x32.WIDTH + 120).toNat = 120 := by decide
  rw [e120] at hg1 hf1
  have hreach1 := CacheReachable.step reversed buf 120 0 65 _ b1 hreach hw1
  have hfont0 : 0 < font.length := by omega
  have h65 : (65 : Nat) ≠ 0 := by decide
  -- the drawing of the specification: the first character is stored, the others are skipped
  have hdraw : ∀ n : Nat, drawEach panel128x32 font 0
      (charPositions 120 (List.replicate (n + 1) 65)) (reversed, buf) =
        some (font.map reverse, b1) := by
    intro n
    rw [List.replicate_succ, charPositions_cons, drawEach]
    simp only []
    rw [hw1]
    simp only []
    apply drawEach_culled panel128x32 font 0 hfont0 hreach1
    intro p hp
    have := charPositions_ge _ _ p hp
    rw [hW]
    omega
  -- the loop of the code up to the position 32760
  have hloop : ∀ rest : List Nat, ∃ r1, CacheReachable panel128x32 font r1 ∧
      WriteString panel128x32 font reversed buf 120 0 (65 :: (List.replicate 4079 65 ++ rest)) =
        WriteString.loop panel128x32 font 0 rest r1 b1 32760 := by
    intro rest
    obtain ⟨r1, hr1, hl⟩ := loop_culled panel128x32 font 0 65 h65 hfont0 4079 rest
      (font.map reverse) b1 128 hreach1 (by decide) (by decide) (by decide)
    have e1 : (128 : Int) + 8 * ((4079 : Nat) : Int) = 32760 := by decide
    rw [e1] at hl
    refine ⟨r1, hr1, ?_⟩
    unfold WriteString
    rw [if_neg (by decide), WriteString.loop, if_neg h65, hw1]
    simp only []
    have e2 : int16 (120 + 8) = 128 := by decide
    rw [e2, hl]
  have hT2 : List.replicate 4082 65 = 65 :: (List.replicate 4079 65 ++ [65, 65]) := by
    rw [show (4082 : Nat) = (4079 + 2) + 1 from rfl, List.replicate_succ, List.replicate_add]
    rfl
  have hT1 : List.replicate 4081 65 = 65 :: (List.replicate 4079 65 ++ [65]) := by
    rw [show (4081 : Nat) = (4079 + 1) + 1 from rfl, List.replicate_succ, List.replicate_add]
    rfl
  have e3 : int16 (32760 + 8) = -32768 := by decide
  refine ⟨⟨by decide, by decide⟩, by decide, ?_, ⟨b1, hdraw 4081, hg1, hf1⟩, ?_⟩
  · obtain ⟨r1, hr1, hl⟩ := hloop [65, 65]
    rw [hT2, hl, WriteString.loop, if_neg h65,
      WriteChar_culled panel128x32 font r1 b1 32760 0 65 hfont0 hr1 (Or.inl (by decide))]
    simp only []
    rw [e3, WriteString.loop, if_neg h65,
      WriteChar_before_buffer panel128x32 font _ b1 (-32768) 0 65 (by decide) (by decide)]
  · obtain ⟨r1, hr1, hl⟩ := hloop [65]
    rw [hT1, hl, ← hT1, hdraw 4080, WriteString.loop, if_neg h65,
      WriteChar_culled panel128x32 font r1 b1 32760 0 65 hfont0 hr1 (Or.inl (by decide))]
    simp only []
    rw [WriteString.loop]

set_option maxRecDepth 100000 in
/-- Witness of C11: a font of all-ones bytes, the cache in its initial state and an empty
frame. -/
theorem WriteString_wraps_witness :
    (296 ≤ (List.replicate 296 255).length ∧
      ((List.replicate 512 0).length : Int) = SSD1306_BUF_LEN panel128x32) ∧
    WriteString panel128x32 (List.replicate 296 255) (List.replicate 296 0)
        (List.replicate 512 0) 120 0 (List.replicate 4082 65) = none ∧
    ∃ buf1, drawEach panel128x32 (List.replicate 296 255) 0
        (charPositions 120 (List.replicate 4082 65))
        (List.replicate 296 0, List.replicate 512 0) =
          some ((List.replicate 296 255).map reverse, buf1) ∧
      (∀ i : Nat, i < 8 → buf1[120 + i]? =
        some (reverse ((List.replicate 296 255).getD ((8 * glyph_index 65).toNat + i) 0))) ∧
      (∀ j : Nat, j < 120 ∨ 128 ≤ j → buf1[j]? = (List.replicate 512 0)[j]?) :=
  ⟨⟨by decide, by decide⟩,
    (WriteString_wraps (List.replicate 296 255) (List.replicate 296 0) (List.replicate 512 0)
      (by decide) CacheReachable.init (by decide)).2.2.1,
    (WriteString_wraps (List.replicate 296 255) (List.replicate 296 0) (List.replicate 512 0)
      (by decide) CacheReachable.init (by decide)).2.2.2.1⟩

end SSD1306
